import Mathlib

/-!
Decimal string to little-endian bytes (`questions/decimal-to-binary-54422895/main.c`).

A shallow embedding of `main.c` and proofs about it.

Modelling conventions.

* A C string is the list of the `char` codes stored in memory before the end of
  the object; reading stops at the first `0` code (the terminator) or at the end
  of the list.  `char` values are natural numbers (`'0'` is `48`).
* `DivFlags` is an enumeration with negative enumerators (`~15`, `~1`, `~2`), so
  its values are C `int`s.  An `int` is a 32-bit two's complement word, kept here
  as its bit pattern (a natural number below `2 ^ 32`); arithmetic on it wraps
  modulo `2 ^ 32` and `toInt` reads the pattern as a signed number.
* `size_t` is a 64-bit unsigned integer.
* `malloc`/`calloc` are an oracle `alloc : Nat → Bool` telling whether a request
  of that many bytes succeeds.
* The working copy of `base10to256` is a list together with the position of the
  pointer `decimal` in it, an integer: the pointer is advanced by the signed
  quotient `flags / LEADING_ZERO_COUNT`.  The pointer can be moved in front of
  the copy; what the code does then depends on the memory there.  The bytes that
  can be read in front of the copy are a parameter `front` of `base10to256_mem`
  and `base10to256_impl_mem`, and the loop runs on `front ++ copy`; a read in
  front of `front` (memory that is not mapped) is a failure.  The functions
  `base10to256` and `base10to256_impl` are the case `front = []`.
* A failed `assert`, a `NULL` result, a read outside the readable memory and a
  value that was never written are the values of `Failure`.
-/

namespace DecimalToBinary

/-- Number of bits of a C `int`. -/
def INT_BITS : Nat := 32

/-- Largest value of `size_t`. -/
def SIZE_MAX : Nat := 2 ^ 64 - 1

/-- Ways in which a call does not deliver a value. -/
inductive Failure where
  /-- An `assert` failed. -/
  | assertion
  /-- The allocator returned `NULL`, which the function hands on. -/
  | allocation
  /-- Memory that cannot be read or written was accessed: in front of the
  readable bytes, or past the end of an allocation. -/
  | outOfBounds
  /-- The value handed back is memory that was never written. -/
  | indeterminate
deriving DecidableEq, Repr

deriving instance DecidableEq for Except

/-! ## Bytes class -/

/-- The `struct BytesImpl`: the logical `size` and the allocated payload `data`
(one natural number below 256 per `uint8_t`). -/
structure Bytes where
  size : Nat
  data : List Nat
deriving DecidableEq, Repr

/-- The `offsetof(struct BytesImpl, data)`, which the static assertion fixes to
`sizeof(size_t)`. -/
def Bytes_header_size : Nat := 8

/-- The function `new_Bytes(size)`: `calloc` of header plus payload, `impl->size = size`. -/
def new_Bytes (alloc : Nat → Bool) (size : Nat) : Except Failure Bytes :=
  if ¬ size ≤ SIZE_MAX - Bytes_header_size then .error .assertion
  else if ¬ alloc (Bytes_header_size + size) = true then .error .allocation
  else .ok ⟨size, List.replicate size 0⟩

/-- The function `Bytes_size(bytes)`: the `size` field. -/
def Bytes_size (bytes : Bytes) : Nat := bytes.size

/-- The function `Bytes_truncate(bytes, new_size)`: returns at once when
`*size <= new_size`, else stores `new_size` in the size field. -/
def Bytes_truncate (bytes : Bytes) (new_size : Nat) : Bytes :=
  if bytes.size ≤ new_size then bytes else { bytes with size := new_size }

/-- The function `Bytes_set_bit(bytes, bit_num)`: `bytes[bit_num / 8] |= 1 << (bit_num % 8)`,
the result stored back into a `uint8_t`.  The byte must lie in the allocation. -/
def Bytes_set_bit (bytes : Bytes) (bit_num : Nat) : Except Failure Bytes :=
  if bit_num / 8 < bytes.data.length then
    .ok { bytes with
      data := bytes.data.set (bit_num / 8)
        ((bytes.data.getD (bit_num / 8) 0 ||| (1 <<< (bit_num % 8))) % 256) }
  else .error .outOfBounds

/-! ## DivFlags -/

/-- C `~x` on an `int`, as a bit pattern. -/
def bnot (x : Nat) : Nat := 2 ^ INT_BITS - 1 - x

/-- Signed value of an `int` bit pattern. -/
def toInt (x : Nat) : Int :=
  if x < 2 ^ (INT_BITS - 1) then (x : Int) else (x : Int) - 2 ^ INT_BITS

/-- There is a non-zero remainder. -/
def REMAINDER : Nat := 1
/-- The quotient is zero or null. -/
def ZERO : Nat := 2
/-- The dividend is null or empty (as the source comments it). -/
def NULL_DECIMAL : Nat := 4
/-- Division was terminated on non-decimal characters. -/
def NON_DECIMALS : Nat := 8
/-- Count of leading zeroes in the quotient (unit of the count field). -/
def LEADING_ZERO_COUNT : Nat := 16
/-- The enumerator `~(LEADING_ZERO_COUNT - 1)`. -/
def LEADING_ZERO_COUNT_MASK : Nat := bnot (LEADING_ZERO_COUNT - 1)
/-- The enumerator `~REMAINDER`. -/
def CLR_CARRY_MASK : Nat := bnot REMAINDER
/-- The enumerator `~ZERO`. -/
def CLR_ZERO_MASK : Nat := bnot ZERO

/-! ## Division by two -/

/-- The `while ((c = *decimal))` loop of `divideBy2`, started with the given
`flags`.  Returns the string as it stands afterwards and the flags. -/
def divideBy2_loop : List Nat → Nat → Except Failure (List Nat × Nat)
  | [], flags => .ok ([], flags)
  | c :: rest, flags =>
    if c = 0 then .ok (c :: rest, flags)
    else if c < '0'.toNat ∨ c > '9'.toNat then .ok (c :: rest, flags ||| NON_DECIMALS)
    else
      let c1 := c - '0'.toNat + (if flags &&& REMAINDER ≠ 0 then 10 else 0)
      let flags1 := if c1 &&& 1 ≠ 0 then flags ||| REMAINDER else flags &&& CLR_CARRY_MASK
      let c2 := c1 >>> 1
      if ¬ c2 ≤ 9 then .error .assertion
      else
        let flags2 :=
          if c2 ≠ 0 then flags1 &&& CLR_ZERO_MASK
          else if flags1 &&& ZERO ≠ 0 then
            if flags1 &&& LEADING_ZERO_COUNT_MASK ≠ LEADING_ZERO_COUNT_MASK then
              (flags1 + LEADING_ZERO_COUNT) % 2 ^ INT_BITS
            else flags1
          else flags1
        match divideBy2_loop rest flags2 with
        | .ok (q, f) => .ok ((c2 + '0'.toNat) :: q, f)
        | .error e => .error e

/-- The function `divideBy2(decimal)`; `none` is the null pointer (no string is touched and
the empty list is returned for it). -/
def divideBy2 : Option (List Nat) → Except Failure (List Nat × Nat)
  | none => .ok ([], ZERO ||| NULL_DECIMAL)
  | some decimal => divideBy2_loop decimal ZERO

/-! ## Base conversion -/

/-- The `for (size_t bit_num = 0;; bit_num++)` loop of `base10to256_impl`.
`buf` is the memory that can be read, from its first byte to the end of the
working copy, and `off` the position of `decimal` in it: `base10to256_impl` runs
the loop on the working copy alone, `base10to256_impl_mem` on the copy with the
bytes in front of it.  A read in front of the first byte of `buf` is a failure.
The assertion `bit_num / 8 < len` stops the loop after at most `8 * len + 1`
rounds; `fuel` is that bound (see `base10to256_impl`). -/
def base10to256_impl_loop :
    Nat → Bytes → List Nat → Int → Nat → Nat → Except Failure Bytes
  | 0, _, _, _, _, _ => .error .assertion
  | fuel + 1, bytes, buf, off, len, bit_num =>
    if off < 0 ∨ (buf.length : Int) < off then .error .outOfBounds
    else
      match divideBy2 (some (buf.drop off.toNat)) with
      | .error e => .error e
      | .ok (q, flags) =>
        if flags &&& NULL_DECIMAL ≠ 0 then .error .assertion
        else
          let buf1 := buf.take off.toNat ++ q
          let off1 := off + Int.tdiv (toInt flags) (LEADING_ZERO_COUNT : Int)
          if flags &&& ZERO ≠ 0 ∧ ¬ flags &&& REMAINDER ≠ 0 then
            let new_len := (bit_num + 7) / 8
            if new_len = 0 then
              if 0 < bytes.data.length then
                .ok (Bytes_truncate { bytes with data := bytes.data.set 0 0 } (new_len + 1))
              else .error .outOfBounds
            else .ok (Bytes_truncate bytes new_len)
          else if ¬ bit_num / 8 < len then .error .assertion
          else
            match (if flags &&& REMAINDER ≠ 0 then Bytes_set_bit bytes bit_num
                   else .ok bytes) with
            | .error e => .error e
            | .ok bytes1 => base10to256_impl_loop fuel bytes1 buf1 off1 len (bit_num + 1)

/-- The function `base10to256_impl(bytes, decimal, len)`: the loop from round 0 with
`decimal` at the start of the working copy, when no byte in front of the copy
can be read (`base10to256_impl_mem` with `front = []`). -/
def base10to256_impl (bytes : Bytes) (decimal : List Nat) (len : Nat) :
    Except Failure Bytes :=
  base10to256_impl_loop (8 * len + 1) bytes decimal 0 len 0

/-- The library function `strlen`: the number of characters before the first `0`. -/
def strlen (s : List Nat) : Nat := (s.takeWhile (fun c => c ≠ 0)).length

/-- The constant `BASE_RATIO_NUM`, `ceil(log(10)/log(256)*1000)`. -/
def BASE_RATIO_NUM : Nat := 416
/-- The constant `BASE_RATIO_DENOM`. -/
def BASE_RATIO_DENOM : Nat := 1000

/-- The function `base10to256(decimal)`; `none` is the null pointer.  No byte in
front of the working copy can be read (`base10to256_mem` with `front = []`). -/
def base10to256 (alloc : Nat → Bool) : Option (List Nat) → Except Failure Bytes
  | none => .error .assertion
  | some decimal =>
    let dec_len := strlen decimal
    if ¬ alloc (dec_len + 1) = true then .error .allocation
    else
      let dec_buf := decimal.take dec_len
      if ¬ dec_len ≤ SIZE_MAX / BASE_RATIO_NUM then .error .assertion
      else
        let len := dec_len * BASE_RATIO_NUM / BASE_RATIO_DENOM + 1
        match new_Bytes alloc len with
        | .error e => .error e
        | .ok bytes => base10to256_impl bytes dec_buf len

/-- The function `base10to256_impl(bytes, decimal, len)` with the memory in front of
the working copy made explicit.  `front` holds the bytes that can be read directly
in front of the copy (its last element is the byte at `decimal[-1]`); nothing in
front of `front` can be read.  The loop runs on `front ++ decimal` with the pointer
at position `front.length`, so `divideBy2` reads and halves whatever digits it
finds there. -/
def base10to256_impl_mem (front : List Nat) (bytes : Bytes) (decimal : List Nat) (len : Nat) :
    Except Failure Bytes :=
  base10to256_impl_loop (8 * len + 1) bytes (front ++ decimal) (front.length : Int) len 0

/-- The function `base10to256(decimal)` when the bytes `front` lie directly in front
of the block that `malloc` returns for the working copy; `base10to256` is the case
`front = []`. -/
def base10to256_mem (alloc : Nat → Bool) (front : List Nat) :
    Option (List Nat) → Except Failure Bytes
  | none => .error .assertion
  | some decimal =>
    let dec_len := strlen decimal
    if ¬ alloc (dec_len + 1) = true then .error .allocation
    else
      let dec_buf := decimal.take dec_len
      if ¬ dec_len ≤ SIZE_MAX / BASE_RATIO_NUM then .error .assertion
      else
        let len := dec_len * BASE_RATIO_NUM / BASE_RATIO_DENOM + 1
        match new_Bytes alloc len with
        | .error e => .error e
        | .ok bytes => base10to256_impl_mem front bytes dec_buf len

/-! ## Hexadecimal rendering -/

/-- One uppercase hexadecimal digit, as the conversion `X` of `printf` prints it. -/
def hexDigit (d : Nat) : Nat := if d < 10 then '0'.toNat + d else 'A'.toNat + (d - 10)

/-- The characters `snprintf(o, 3, "%02" PRIX8, c)` stores before the terminator,
for a `uint8_t` value `c`. -/
def snprintf_02X (c : Nat) : List Nat := [hexDigit (c / 16), hexDigit (c % 16)]

/-- The `for (char *o = out; n;)` loop of `Bytes_to_hex`: the characters written,
in order, with `n` bytes left to render and `spaces` separators left. -/
def Bytes_to_hex_loop (data : List Nat) : Nat → Nat → Except Failure (List Nat)
  | 0, _ => .ok []
  | n + 1, spaces =>
    if n < data.length then
      let c := data.getD n 0
      if n ≠ 0 ∧ n % 4 = 0 then
        if spaces = 0 then .error .assertion
        else
          match Bytes_to_hex_loop data n (spaces - 1) with
          | .ok rest => .ok (snprintf_02X c ++ ' '.toNat :: rest)
          | .error e => .error e
      else
        match Bytes_to_hex_loop data n spaces with
        | .ok rest => .ok (snprintf_02X c ++ rest)
        | .error e => .error e
    else .error .outOfBounds

/-- The function `Bytes_to_hex(bytes)`: the string written into the `malloc`ed
block.  The arithmetic is that of `size_t`; for a buffer of size 0 nothing is
written into the block, and characters that do not fit in it are out of bounds. -/
def Bytes_to_hex (alloc : Nat → Bool) (bytes : Bytes) : Except Failure (List Nat) :=
  let n := Bytes_size bytes
  let spaces := (n + SIZE_MAX) % (SIZE_MAX + 1) / 4
  let request := (n * 2 + spaces + 1) % (SIZE_MAX + 1)
  if ¬ alloc request = true then .error .allocation
  else if n = 0 then .error .indeterminate
  else
    match Bytes_to_hex_loop bytes.data n spaces with
    | .error e => .error e
    | .ok out => if out.length + 1 ≤ request then .ok out else .error .outOfBounds

/-! ## Specification vocabulary -/

/-- Character codes of a string literal. -/
def str (s : String) : List Nat := s.toList.map Char.toNat

/-- An allocator that never fails. -/
def allocAlways : Nat → Bool := fun _ => true

/-- The code `c` is one of `'0'..'9'`. -/
def isDigit (c : Nat) : Prop := '0'.toNat ≤ c ∧ c ≤ '9'.toNat

instance (c : Nat) : Decidable (isDigit c) := by unfold isDigit; infer_instance

/-- Every character of the string is a decimal digit. -/
def allDigits (s : List Nat) : Prop := ∀ c ∈ s, isDigit c

instance (s : List Nat) : Decidable (allDigits s) := by unfold allDigits; infer_instance

/-- The number a string of decimal digits denotes (most significant digit first). -/
def decVal : List Nat → Nat
  | [] => 0
  | c :: rest => (c - '0'.toNat) * 10 ^ rest.length + decVal rest

/-- Number of `'0'` characters at the start of a string. -/
def leadingZeros : List Nat → Nat
  | [] => 0
  | c :: rest => if c = '0'.toNat then leadingZeros rest + 1 else 0

/-- Largest value of the count field of `DivFlags` (all 28 bits set). -/
def COUNT_CAP : Nat := 2 ^ 28 - 1

/-- The `DivFlags` word with the given remainder bit, zero bit and count field
(and `NULL_DECIMAL`, `NON_DECIMALS` clear). -/
def enc (r z : Bool) (k : Nat) : Nat := 16 * k + (2 * z.toNat + r.toNat)

/-- The digit the step writes for the character `c` with incoming carry `r`. -/
def halfDigit (c : Nat) (r : Bool) : Nat := (c - '0'.toNat + 10 * r.toNat) / 2

/-- The carry the step passes on after the character `c` with incoming carry `r`. -/
def carryOut (c : Nat) (r : Bool) : Bool := decide ((c - '0'.toNat + 10 * r.toNat) % 2 = 1)

/-- The digits one pass of the step writes over the string `s`, carry `r` coming in. -/
def halve : List Nat → Bool → List Nat
  | [], _ => []
  | c :: rest, r => (halfDigit c r + '0'.toNat) :: halve rest (carryOut c r)

/-- The carry left after the last digit of `s`, carry `r` coming in. -/
def carryEnd : List Nat → Bool → Bool
  | [], r => r
  | c :: rest, r => carryEnd rest (carryOut c r)

/-- The allocation size `base10to256` computes for a string of `d` characters. -/
def estimate (d : Nat) : Nat := d * BASE_RATIO_NUM / BASE_RATIO_DENOM + 1

/-- Bit `i` of the payload, bytes taken in little-endian order. -/
def bitOf (data : List Nat) (i : Nat) : Bool := (data.getD (i / 8) 0).testBit (i % 8)

/-- The buffer `base10to256` returns for the value `n` when the allocation has
`len` bytes: the minimal size, and byte `i` equal to `(n >> (8 * i)) & 0xFF`. -/
def canonical (n len : Nat) : Bytes :=
  ⟨if (n.size + 7) / 8 = 0 then 1 else (n.size + 7) / 8,
   (List.range len).map (fun i => (n >>> (8 * i)) &&& 0xFF)⟩

/-- Reference loop for the conversion, in the words of the refinement claim: the
loop of `base10to256_impl` on the working digits themselves, where after each
halving step the start is advanced by `skip q` characters of the halved string
`q` instead of by the reported count (`skip = fun _ => 0` never advances). -/
def reference_impl_loop (skip : List Nat → Nat) :
    Nat → Bytes → List Nat → Nat → Nat → Except Failure Bytes
  | 0, _, _, _, _ => .error .assertion
  | fuel + 1, bytes, work, len, bit_num =>
    match divideBy2 (some work) with
    | .error e => .error e
    | .ok (q, flags) =>
      if flags &&& NULL_DECIMAL ≠ 0 then .error .assertion
      else
        let work1 := q.drop (skip q)
        if flags &&& ZERO ≠ 0 ∧ ¬ flags &&& REMAINDER ≠ 0 then
          let new_len := (bit_num + 7) / 8
          if new_len = 0 then
            if 0 < bytes.data.length then
              .ok (Bytes_truncate { bytes with data := bytes.data.set 0 0 } (new_len + 1))
            else .error .outOfBounds
          else .ok (Bytes_truncate bytes new_len)
        else if ¬ bit_num / 8 < len then .error .assertion
        else
          match (if flags &&& REMAINDER ≠ 0 then Bytes_set_bit bytes bit_num
                 else .ok bytes) with
          | .error e => .error e
          | .ok bytes1 => reference_impl_loop skip fuel bytes1 work1 len (bit_num + 1)

/-- The longest prefix of `s` consisting of decimal digits only. -/
def digitPrefix (s : List Nat) : List Nat := s.takeWhile (fun c => decide (isDigit c))

/-- What is left of `s` behind its longest prefix of decimal digits. -/
def afterDigits (s : List Nat) : List Nat := s.dropWhile (fun c => decide (isDigit c))

/-- The flag `divideBy2` adds when it stops in front of `t`: `NON_DECIMALS` when
`t` starts with a character other than the terminator. -/
def stopFlag : List Nat → Nat
  | [] => 0
  | c :: _ => if c = 0 then 0 else NON_DECIMALS

/-- The flags after the loop of `divideBy2` has gone over the digits `p`, started
with remainder bit `r`, zero bit `z` and count `k`. -/
def flagsAfter (p : List Nat) (r z : Bool) (k : Nat) : Nat :=
  enc (carryEnd p r) (z && decide (leadingZeros (halve p r) = (halve p r).length))
    (if z = true then min (k + leadingZeros (halve p r)) COUNT_CAP else k)

/-- The code `ch` is one of `'0'..'9'`, `'A'..'F'`. -/
def isUpperHex (ch : Nat) : Prop :=
  ('0'.toNat ≤ ch ∧ ch ≤ '9'.toNat) ∨ ('A'.toNat ≤ ch ∧ ch ≤ 'F'.toNat)

instance (ch : Nat) : Decidable (isUpperHex ch) := by unfold isUpperHex; infer_instance

/-- The pieces `piece (k - 1)`, ..., `piece 0` one after the other: a rendering
of the bytes with indices below `k`, the most significant first. -/
def renderDown (piece : Nat → List Nat) (k : Nat) : List Nat :=
  (List.range k).reverse.flatMap piece

/-- Rendering of the `n` bytes of `data` from the last to the first, two hex
digits each, with a space before every group of 4 bytes counted from the
least-significant end (a group is the bytes `4g .. 4g+3`; no space in front of
the first group written). -/
def hexSpaceBeforeLowGroups (data : List Nat) (n : Nat) : List Nat :=
  renderDown (fun i =>
    (if (i + 1) % 4 = 0 ∧ i + 1 < n then [' '.toNat] else []) ++ snprintf_02X (data.getD i 0)) n

/-- Rendering of the `n` bytes of `data` from the last to the first, two hex
digits each, with a space after every 4th byte boundary counted from the
least-significant end (after the byte with index `i` when `i` is a positive
multiple of 4). -/
def hexSpaceAtLowBoundaries (data : List Nat) (n : Nat) : List Nat :=
  renderDown (fun i =>
    snprintf_02X (data.getD i 0) ++ (if i ≠ 0 ∧ i % 4 = 0 then [' '.toNat] else [])) n

/-- Rendering in the words of the interface description: the `n` bytes of `data`
from the last to the first, two hex digits each, with a space after every 4th
byte counted from the most-significant end (after the `j`-th byte written when
`j` is a multiple of 4 and bytes remain). -/
def hexSpaceAtHighBoundaries (data : List Nat) (n : Nat) : List Nat :=
  renderDown (fun i =>
    snprintf_02X (data.getD i 0) ++ (if (n - i) % 4 = 0 ∧ i ≠ 0 then [' '.toNat] else [])) n

/-! ## Bit-level facts about the flag word -/

theorem land_split (k m a c : Nat) (ha : a < 16) (hc : c < 16) :
    (16 * k + a) &&& (16 * m + c) = 16 * (k &&& m) + (a &&& c) := by
  have hac : a &&& c < 2 ^ 4 := Nat.and_lt_two_pow a (by simpa using hc)
  apply Nat.eq_of_testBit_eq
  intro i
  have e1 := Nat.testBit_mul_pow_two_add k (show a < 2 ^ 4 by simpa using ha) i
  have e2 := Nat.testBit_mul_pow_two_add m (show c < 2 ^ 4 by simpa using hc) i
  have e3 := Nat.testBit_mul_pow_two_add (k &&& m) hac i
  simp only [show (2:Nat) ^ 4 = 16 by norm_num] at e1 e2 e3
  rw [Nat.testBit_and, e1, e2, e3]
  by_cases h : i < 4 <;> simp [h]

theorem lor_split (k m a c : Nat) (ha : a < 16) (hc : c < 16) :
    (16 * k + a) ||| (16 * m + c) = 16 * (k ||| m) + (a ||| c) := by
  have hac : a ||| c < 2 ^ 4 := Nat.or_lt_two_pow (by simpa using ha) (by simpa using hc)
  apply Nat.eq_of_testBit_eq
  intro i
  have e1 := Nat.testBit_mul_pow_two_add k (show a < 2 ^ 4 by simpa using ha) i
  have e2 := Nat.testBit_mul_pow_two_add m (show c < 2 ^ 4 by simpa using hc) i
  have e3 := Nat.testBit_mul_pow_two_add (k ||| m) hac i
  simp only [show (2:Nat) ^ 4 = 16 by norm_num] at e1 e2 e3
  rw [Nat.testBit_or, e1, e2, e3]
  by_cases h : i < 4 <;> simp [h]

theorem enc_low_lt (r z : Bool) : 2 * z.toNat + r.toNat < 16 := by
  cases r <;> cases z <;> decide

theorem enc_lt (r z : Bool) {k : Nat} (hk : k < 2 ^ 28) : enc r z k < 2 ^ 32 := by
  have := enc_low_lt r z
  unfold enc; omega

theorem enc_and_const (r z : Bool) (k c : Nat) (hc : c < 16) :
    enc r z k &&& c = (2 * z.toNat + r.toNat) &&& c := by
  have h := land_split k 0 (2 * z.toNat + r.toNat) c (enc_low_lt r z) hc
  simpa [enc] using h

theorem enc_and_mask (r z : Bool) {k : Nat} (hk : k < 2 ^ 28) (c : Nat) (hc : c < 16) :
    enc r z k &&& (16 * (2 ^ 28 - 1) + c) = 16 * k + ((2 * z.toNat + r.toNat) &&& c) := by
  rw [enc, land_split _ _ _ _ (enc_low_lt r z) hc, Nat.and_pow_two_sub_one_of_lt_two_pow hk]

theorem enc_and_REMAINDER (r z : Bool) (k : Nat) :
    (enc r z k &&& REMAINDER ≠ 0) ↔ r = true := by
  rw [REMAINDER, enc_and_const r z k 1 (by decide)]
  cases r <;> cases z <;> decide

theorem enc_and_ZERO (r z : Bool) (k : Nat) : (enc r z k &&& ZERO ≠ 0) ↔ z = true := by
  rw [ZERO, enc_and_const r z k 2 (by decide)]
  cases r <;> cases z <;> decide

theorem enc_and_NULL_DECIMAL (r z : Bool) (k : Nat) : enc r z k &&& NULL_DECIMAL = 0 := by
  rw [NULL_DECIMAL, enc_and_const r z k 4 (by decide)]
  cases r <;> cases z <;> decide

theorem enc_or_REMAINDER (r z : Bool) (k : Nat) : enc r z k ||| REMAINDER = enc true z k := by
  have h := lor_split k 0 (2 * z.toNat + r.toNat) 1 (enc_low_lt r z) (by decide)
  simp only [Nat.mul_zero, Nat.zero_add, Nat.or_zero] at h
  rw [REMAINDER, enc, h, enc]
  cases r <;> cases z <;> rfl

theorem enc_and_CLR_CARRY (r z : Bool) {k : Nat} (hk : k < 2 ^ 28) :
    enc r z k &&& CLR_CARRY_MASK = enc false z k := by
  rw [show CLR_CARRY_MASK = 16 * (2 ^ 28 - 1) + 14 by decide, enc_and_mask r z hk 14 (by decide),
    enc]
  cases r <;> cases z <;> rfl

theorem enc_and_CLR_ZERO (r z : Bool) {k : Nat} (hk : k < 2 ^ 28) :
    enc r z k &&& CLR_ZERO_MASK = enc r false k := by
  rw [show CLR_ZERO_MASK = 16 * (2 ^ 28 - 1) + 13 by decide, enc_and_mask r z hk 13 (by decide),
    enc]
  cases r <;> cases z <;> rfl

theorem enc_and_COUNT_MASK (r z : Bool) {k : Nat} (hk : k < 2 ^ 28) :
    (enc r z k &&& LEADING_ZERO_COUNT_MASK ≠ LEADING_ZERO_COUNT_MASK) ↔ k ≠ COUNT_CAP := by
  have hm : LEADING_ZERO_COUNT_MASK = 16 * (2 ^ 28 - 1) + 0 := by decide
  rw [hm, enc_and_mask r z hk 0 (by decide), COUNT_CAP]
  simp only [Nat.and_zero, Nat.add_zero, ne_eq]
  omega

theorem enc_add_COUNT (r z : Bool) {k : Nat} (hk : k < 2 ^ 28) (hne : k ≠ COUNT_CAP) :
    (enc r z k + LEADING_ZERO_COUNT) % 2 ^ INT_BITS = enc r z (k + 1) := by
  have hl := enc_low_lt r z
  have hc : COUNT_CAP = 2 ^ 28 - 1 := rfl
  unfold enc LEADING_ZERO_COUNT INT_BITS
  rw [Nat.mod_eq_of_lt] <;> omega

/-! ## One halving step on a digit -/

theorem halfDigit_le (c : Nat) (r : Bool) (hd : isDigit c) : halfDigit c r ≤ 9 := by
  obtain ⟨h1, h2⟩ := hd
  simp only [show '0'.toNat = 48 by rfl, show '9'.toNat = 57 by rfl] at h1 h2
  unfold halfDigit
  simp only [show '0'.toNat = 48 by rfl]
  cases r <;> simp <;> omega

theorem divideBy2_loop_digit (c : Nat) (rest : List Nat) (r z : Bool) (k : Nat)
    (hd : isDigit c) (hk : k < 2 ^ 28) :
    divideBy2_loop (c :: rest) (enc r z k) =
      match divideBy2_loop rest
          (enc (carryOut c r) (z && decide (halfDigit c r = 0))
            (if z = true ∧ halfDigit c r = 0 ∧ k ≠ COUNT_CAP then k + 1 else k)) with
      | .ok (q, f) => .ok ((halfDigit c r + '0'.toNat) :: q, f)
      | .error e => .error e := by
  have hle := halfDigit_le c r hd
  obtain ⟨h1, h2⟩ := hd
  simp only [show '0'.toNat = 48 by rfl, show '9'.toNat = 57 by rfl] at h1 h2
  have hc0 : c ≠ 0 := by omega
  have hnd : ¬ (c < 48 ∨ c > 57) := by omega
  have hc1 : (c - 48 + if enc r z k &&& REMAINDER ≠ 0 then 10 else 0)
      = c - 48 + 10 * r.toNat := by
    by_cases hr : r = true
    · rw [if_pos ((enc_and_REMAINDER r z k).2 hr)]; simp [hr]
    · rw [if_neg (fun h => hr ((enc_and_REMAINDER r z k).1 h))]
      simp only [Bool.not_eq_true] at hr; simp [hr]
  rw [divideBy2_loop]
  simp only [show '0'.toNat = 48 by rfl, show '9'.toNat = 57 by rfl, if_neg hc0, if_neg hnd, hc1,
    Nat.and_one_is_mod, Nat.shiftRight_eq_div_pow, pow_one]
  unfold halfDigit carryOut at *
  simp only [show '0'.toNat = 48 by rfl] at hle ⊢
  set c1 := c - 48 + 10 * r.toNat with hc1def
  have hf1 : (if c1 % 2 ≠ 0 then enc r z k ||| REMAINDER else enc r z k &&& CLR_CARRY_MASK)
      = enc (decide (c1 % 2 = 1)) z k := by
    by_cases hp : c1 % 2 = 1
    · rw [if_pos (by omega), enc_or_REMAINDER]; simp [hp]
    · rw [if_neg (by omega), enc_and_CLR_CARRY r z hk]; simp [hp]
  rw [hf1, if_neg (by omega)]
  have hf2 : (if c1 / 2 ≠ 0 then enc (decide (c1 % 2 = 1)) z k &&& CLR_ZERO_MASK
      else if enc (decide (c1 % 2 = 1)) z k &&& ZERO ≠ 0 then
        if enc (decide (c1 % 2 = 1)) z k &&& LEADING_ZERO_COUNT_MASK ≠ LEADING_ZERO_COUNT_MASK
        then (enc (decide (c1 % 2 = 1)) z k + LEADING_ZERO_COUNT) % 2 ^ INT_BITS
        else enc (decide (c1 % 2 = 1)) z k
      else enc (decide (c1 % 2 = 1)) z k)
      = enc (decide (c1 % 2 = 1)) (z && decide (c1 / 2 = 0))
          (if z = true ∧ c1 / 2 = 0 ∧ k ≠ COUNT_CAP then k + 1 else k) := by
    by_cases hq : c1 / 2 = 0
    · rw [if_neg (by simpa using hq)]
      by_cases hz : z = true
      · rw [if_pos ((enc_and_ZERO _ z k).2 hz)]
        by_cases hcap : k = COUNT_CAP
        · rw [if_neg (fun h => (enc_and_COUNT_MASK _ z hk).1 h hcap)]
          simp [hq, hcap]
        · rw [if_pos ((enc_and_COUNT_MASK _ z hk).2 hcap), enc_add_COUNT _ z hk hcap]
          simp [hq, hz, hcap]
      · rw [if_neg (fun h => hz ((enc_and_ZERO _ z k).1 h))]
        simp only [Bool.not_eq_true] at hz
        simp [hq, hz]
    · rw [if_pos hq, enc_and_CLR_ZERO _ z hk]
      simp [hq]
  rw [hf2]

/-! ## The halved string -/

theorem length_halve (s : List Nat) : ∀ r, (halve s r).length = s.length := by
  induction s with
  | nil => intro r; rfl
  | cons c rest ih => intro r; simp [halve, ih]

theorem allDigits_cons {c : Nat} {s : List Nat} :
    allDigits (c :: s) ↔ isDigit c ∧ allDigits s := by
  simp [allDigits]

theorem isDigit_halfDigit (c : Nat) (r : Bool) (hd : isDigit c) :
    isDigit (halfDigit c r + '0'.toNat) := by
  have := halfDigit_le c r hd
  simp only [isDigit, show '0'.toNat = 48 by rfl, show '9'.toNat = 57 by rfl]
  omega

theorem allDigits_halve (s : List Nat) : ∀ r, allDigits s → allDigits (halve s r) := by
  induction s with
  | nil => intro r _; simp [halve, allDigits]
  | cons c rest ih =>
    intro r h
    rw [allDigits_cons] at h
    rw [halve, allDigits_cons]
    exact ⟨isDigit_halfDigit c r h.1, ih _ h.2⟩

theorem halfDigit_carryOut (c : Nat) (r : Bool) :
    10 * r.toNat + (c - '0'.toNat) = 2 * halfDigit c r + (carryOut c r).toNat := by
  unfold halfDigit carryOut
  by_cases h : (c - '0'.toNat + 10 * r.toNat) % 2 = 1
  · simp only [h, decide_True, Bool.toNat_true]; omega
  · simp only [h, decide_False, Bool.toNat_false]; omega

/-- The step divides by two: with carry `r` in front, the dividend is twice the
quotient plus the final carry. -/
theorem halve_value (s : List Nat) : ∀ r : Bool,
    r.toNat * 10 ^ s.length + decVal s = 2 * decVal (halve s r) + (carryEnd s r).toNat := by
  induction s with
  | nil => intro r; simp [halve, carryEnd, decVal]
  | cons c rest ih =>
    intro r
    have h1 := halfDigit_carryOut c r
    have h2 := ih (carryOut c r)
    simp only [halve, carryEnd, decVal, List.length_cons, length_halve, Nat.add_sub_cancel]
    have h3 : (10 * r.toNat + (c - '0'.toNat)) * 10 ^ rest.length
        = (2 * halfDigit c r + (carryOut c r).toNat) * 10 ^ rest.length := by rw [h1]
    have e : r.toNat * 10 ^ (rest.length + 1) + ((c - '0'.toNat) * 10 ^ rest.length + decVal rest)
        = (10 * r.toNat + (c - '0'.toNat)) * 10 ^ rest.length + decVal rest := by ring
    rw [e, h3]
    have e2 : (2 * halfDigit c r + (carryOut c r).toNat) * 10 ^ rest.length + decVal rest
        = 2 * (halfDigit c r * 10 ^ rest.length)
          + ((carryOut c r).toNat * 10 ^ rest.length + decVal rest) := by ring
    rw [e2, h2]
    ring

theorem leadingZeros_le (s : List Nat) : leadingZeros s ≤ s.length := by
  induction s with
  | nil => simp [leadingZeros]
  | cons c rest ih =>
    simp only [leadingZeros, List.length_cons]
    split <;> omega

/-- The `while` loop of `divideBy2` on a string of digits: it writes `halve`,
leaves the final carry in `REMAINDER`, keeps `ZERO` only while every digit
written is `'0'`, and counts the leading zeros written up to the cap. -/
theorem divideBy2_loop_digits (s : List Nat) (hs : allDigits s) :
    ∀ (r z : Bool) (k : Nat), k < 2 ^ 28 →
      divideBy2_loop s (enc r z k) =
        .ok (halve s r,
          enc (carryEnd s r)
            (z && decide (leadingZeros (halve s r) = (halve s r).length))
            (if z = true then min (k + leadingZeros (halve s r)) COUNT_CAP else k)) := by
  induction s with
  | nil =>
    intro r z k hk
    have hc : COUNT_CAP = 2 ^ 28 - 1 := rfl
    have hm : min k COUNT_CAP = k := by omega
    simp [divideBy2_loop, halve, carryEnd, leadingZeros, hm]
  | cons c rest ih =>
    intro r z k hk
    rw [allDigits_cons] at hs
    have hc : COUNT_CAP = 2 ^ 28 - 1 := rfl
    have hk2 :
        (if z = true ∧ halfDigit c r = 0 ∧ k ≠ COUNT_CAP then k + 1 else k) < 2 ^ 28 := by
      split <;> omega
    rw [divideBy2_loop_digit c rest r z k hs.1 hk, ih hs.2 _ _ _ hk2]
    have hlz := leadingZeros_le (halve rest (carryOut c r))
    simp only [halve, carryEnd, leadingZeros, List.length_cons]
    congr 3
    · by_cases hq : halfDigit c r = 0
      · simp [hq]
      · have : ¬ (halfDigit c r + '0'.toNat = '0'.toNat) := by omega
        simp [hq, this]
    · by_cases hz : z = true
      · by_cases hq : halfDigit c r = 0
        · by_cases hcap : k = COUNT_CAP
          · simp only [hz, hq, hcap]; simp
          · simp only [hz, hq]; simp [hcap]; omega
        · have : ¬ (halfDigit c r + '0'.toNat = '0'.toNat) := by omega
          simp only [hz, hq, this]; simp; omega
      · simp only [Bool.not_eq_true] at hz
        simp [hz]

/-! ## Bits of the payload -/

theorem div_mod_eight_eq {i b : Nat} : (i / 8 = b / 8 ∧ i % 8 = b % 8) ↔ i = b := by
  omega

/-- Storing `byte | 1 << (b % 8)` at index `b / 8` sets bit `b` and no other bit. -/
theorem bitOf_set_bit (data : List Nat) (b i : Nat) (hb : b / 8 < data.length) :
    bitOf (data.set (b / 8) ((data.getD (b / 8) 0 ||| (1 <<< (b % 8))) % 256)) i
      = (bitOf data i || decide (i = b)) := by
  unfold bitOf
  by_cases hi : i / 8 = b / 8
  · have hget : (data.set (b / 8) ((data.getD (b / 8) 0 ||| (1 <<< (b % 8))) % 256)).getD
        (i / 8) 0 = (data.getD (b / 8) 0 ||| (1 <<< (b % 8))) % 256 := by
      rw [hi, List.getD_eq_getElem?_getD, List.getElem?_set_self hb]
      rfl
    have h8 : i % 8 < 8 := Nat.mod_lt _ (by norm_num)
    rw [hget, show (256 : Nat) = 2 ^ 8 by norm_num, Nat.testBit_mod_two_pow, Nat.testBit_or,
      Nat.one_shiftLeft, Nat.testBit_two_pow, hi]
    by_cases hm : b % 8 = i % 8
    · have : i = b := div_mod_eight_eq.1 ⟨hi, hm.symm⟩
      simp [h8, hm, this]
    · have : ¬ i = b := fun h => hm (by rw [h])
      simp [h8, hm, this]
  · have hne : ¬ i = b := fun h => hi (by rw [h])
    have hget : (data.set (b / 8) ((data.getD (b / 8) 0 ||| (1 <<< (b % 8))) % 256)).getD
        (i / 8) 0 = data.getD (i / 8) 0 := by
      simp only [List.getD_eq_getElem?_getD]
      rw [List.getElem?_set_ne (fun h => hi h.symm)]
    rw [hget]
    simp [hne]

theorem set_bit_lt (data : List Nat) (b : Nat) (hw : ∀ x ∈ data, x < 256) :
    ∀ x ∈ data.set (b / 8) ((data.getD (b / 8) 0 ||| (1 <<< (b % 8))) % 256), x < 256 := by
  intro x hx
  rcases List.mem_or_eq_of_mem_set hx with h | h
  · exact hw x h
  · rw [h]; exact Nat.mod_lt _ (by norm_num)

/-- A payload whose bits are the bits of `n` is the list of the bytes of `n`. -/
theorem data_eq_of_bits (data : List Nat) (n : Nat) (hw : ∀ x ∈ data, x < 256)
    (hbits : ∀ i, bitOf data i = n.testBit i) :
    data = (List.range data.length).map (fun i => (n >>> (8 * i)) &&& 0xFF) := by
  apply List.ext_getElem
  · simp
  · intro b h1 h2
    simp only [List.getElem_map, List.getElem_range]
    apply Nat.eq_of_testBit_eq
    intro t
    have hlt : data[b] < 2 ^ 8 := by
      have := hw data[b] (List.getElem_mem _)
      simpa using this
    rw [Nat.testBit_and, Nat.testBit_shiftRight, show (0xFF : Nat) = 2 ^ 8 - 1 by norm_num,
      Nat.testBit_two_pow_sub_one]
    by_cases ht : t < 8
    · have hb := hbits (8 * b + t)
      unfold bitOf at hb
      have e1 : (8 * b + t) / 8 = b := by omega
      have e2 : (8 * b + t) % 8 = t := by omega
      rw [e1, e2, List.getD_eq_getElem?_getD, List.getElem?_eq_getElem h1] at hb
      simp only [Option.getD_some] at hb
      simp [ht, hb]
    · have : data[b] < 2 ^ t := lt_of_lt_of_le hlt (Nat.pow_le_pow_right (by norm_num) (by omega))
      simp [ht, Nat.testBit_lt_two_pow this]

theorem testBit_or_bit_mod (x k t : Nat) :
    ((x ||| (1 <<< k)) % 256).testBit t = (decide (t < 8) && (x.testBit t || decide (k = t))) := by
  rw [show (256 : Nat) = 2 ^ 8 by norm_num, Nat.testBit_mod_two_pow, Nat.testBit_or,
    Nat.one_shiftLeft, Nat.testBit_two_pow]

theorem testBit_byte_high {x t : Nat} (hx : x < 256) (ht : ¬ t < 8) : x.testBit t = false := by
  apply Nat.testBit_lt_two_pow
  have h8 : (2 : Nat) ^ 8 ≤ 2 ^ t := Nat.pow_le_pow_right (by norm_num) (by omega)
  omega

theorem or_bit_mod_idem (x k : Nat) :
    (((x ||| (1 <<< k)) % 256) ||| (1 <<< k)) % 256 = (x ||| (1 <<< k)) % 256 := by
  apply Nat.eq_of_testBit_eq
  intro t
  rw [testBit_or_bit_mod, testBit_or_bit_mod]
  by_cases ht : t < 8 <;> by_cases hk : k = t <;> simp [ht, hk]

/-! ## Claims on the Bytes class -/

/-- C8. `Bytes_truncate` never grows a buffer: afterwards the logical size is the
minimum of the old size and `new_size`, and the payload is untouched. -/
theorem Bytes_truncate_min (bytes : Bytes) (new_size : Nat) :
    Bytes_size (Bytes_truncate bytes new_size) = min (Bytes_size bytes) new_size ∧
      (Bytes_truncate bytes new_size).data = bytes.data := by
  unfold Bytes_truncate Bytes_size
  by_cases h : bytes.size ≤ new_size
  · rw [if_pos h]
    exact ⟨(Nat.min_eq_left h).symm, rfl⟩
  · rw [if_neg h]
    exact ⟨(Nat.min_eq_right (Nat.le_of_lt (Nat.lt_of_not_le h))).symm, rfl⟩

/-- C9. For a bit index `b` whose byte lies in the allocation, `Bytes_set_bit`
returns a buffer in which bit `b % 8` of byte `b / 8` is 1, every other bit of
every byte is as before, the allocation and the logical size are unchanged, and
setting the same bit again gives the same buffer. -/
theorem Bytes_set_bit_frame (bytes : Bytes) (b : Nat) (hb : b / 8 < bytes.data.length)
    (hw : ∀ x ∈ bytes.data, x < 256) :
    ∃ bytes1, Bytes_set_bit bytes b = .ok bytes1 ∧
      (bytes1.data.getD (b / 8) 0).testBit (b % 8) = true ∧
      (∀ i t, (i ≠ b / 8 ∨ t ≠ b % 8) →
        (bytes1.data.getD i 0).testBit t = (bytes.data.getD i 0).testBit t) ∧
      bytes1.data.length = bytes.data.length ∧
      Bytes_size bytes1 = Bytes_size bytes ∧
      Bytes_set_bit bytes1 b = .ok bytes1 := by
  have hget : ∀ v, (bytes.data.set (b / 8) v).getD (b / 8) 0 = v := by
    intro v
    rw [List.getD_eq_getElem?_getD, List.getElem?_set_self hb]; rfl
  refine ⟨⟨bytes.size, bytes.data.set (b / 8)
      ((bytes.data.getD (b / 8) 0 ||| (1 <<< (b % 8))) % 256)⟩,
    by rw [Bytes_set_bit, if_pos hb], ?_, ?_, ?_, rfl, ?_⟩
  · have h8 : b % 8 < 8 := Nat.mod_lt _ (by norm_num)
    simp only [hget, testBit_or_bit_mod]
    simp [h8]
  · intro i t hit
    by_cases hi : i = b / 8
    · subst hi
      have ht : t ≠ b % 8 := by
        rcases hit with h | h
        · exact absurd rfl h
        · exact h
      simp only [hget, testBit_or_bit_mod]
      have hkt : ¬ b % 8 = t := fun h => ht h.symm
      by_cases h8 : t < 8
      · simp only [h8, hkt, decide_True, decide_False, Bool.or_false, Bool.true_and]
      · have hx : bytes.data.getD (b / 8) 0 < 256 := by
          rw [List.getD_eq_getElem?_getD, List.getElem?_eq_getElem hb]
          exact hw _ (List.getElem_mem _)
        rw [testBit_byte_high hx h8]
        simp only [h8, decide_False, Bool.false_and]
    · simp only [List.getD_eq_getElem?_getD]
      rw [List.getElem?_set_ne (fun h => hi h.symm)]
  · simp
  · rw [Bytes_set_bit, if_pos (by simpa using hb)]
    simp only [hget, or_bit_mod_idem, List.set_set]

/-- C10. When the size passes the range assertion and `calloc` succeeds,
`new_Bytes(size)` returns a buffer whose `Bytes_size` is `size` and whose `size`
bytes are all 0. -/
theorem new_Bytes_zeroed (alloc : Nat → Bool) (size : Nat)
    (hsize : size ≤ SIZE_MAX - Bytes_header_size)
    (halloc : alloc (Bytes_header_size + size) = true) :
    ∃ bytes, new_Bytes alloc size = .ok bytes ∧ Bytes_size bytes = size ∧
      bytes.data.length = size ∧ ∀ i, i < size → bytes.data[i]? = some 0 := by
  refine ⟨⟨size, List.replicate size 0⟩, ?_, rfl, List.length_replicate _ _, ?_⟩
  · rw [new_Bytes, if_neg (not_not.2 hsize), if_neg (not_not.2 halloc)]
  · intro i hi
    rw [List.getElem?_replicate, if_pos hi]

theorem new_Bytes_zeroed_witness :
    ∃ bytes, new_Bytes allocAlways 3 = .ok bytes ∧ Bytes_size bytes = 3 ∧
      bytes.data.length = 3 ∧ ∀ i, i < 3 → bytes.data[i]? = some 0 :=
  new_Bytes_zeroed allocAlways 3 (by decide) rfl

theorem Bytes_set_bit_frame_witness :
    ∃ bytes1, Bytes_set_bit ⟨2, [1, 0]⟩ 11 = .ok bytes1 ∧
      (bytes1.data.getD (11 / 8) 0).testBit (11 % 8) = true ∧
      (∀ i t, (i ≠ 11 / 8 ∨ t ≠ 11 % 8) →
        (bytes1.data.getD i 0).testBit t = ((⟨2, [1, 0]⟩ : Bytes).data.getD i 0).testBit t) ∧
      bytes1.data.length = (⟨2, [1, 0]⟩ : Bytes).data.length ∧
      Bytes_size bytes1 = Bytes_size ⟨2, [1, 0]⟩ ∧
      Bytes_set_bit bytes1 11 = .ok bytes1 :=
  Bytes_set_bit_frame ⟨2, [1, 0]⟩ 11 (by decide) (by decide)

/-! ## Strings of digits -/

theorem ZERO_eq_enc : ZERO = enc false true 0 := rfl

/-- What `divideBy2` returns on a string of digits. -/
theorem divideBy2_digits (s : List Nat) (hs : allDigits s) :
    divideBy2 (some s) =
      .ok (halve s false,
        enc (carryEnd s false) (decide (leadingZeros (halve s false) = (halve s false).length))
          (min (leadingZeros (halve s false)) COUNT_CAP)) := by
  have h := divideBy2_loop_digits s hs false true 0 (by norm_num)
  simp only [Bool.true_and, if_true, Nat.zero_add] at h
  rw [divideBy2, ZERO_eq_enc, h]

theorem decVal_halve (s : List Nat) :
    decVal (halve s false) = decVal s / 2 ∧
      ((carryEnd s false = true) ↔ decVal s % 2 = 1) := by
  have h := halve_value s false
  simp only [Bool.toNat_false, Nat.zero_mul, Nat.zero_add] at h
  cases hc : carryEnd s false <;> simp only [hc, Bool.toNat_false, Bool.toNat_true] at h ⊢ <;>
    constructor <;> first | omega | (simp; omega)

theorem allDigits_drop (s : List Nat) (k : Nat) (hs : allDigits s) : allDigits (s.drop k) :=
  fun c hc => hs c (List.mem_of_mem_drop hc)

theorem leadingZeros_eq_length_iff (s : List Nat) (hs : allDigits s) :
    leadingZeros s = s.length ↔ decVal s = 0 := by
  induction s with
  | nil => simp [leadingZeros, decVal]
  | cons c rest ih =>
    rw [allDigits_cons] at hs
    have hle := leadingZeros_le rest
    have hpos : 0 < 10 ^ rest.length := Nat.pos_pow_of_pos _ (by norm_num)
    obtain ⟨h1, h2⟩ := hs.1
    simp only [show '0'.toNat = 48 by rfl, show '9'.toNat = 57 by rfl] at h1 h2
    simp only [leadingZeros, decVal, List.length_cons, show '0'.toNat = 48 by rfl]
    by_cases hc : c = 48
    · subst hc
      simp only [if_true, Nat.sub_self, Nat.zero_mul, Nat.zero_add, Nat.add_right_cancel_iff]
      exact ih hs.2
    · simp only [hc, if_false]
      constructor
      · intro h; omega
      · intro h
        have : (c - 48) * 10 ^ rest.length = 0 := by omega
        rcases Nat.mul_eq_zero.1 this with h' | h' <;> omega

theorem decVal_drop_zeros (s : List Nat) : ∀ k, k ≤ leadingZeros s →
    decVal (s.drop k) = decVal s := by
  induction s with
  | nil => intro k _; simp
  | cons c rest ih =>
    intro k hk
    cases k with
    | zero => rfl
    | succ k =>
      simp only [leadingZeros] at hk
      by_cases hc : c = '0'.toNat
      · rw [if_pos hc] at hk
        simp only [List.drop_succ_cons, decVal, hc, Nat.sub_self, Nat.zero_mul, Nat.zero_add]
        exact ih k (by omega)
      · rw [if_neg hc] at hk; omega

theorem leadingZeros_drop (s : List Nat) : leadingZeros (s.drop (leadingZeros s)) = 0 := by
  induction s with
  | nil => rfl
  | cons c rest ih =>
    by_cases hc : c = '0'.toNat
    · simp only [leadingZeros, if_pos hc, List.drop_succ_cons]; exact ih
    · simp only [leadingZeros, if_neg hc, List.drop_zero]

/-- A string without leading zero gets at most one leading zero by halving. -/
theorem leadingZeros_halve_le_one (t : List Nat) (ht : allDigits t) (h0 : leadingZeros t = 0) :
    leadingZeros (halve t false) ≤ 1 := by
  cases t with
  | nil => simp [halve, leadingZeros]
  | cons c rest =>
    rw [allDigits_cons] at ht
    obtain ⟨h1, h2⟩ := ht.1
    simp only [show '0'.toNat = 48 by rfl, show '9'.toNat = 57 by rfl] at h1 h2
    simp only [leadingZeros, show '0'.toNat = 48 by rfl] at h0
    have hc : c ≠ 48 := by
      intro h; rw [if_pos h] at h0; omega
    simp only [halve, leadingZeros, show '0'.toNat = 48 by rfl]
    by_cases hq : halfDigit c false + 48 = 48
    · rw [if_pos hq]
      have hco : carryOut c false = true := by
        unfold halfDigit at hq
        unfold carryOut
        simp only [show '0'.toNat = 48 by rfl, Bool.toNat_false, Nat.mul_zero,
          Nat.add_zero] at hq ⊢
        simp only [decide_eq_true_eq]
        omega
      rw [hco]
      cases rest with
      | nil => simp [halve, leadingZeros]
      | cons c2 rest2 =>
        have hd2 := (allDigits_cons.1 ht.2).1
        obtain ⟨h3, h4⟩ := hd2
        simp only [show '0'.toNat = 48 by rfl, show '9'.toNat = 57 by rfl] at h3 h4
        have : ¬ halfDigit c2 true + 48 = 48 := by
          unfold halfDigit
          simp only [show '0'.toNat = 48 by rfl, Bool.toNat_true]
          omega
        simp only [halve, leadingZeros, show '0'.toNat = 48 by rfl, if_neg this]
        omega
    · rw [if_neg hq]; omega

/-! ## The pointer advance `flags / LEADING_ZERO_COUNT` -/

theorem advance_small (r z : Bool) (k : Nat) (hk : k < 2 ^ 27) :
    Int.tdiv (toInt (enc r z k)) (LEADING_ZERO_COUNT : Int) = (k : Int) := by
  have hl := enc_low_lt r z
  have hlt : enc r z k < 2 ^ (INT_BITS - 1) := by
    unfold enc INT_BITS; norm_num; omega
  rw [toInt, if_pos hlt, Int.tdiv_eq_ediv (by positivity) (by unfold LEADING_ZERO_COUNT; norm_num)]
  unfold enc LEADING_ZERO_COUNT
  push_cast
  omega

theorem advance_big (r z : Bool) (k : Nat) (hk : 2 ^ 27 ≤ k) (hk2 : k < 2 ^ 28) :
    Int.tdiv (toInt (enc r z k)) (LEADING_ZERO_COUNT : Int) ≤ 0 := by
  have hl := enc_low_lt r z
  have hlt : ¬ enc r z k < 2 ^ (INT_BITS - 1) := by
    unfold enc INT_BITS; norm_num; omega
  have h32 := enc_lt r z hk2
  rw [toInt, if_neg hlt]
  have e : ((enc r z k : Nat) : Int) - 2 ^ INT_BITS = -(((2 ^ 32 - enc r z k : Nat)) : Int) := by
    unfold INT_BITS
    omega
  rw [e, Int.neg_tdiv]
  have := Int.tdiv_nonneg (Int.ofNat_nonneg (2 ^ 32 - enc r z k))
    (show (0 : Int) ≤ (LEADING_ZERO_COUNT : Int) by positivity)
  omega

/-! ## The conversion loop -/

theorem impl_loop_oob (fuel : Nat) (bytes : Bytes) (buf : List Nat) (off : Int) (len j : Nat)
    (hoff : off < 0) :
    base10to256_impl_loop (fuel + 1) bytes buf off len j = .error .outOfBounds := by
  rw [base10to256_impl_loop, if_pos (Or.inl hoff)]

/-- The bound `8 * len + 1` on the rounds is never reached: from round `j` on,
any two amounts of fuel of at least `8 * len + 1 - j` give the same result. -/
theorem impl_loop_fuel (len : Nat) :
    ∀ (f1 f2 : Nat) (bytes : Bytes) (buf : List Nat) (off : Int) (j : Nat),
      j ≤ 8 * len → 8 * len + 1 ≤ f1 + j → 8 * len + 1 ≤ f2 + j →
      base10to256_impl_loop f1 bytes buf off len j
        = base10to256_impl_loop f2 bytes buf off len j := by
  intro f1
  induction f1 with
  | zero => intro f2 bytes buf off j h1 h2 _; omega
  | succ g1 ih =>
    intro f2 bytes buf off j h1 h2 h3
    obtain ⟨g2, rfl⟩ : ∃ g2, f2 = g2 + 1 := ⟨f2 - 1, by omega⟩
    rw [base10to256_impl_loop, base10to256_impl_loop]
    split
    · rfl
    · split
      · rfl
      · split
        · rfl
        · split
          · rfl
          · split
            · rfl
            · rename_i hlt
              have hj : j / 8 < len := not_not.1 hlt
              split
              · rfl
              · exact ih g2 _ _ _ (j + 1) (by omega) (by omega) (by omega)

/-- One round of the loop when `decimal` points at a string of digits. -/
theorem impl_loop_step (fuel : Nat) (bytes : Bytes) (buf : List Nat) (off len j : Nat)
    (hoff : off ≤ buf.length) (hd : allDigits (buf.drop off)) :
    base10to256_impl_loop (fuel + 1) bytes buf (off : Int) len j =
      if decide (leadingZeros (halve (buf.drop off) false) = (halve (buf.drop off) false).length)
          = true ∧ carryEnd (buf.drop off) false = false then
        if (j + 7) / 8 = 0 then
          if 0 < bytes.data.length then
            .ok (Bytes_truncate { bytes with data := bytes.data.set 0 0 } ((j + 7) / 8 + 1))
          else .error .outOfBounds
        else .ok (Bytes_truncate bytes ((j + 7) / 8))
      else if ¬ j / 8 < len then .error .assertion
      else
        match (if carryEnd (buf.drop off) false = true then Bytes_set_bit bytes j
               else .ok bytes) with
        | .error e => .error e
        | .ok bytes1 =>
          base10to256_impl_loop fuel bytes1 (buf.take off ++ halve (buf.drop off) false)
            ((off : Int) + Int.tdiv
              (toInt (enc (carryEnd (buf.drop off) false)
                (decide (leadingZeros (halve (buf.drop off) false)
                  = (halve (buf.drop off) false).length))
                (min (leadingZeros (halve (buf.drop off) false)) COUNT_CAP)))
              (LEADING_ZERO_COUNT : Int)) len (j + 1) := by
  have hno : ¬ ((off : Int) < 0 ∨ (buf.length : Int) < (off : Int)) := by omega
  rw [base10to256_impl_loop, if_neg hno, Int.toNat_ofNat, divideBy2_digits _ hd]
  simp only [enc_and_NULL_DECIMAL, ne_eq, not_true_eq_false, if_false, enc_and_ZERO,
    enc_and_REMAINDER, Bool.not_eq_true]


theorem size_eq_of_bounds {n j : Nat} (hlt : n < 2 ^ j) (hj : j = 0 ∨ 2 ^ (j - 1) ≤ n) :
    n.size = j := by
  have h1 : n.size ≤ j := Nat.size_le.2 hlt
  rcases hj with h | h
  · omega
  · have h2 : j - 1 < n.size := Nat.lt_size.2 h
    omega

theorem set_zero_zero_of_bits (data : List Nat) (hw : ∀ x ∈ data, x < 256)
    (hbits : ∀ i, bitOf data i = false) : data.set 0 0 = data := by
  cases data with
  | nil => rfl
  | cons x rest =>
    have hx : x = 0 := by
      apply Nat.eq_of_testBit_eq
      intro t
      rw [Nat.zero_testBit]
      by_cases ht : t < 8
      · have := hbits t
        unfold bitOf at this
        rw [Nat.div_eq_of_lt ht, Nat.mod_eq_of_lt ht] at this
        simpa using this
      · exact testBit_byte_high (hw x (List.mem_cons_self _ _)) ht
    rw [hx]; rfl

/-- The buffer handed back when the loop stops at round `j`. -/
theorem final_bytes (n len j : Nat) (bytes : Bytes) (hlen : 0 < len) (hn : n < 2 ^ (8 * len))
    (hj : j = 0 ∨ 2 ^ (j - 1) ≤ n) (hv : n / 2 ^ j = 0)
    (hsize : bytes.size = len) (hdl : bytes.data.length = len)
    (hw : ∀ x ∈ bytes.data, x < 256)
    (hbits : ∀ i, bitOf bytes.data i = (decide (i < j) && n.testBit i)) :
    (if (j + 7) / 8 = 0 then
        if 0 < bytes.data.length then
          (.ok (Bytes_truncate { bytes with data := bytes.data.set 0 0 } ((j + 7) / 8 + 1)) :
            Except Failure Bytes)
        else .error .outOfBounds
      else .ok (Bytes_truncate bytes ((j + 7) / 8))) = .ok (canonical n len) := by
  have hlt : n < 2 ^ j := (Nat.div_eq_zero_iff (Nat.pos_pow_of_pos _ (by norm_num))).1 hv
  have hsz : n.size = j := size_eq_of_bounds hlt hj
  have hj8 : j ≤ 8 * len := by
    rw [← hsz]; exact Nat.size_le.2 hn
  have hb : ∀ i, bitOf bytes.data i = n.testBit i := by
    intro i
    rw [hbits i]
    by_cases hi : i < j
    · simp [hi]
    · have : n < 2 ^ i := lt_of_lt_of_le hlt (Nat.pow_le_pow_right (by norm_num) (by omega))
      simp [hi, Nat.testBit_lt_two_pow this]
  have hdata := data_eq_of_bits bytes.data n hw hb
  rw [hdl] at hdata
  obtain ⟨sz, data⟩ := bytes
  simp only at hsize hdl hw hbits hb hdata
  subst hsize
  by_cases h0 : (j + 7) / 8 = 0
  · have hj0 : j = 0 := by omega
    have hn0 : n = 0 := by rw [hj0] at hlt; simpa using hlt
    have hset : data.set 0 0 = data := by
      apply set_zero_zero_of_bits data hw
      intro i; rw [hb i, hn0, Nat.zero_testBit]
    rw [if_pos h0, if_pos (by simpa [hdl] using hlen)]
    simp only [hset, h0, Nat.zero_add, canonical, hsz, Bytes_truncate]
    by_cases h1 : sz ≤ 1
    · have : sz = 1 := by omega
      rw [if_pos h1, if_pos trivial, ← hdata, this]
    · rw [if_neg h1, if_pos trivial, ← hdata]
  · rw [if_neg h0]
    simp only [canonical, hsz, Bytes_truncate, if_neg h0]
    by_cases h1 : sz ≤ (j + 7) / 8
    · have : sz = (j + 7) / 8 := by omega
      rw [if_pos h1, ← hdata, ← this]
    · rw [if_neg h1, ← hdata]


/-- The buffer after the conditional `Bytes_set_bit` of round `j`. -/
theorem set_bit_round (n len j : Nat) (bytes : Bytes) (c : Bool) (hjlt : j < 8 * len)
    (hc : c = n.testBit j) (hsize : bytes.size = len) (hdl : bytes.data.length = len)
    (hw : ∀ x ∈ bytes.data, x < 256)
    (hbits : ∀ i, bitOf bytes.data i = (decide (i < j) && n.testBit i)) :
    ∃ bytes1, (if c = true then Bytes_set_bit bytes j else .ok bytes) = .ok bytes1 ∧
      bytes1.size = len ∧ bytes1.data.length = len ∧ (∀ x ∈ bytes1.data, x < 256) ∧
      ∀ i, bitOf bytes1.data i = (decide (i < j + 1) && n.testBit i) := by
  have hb8 : j / 8 < bytes.data.length := by omega
  by_cases hct : c = true
  · refine ⟨⟨bytes.size, bytes.data.set (j / 8)
        ((bytes.data.getD (j / 8) 0 ||| (1 <<< (j % 8))) % 256)⟩, ?_, hsize, ?_,
      set_bit_lt bytes.data j hw, ?_⟩
    · rw [if_pos hct, Bytes_set_bit, if_pos hb8]
    · simpa using hdl
    · intro i
      rw [bitOf_set_bit bytes.data j i hb8, hbits i]
      by_cases hij : i = j
      · subst hij
        rw [← hc, hct]; simp
      · by_cases hlt : i < j
        · have : i < j + 1 := by omega
          simp [hij, hlt, this]
        · have : ¬ i < j + 1 := by omega
          simp [hij, hlt, this]
  · refine ⟨bytes, by rw [if_neg hct], hsize, hdl, hw, ?_⟩
    intro i
    rw [hbits i]
    by_cases hij : i = j
    · subst hij
      simp only [Bool.not_eq_true] at hct
      rw [← hc, hct]; simp
    · by_cases hlt : i < j
      · have : i < j + 1 := by omega
        simp [hlt, this]
      · have : ¬ i < j + 1 := by omega
        simp [hlt, this]

/-- The loop of `base10to256_impl`, started at round `j` on the digits of
`n / 2 ^ j` with the low `j` bits of `n` already in the buffer, returns the
canonical buffer of `n`; the only other outcome is a pointer moved in front of
the working copy, which takes a string of at least `2 ^ 27` characters. -/
theorem impl_loop_correct (n len : Nat) (hlen : 0 < len) (hn : n < 2 ^ (8 * len)) :
    ∀ (fuel : Nat) (bytes : Bytes) (buf : List Nat) (off j : Nat),
      8 * len + 1 ≤ fuel + j →
      off ≤ buf.length →
      allDigits (buf.drop off) →
      (off = 0 ∨ leadingZeros (buf.drop off) = 0) →
      decVal (buf.drop off) = n / 2 ^ j →
      (j = 0 ∨ 2 ^ (j - 1) ≤ n) →
      bytes.size = len → bytes.data.length = len → (∀ x ∈ bytes.data, x < 256) →
      (∀ i, bitOf bytes.data i = (decide (i < j) && n.testBit i)) →
      base10to256_impl_loop fuel bytes buf (off : Int) len j = .ok (canonical n len) ∨
        (2 ^ 27 ≤ buf.length ∧
          base10to256_impl_loop fuel bytes buf (off : Int) len j = .error .outOfBounds) := by
  intro fuel
  induction fuel with
  | zero =>
    intro bytes buf off j hfuel _ _ _ _ hj
    exfalso
    rcases hj with h | h
    · omega
    · have : 2 ^ (j - 1) < 2 ^ (8 * len) := lt_of_le_of_lt h hn
      have := (Nat.pow_lt_pow_iff_right (by norm_num : 1 < 2)).1 this
      omega
  | succ fuel ih =>
    intro bytes buf off j hfuel hoff hd hnorm hval hj hsize hdl hw hbits
    rw [impl_loop_step fuel bytes buf off len j hoff hd]
    have hq : allDigits (halve (buf.drop off) false) := allDigits_halve _ _ hd
    have hql : (halve (buf.drop off) false).length = (buf.drop off).length := length_halve _ _
    obtain ⟨hqv, hr⟩ := decVal_halve (buf.drop off)
    have hz : (decide (leadingZeros (halve (buf.drop off) false)
        = (halve (buf.drop off) false).length) = true)
        ↔ decVal (halve (buf.drop off) false) = 0 := by
      rw [decide_eq_true_eq]; exact leadingZeros_eq_length_iff _ hq
    have h2pos : 0 < 2 ^ j := Nat.pos_pow_of_pos _ (by norm_num)
    by_cases hstop : n / 2 ^ j = 0
    · have hc1 : decide (leadingZeros (halve (buf.drop off) false)
          = (halve (buf.drop off) false).length) = true
          ∧ carryEnd (buf.drop off) false = false := by
        constructor
        · rw [hz, hqv, hval, hstop]
        · cases hce : carryEnd (buf.drop off) false
          · rfl
          · have := hr.1 hce
            rw [hval, hstop] at this; omega
      rw [if_pos hc1]
      left
      exact final_bytes n len j bytes hlen hn hj hstop hsize hdl hw hbits
    · have hc1 : ¬ (decide (leadingZeros (halve (buf.drop off) false)
          = (halve (buf.drop off) false).length) = true
          ∧ carryEnd (buf.drop off) false = false) := by
        rintro ⟨h1, h2⟩
        rw [hz, hqv, hval] at h1
        have h3 : ¬ (n / 2 ^ j % 2 = 1) := by
          intro h; rw [← hval] at h
          have := hr.2 h
          rw [h2] at this; exact absurd this (by decide)
        omega
      rw [if_neg hc1]
      have h2j : 2 ^ j ≤ n := by
        by_contra hlt
        exact hstop ((Nat.div_eq_zero_iff h2pos).2 (by omega))
      have hjlt : j < 8 * len :=
        (Nat.pow_lt_pow_iff_right (by norm_num : 1 < 2)).1 (lt_of_le_of_lt h2j hn)
      rw [if_neg (not_not.2 (by omega : j / 8 < len))]
      have hrbit : carryEnd (buf.drop off) false = n.testBit j := by
        rw [Nat.testBit_to_div_mod, ← hval]
        cases hce : carryEnd (buf.drop off) false
        · have : ¬ decVal (buf.drop off) % 2 = 1 := fun h => by
            have := hr.2 h; rw [hce] at this; exact absurd this (by decide)
          simp [this]
        · simp [hr.1 hce]
      obtain ⟨bytes1, hb1, hsize1, hdl1, hw1, hbits1⟩ :=
        set_bit_round n len j bytes (carryEnd (buf.drop off) false) hjlt hrbit hsize hdl hw hbits
      rw [hb1]
      simp only
      have hLle := leadingZeros_le (halve (buf.drop off) false)
      have hval1 : decVal (halve (buf.drop off) false) = n / 2 ^ (j + 1) := by
        rw [hqv, hval, Nat.div_div_eq_div_mul, pow_succ]
      have hj1 : j + 1 = 0 ∨ 2 ^ (j + 1 - 1) ≤ n := Or.inr (by simpa using h2j)
      have hfuel1 : 8 * len + 1 ≤ fuel + (j + 1) := by omega
      have hdl2 : (buf.drop off).length = buf.length - off := List.length_drop _ _
      have hlen1 : (buf.take off ++ halve (buf.drop off) false).length = buf.length := by
        rw [List.length_append, List.length_take, hql, hdl2]; omega
      have htl : (buf.take off).length = off := by rw [List.length_take]; omega
      have hcap : COUNT_CAP = 2 ^ 28 - 1 := rfl
      by_cases hL : leadingZeros (halve (buf.drop off) false) < 2 ^ 27
      · have hcnt : min (leadingZeros (halve (buf.drop off) false)) COUNT_CAP
            = leadingZeros (halve (buf.drop off) false) := by omega
        rw [hcnt, advance_small _ _ _ hL]
        have hcast : (off : Int) + (leadingZeros (halve (buf.drop off) false) : Int)
            = ((off + leadingZeros (halve (buf.drop off) false) : Nat) : Int) := by push_cast; rfl
        rw [hcast]
        have hdrop : (buf.take off ++ halve (buf.drop off) false).drop
            (off + leadingZeros (halve (buf.drop off) false))
            = (halve (buf.drop off) false).drop (leadingZeros (halve (buf.drop off) false)) := by
          have h := @List.drop_append _ (buf.take off) (halve (buf.drop off) false)
            (leadingZeros (halve (buf.drop off) false))
          rw [htl] at h
          exact h
        have := ih bytes1 (buf.take off ++ halve (buf.drop off) false)
          (off + leadingZeros (halve (buf.drop off) false)) (j + 1) hfuel1
          (by rw [hlen1]; omega)
          (by rw [hdrop]; exact allDigits_drop _ _ hq)
          (Or.inr (by rw [hdrop]; exact leadingZeros_drop _))
          (by rw [hdrop, decVal_drop_zeros _ _ le_rfl, hval1]) hj1 hsize1 hdl1 hw1 hbits1
        rw [hlen1] at this
        exact this
      · have hcnt1 : 2 ^ 27 ≤ min (leadingZeros (halve (buf.drop off) false)) COUNT_CAP := by
          omega
        have hcnt2 : min (leadingZeros (halve (buf.drop off) false)) COUNT_CAP < 2 ^ 28 := by
          omega
        have hadv := advance_big (carryEnd (buf.drop off) false)
          (decide (leadingZeros (halve (buf.drop off) false)
            = (halve (buf.drop off) false).length)) _ hcnt1 hcnt2
        have hoff0 : off = 0 := by
          rcases hnorm with h | h
          · exact h
          · have := leadingZeros_halve_le_one _ hd h
            omega
        have hbig : 2 ^ 27 ≤ buf.length := by omega
        rcases lt_or_eq_of_le hadv with hneg | hzero
        · right
          refine ⟨hbig, ?_⟩
          obtain ⟨f1, rfl⟩ : ∃ f1, fuel = f1 + 1 := ⟨fuel - 1, by omega⟩
          apply impl_loop_oob
          have hcz : (off : Int) = 0 := by rw [hoff0]; rfl
          rw [hcz, Int.zero_add]
          exact hneg
        · rw [hzero, Int.add_zero]
          have hdrop : (buf.take off ++ halve (buf.drop off) false).drop off
              = halve (buf.drop off) false := by
            have h := List.drop_left (buf.take off) (halve (buf.drop off) false)
            rw [htl] at h
            exact h
          have := ih bytes1 (buf.take off ++ halve (buf.drop off) false) off (j + 1) hfuel1
            (by rw [hlen1]; omega)
            (by rw [hdrop]; exact hq)
            (Or.inl hoff0)
            (by rw [hdrop, hval1]) hj1 hsize1 hdl1 hw1 hbits1
          rw [hlen1] at this
          exact this


/-! ## The size estimate and the whole conversion -/

theorem decVal_lt (s : List Nat) (hs : allDigits s) : decVal s < 10 ^ s.length := by
  induction s with
  | nil => simp [decVal]
  | cons c rest ih =>
    rw [allDigits_cons] at hs
    have h := ih hs.2
    obtain ⟨h1, h2⟩ := hs.1
    simp only [show '0'.toNat = 48 by rfl, show '9'.toNat = 57 by rfl] at h1 h2
    simp only [decVal, List.length_cons, show '0'.toNat = 48 by rfl, pow_succ]
    have : (c - 48) * 10 ^ rest.length ≤ 9 * 10 ^ rest.length :=
      Nat.mul_le_mul_right _ (by omega)
    omega

/-- The estimate `d * 416 / 1000 + 1` has room for every number of `d` digits. -/
theorem pow_ten_le_estimate (d : Nat) : 10 ^ d ≤ 2 ^ (8 * estimate d) := by
  have h125 : (10 : Nat) ^ 125 ≤ 2 ^ 416 := by norm_num
  have hm : 416 * d ≤ 1000 * estimate d := by
    unfold estimate BASE_RATIO_NUM BASE_RATIO_DENOM; omega
  have h1 : ((10 : Nat) ^ d) ^ 125 ≤ (2 ^ (8 * estimate d)) ^ 125 := by
    calc ((10 : Nat) ^ d) ^ 125 = (10 ^ 125) ^ d := by rw [← pow_mul, ← pow_mul, Nat.mul_comm]
      _ ≤ (2 ^ 416) ^ d := Nat.pow_le_pow_left h125 d
      _ = 2 ^ (416 * d) := by rw [← pow_mul]
      _ ≤ 2 ^ (1000 * estimate d) := Nat.pow_le_pow_right (by norm_num) hm
      _ = (2 ^ (8 * estimate d)) ^ 125 := by rw [← pow_mul]; congr 1; omega
  exact (Nat.pow_le_pow_iff_left (by norm_num)).1 h1

theorem strlen_digits (s : List Nat) (hs : allDigits s) : strlen s = s.length := by
  unfold strlen
  congr 1
  rw [List.takeWhile_eq_self_iff]
  intro c hc
  have := (hs c hc).1
  simp only [show '0'.toNat = 48 by rfl] at this
  simp only [ne_eq, decide_not, Bool.not_eq_true', decide_eq_false_iff_not]
  omega

theorem bitOf_replicate_zero (len i : Nat) : bitOf (List.replicate len 0) i = false := by
  unfold bitOf
  rw [List.getD_eq_getElem?_getD, List.getElem?_replicate]
  split <;> simp

/-- On a string of digits that passes the length assertion, with both allocations
succeeding, `base10to256` is the loop run on a zeroed buffer of the estimated size. -/
theorem base10to256_unfold (alloc : Nat → Bool) (s : List Nat) (hs : allDigits s)
    (hlen : s.length ≤ SIZE_MAX / BASE_RATIO_NUM)
    (ha1 : alloc (s.length + 1) = true)
    (ha2 : alloc (Bytes_header_size + estimate s.length) = true) :
    base10to256 alloc (some s)
      = base10to256_impl_loop (8 * estimate s.length + 1)
          ⟨estimate s.length, List.replicate (estimate s.length) 0⟩ s 0
          (estimate s.length) 0 := by
  have hest : estimate s.length ≤ SIZE_MAX - Bytes_header_size := by
    simp only [estimate, SIZE_MAX, BASE_RATIO_NUM, BASE_RATIO_DENOM, Bytes_header_size] at hlen ⊢
    norm_num at hlen ⊢
    omega
  have hnew : new_Bytes alloc (estimate s.length)
      = .ok ⟨estimate s.length, List.replicate (estimate s.length) 0⟩ := by
    rw [new_Bytes, if_neg (not_not.2 hest), if_neg (not_not.2 ha2)]
  simp only [base10to256, strlen_digits s hs, ha1, not_true_eq_false, if_false, hlen,
    List.take_length]
  have : s.length * BASE_RATIO_NUM / BASE_RATIO_DENOM + 1 = estimate s.length := rfl
  rw [this, hnew]
  rfl

/-- The whole conversion on a string of digits when nothing in front of the
working copy can be read: the canonical buffer of the number, unless the string
has `2 ^ 27` characters or more and the pointer is moved in front of the working
copy. -/
theorem base10to256_digits (alloc : Nat → Bool) (s : List Nat) (hs : allDigits s)
    (hlen : s.length ≤ SIZE_MAX / BASE_RATIO_NUM)
    (ha1 : alloc (s.length + 1) = true)
    (ha2 : alloc (Bytes_header_size + estimate s.length) = true) :
    base10to256 alloc (some s) = .ok (canonical (decVal s) (estimate s.length)) ∨
      (2 ^ 27 ≤ s.length ∧ base10to256 alloc (some s) = .error .outOfBounds) := by
  have hpos : 0 < estimate s.length := Nat.succ_pos _
  have hn : decVal s < 2 ^ (8 * estimate s.length) :=
    lt_of_lt_of_le (decVal_lt s hs) (pow_ten_le_estimate _)
  have hloop := impl_loop_correct (decVal s) (estimate s.length) hpos hn
    (8 * estimate s.length + 1) ⟨estimate s.length, List.replicate (estimate s.length) 0⟩
    s 0 0 (by omega) (by omega) (by simpa using hs) (Or.inl rfl) (by simp) (Or.inl rfl) rfl
    (by simp) (by intro x hx; rw [(List.mem_replicate.1 hx).2]; norm_num)
    (by intro i; rw [bitOf_replicate_zero]; simp)
  rw [base10to256_unfold alloc s hs hlen ha1 ha2]
  exact hloop

/-! ## Strings with very many leading zeros -/

theorem halve_zeros (m : Nat) (t : List Nat) :
    halve (List.replicate m '0'.toNat ++ t) false
      = List.replicate m '0'.toNat ++ halve t false := by
  induction m with
  | zero => rfl
  | succ m ih =>
    rw [List.replicate_succ, List.cons_append, halve, show carryOut '0'.toNat false = false by rfl,
      ih]
    rfl

theorem carryEnd_zeros (m : Nat) (t : List Nat) :
    carryEnd (List.replicate m '0'.toNat ++ t) false = carryEnd t false := by
  induction m with
  | zero => rfl
  | succ m ih =>
    rw [List.replicate_succ, List.cons_append, carryEnd,
      show carryOut '0'.toNat false = false by rfl, ih]

theorem leadingZeros_zeros (m : Nat) (t : List Nat) :
    leadingZeros (List.replicate m '0'.toNat ++ t) = m + leadingZeros t := by
  induction m with
  | zero => simp
  | succ m ih =>
    rw [List.replicate_succ, List.cons_append, leadingZeros, if_pos rfl, ih]
    omega

/-- A string of `m = 2 ^ 27` zeros followed by one digit from `'2'` to `'9'`: the
count field of the flags reaches the sign bit, `flags / LEADING_ZERO_COUNT` is
negative and the next round reads in front of the working copy. -/
theorem base10to256_long_zeros (m : Nat) (hm : m = 2 ^ 27) (c : Nat) (hc : isDigit c)
    (hc2 : '2'.toNat ≤ c) :
    base10to256 allocAlways (some (List.replicate m '0'.toNat ++ [c])) = .error .outOfBounds := by
  obtain ⟨h1, h2⟩ := hc
  simp only [show '0'.toNat = 48 by rfl, show '9'.toNat = 57 by rfl,
    show '2'.toNat = 50 by rfl] at h1 h2 hc2
  have hs : allDigits (List.replicate m '0'.toNat ++ [c]) := by
    intro x hx
    rcases List.mem_append.1 hx with h | h
    · rw [(List.mem_replicate.1 h).2]; decide
    · rw [List.mem_singleton.1 h]
      simp only [isDigit, show '0'.toNat = 48 by rfl, show '9'.toNat = 57 by rfl]
      omega
  have hl : (List.replicate m '0'.toNat ++ [c]).length = m + 1 := by
    rw [List.length_append, List.length_replicate, List.length_singleton]
  have hbound : (List.replicate m '0'.toNat ++ [c]).length ≤ SIZE_MAX / BASE_RATIO_NUM := by
    rw [hl, hm]; decide
  rw [base10to256_unfold allocAlways _ hs hbound rfl rfl]
  generalize hlen : estimate (List.replicate m '0'.toNat ++ [c]).length = len
  have hest : 0 < len := by rw [← hlen]; exact Nat.succ_pos _
  have hstep := impl_loop_step (8 * len) ⟨len, List.replicate len 0⟩
    (List.replicate m '0'.toNat ++ [c]) 0 len 0 (Nat.zero_le _) hs
  have hq : ¬ (halfDigit c false + '0'.toNat = '0'.toNat) := by
    unfold halfDigit
    simp only [show '0'.toNat = 48 by rfl, Bool.toNat_false]
    omega
  have hlz : leadingZeros (halve (List.replicate m '0'.toNat ++ [c]) false) = m := by
    rw [halve_zeros, leadingZeros_zeros]
    simp only [halve, leadingZeros, if_neg hq, Nat.add_zero]
  have hlq : (halve (List.replicate m '0'.toNat ++ [c]) false).length = m + 1 := by
    rw [length_halve, hl]
  rw [List.drop_zero, hlz, hlq] at hstep
  have hcast : ((0 : Nat) : Int) = 0 := rfl
  rw [hcast, Int.zero_add] at hstep
  rw [hstep]
  have hcond : ¬ (decide (m = m + 1) = true ∧
      carryEnd (List.replicate m '0'.toNat ++ [c]) false = false) := by
    rintro ⟨h, _⟩
    rw [decide_eq_true_eq] at h
    omega
  have hdl : 0 < (⟨len, List.replicate len 0⟩ : Bytes).data.length := by
    rw [List.length_replicate]; exact hest
  rw [if_neg hcond, if_neg (not_not.2 (by omega : 0 / 8 < len))]
  have hcnt : min m COUNT_CAP = 2 ^ 27 := by
    have : COUNT_CAP = 2 ^ 28 - 1 := rfl
    omega
  have hdec : decide (m = m + 1) = false := by
    rw [decide_eq_false_iff_not]; omega
  rw [hcnt, hdec]
  obtain ⟨f1, hf1⟩ : ∃ f1, 8 * len = f1 + 1 := ⟨8 * len - 1, by omega⟩
  rw [hf1]
  cases hce : carryEnd (List.replicate m '0'.toNat ++ [c]) false
  · simp only [Bool.false_eq_true, if_false]
    exact impl_loop_oob _ _ _ _ _ _ (by decide)
  · simp only [if_true, Bytes_set_bit]
    rw [if_pos hdl]
    exact impl_loop_oob _ _ _ _ _ _ (by decide)

/-- C7. `divideBy2` on a string of decimal digits denoting `n`: the string keeps
its length, still consists of decimal digits, denotes `n / 2`, and `REMAINDER`
is set in the returned flags exactly when `n` is odd. -/
theorem divideBy2_exact (s : List Nat) (hs : allDigits s) :
    ∃ q flags, divideBy2 (some s) = .ok (q, flags) ∧ q.length = s.length ∧ allDigits q ∧
      decVal q = decVal s / 2 ∧ (flags &&& REMAINDER ≠ 0 ↔ decVal s % 2 = 1) := by
  refine ⟨_, _, divideBy2_digits s hs, length_halve s false, allDigits_halve s false hs,
    (decVal_halve s).1, ?_⟩
  rw [enc_and_REMAINDER]
  exact (decVal_halve s).2

theorem divideBy2_exact_witness :
    ∃ q flags, divideBy2 (some (str "1375")) = .ok (q, flags) ∧
      q.length = (str "1375").length ∧ allDigits q ∧
      decVal q = decVal (str "1375") / 2 ∧
      (flags &&& REMAINDER ≠ 0 ↔ decVal (str "1375") % 2 = 1) :=
  divideBy2_exact (str "1375") (by decide)

/-! ## Claims on the conversion -/

/-- For strings of fewer than `2 ^ 27` digits the conversion returns the canonical
buffer of the number. -/
theorem base10to256_short (alloc : Nat → Bool) (s : List Nat) (hs : allDigits s)
    (hlen : s.length < 2 ^ 27)
    (ha1 : alloc (s.length + 1) = true)
    (ha2 : alloc (Bytes_header_size + estimate s.length) = true) :
    base10to256 alloc (some s) = .ok (canonical (decVal s) (estimate s.length)) := by
  have hb : s.length ≤ SIZE_MAX / BASE_RATIO_NUM := by
    have : (2 : Nat) ^ 27 ≤ SIZE_MAX / BASE_RATIO_NUM := by decide
    omega
  rcases base10to256_digits alloc s hs hb ha1 ha2 with h | ⟨h, _⟩
  · exact h
  · omega

theorem canonical_size_le (n len : Nat) (hlen : 0 < len) (hn : n < 2 ^ (8 * len)) :
    (canonical n len).size ≤ len := by
  have h1 : n.size ≤ 8 * len := Nat.size_le.2 hn
  unfold canonical
  simp only
  split <;> omega

theorem canonical_size (n len : Nat) :
    (canonical n len).size = if n = 0 then 1 else (n.size + 7) / 8 := by
  unfold canonical
  simp only
  by_cases h : n = 0
  · subst h; simp
  · have : n.size ≠ 0 := fun h0 => h (Nat.size_eq_zero.1 h0)
    rw [if_neg (by omega), if_neg h]

theorem canonical_byte (n len i : Nat) (hi : i < len) :
    (canonical n len).data.getD i 0 = (n >>> (8 * i)) &&& 0xFF := by
  unfold canonical
  simp only
  rw [List.getD_eq_getElem?_getD, List.getElem?_map, List.getElem?_range hi]
  rfl

theorem decVal_zeros (k : Nat) (s : List Nat) :
    decVal (List.replicate k '0'.toNat ++ s) = decVal s := by
  induction k with
  | zero => simp
  | succ k ih =>
    rw [List.replicate_succ, List.cons_append, decVal, Nat.sub_self, Nat.zero_mul, Nat.zero_add, ih]

/-- For strings of fewer than `2 ^ 27` digits: the buffer returned has the
minimal size for the number `n` denoted, and byte `i` below that size is
`(n >> (8 * i)) & 0xFF`. -/
theorem base10to256_short_bytes (alloc : Nat → Bool) (s : List Nat) (hs : allDigits s)
    (hlen : s.length < 2 ^ 27)
    (ha1 : alloc (s.length + 1) = true)
    (ha2 : alloc (Bytes_header_size + estimate s.length) = true) :
    ∃ bytes, base10to256 alloc (some s) = .ok bytes ∧
      Bytes_size bytes = (if decVal s = 0 then 1 else ((decVal s).size + 7) / 8) ∧
      ∀ i, i < Bytes_size bytes → bytes.data.getD i 0 = (decVal s >>> (8 * i)) &&& 0xFF := by
  have hn : decVal s < 2 ^ (8 * estimate s.length) :=
    lt_of_lt_of_le (decVal_lt s hs) (pow_ten_le_estimate _)
  have hle := canonical_size_le (decVal s) (estimate s.length) (Nat.succ_pos _) hn
  refine ⟨_, base10to256_short alloc s hs hlen ha1 ha2, canonical_size _ _, ?_⟩
  intro i hi
  exact canonical_byte _ _ i (lt_of_lt_of_le hi hle)

/-- For fewer than `2 ^ 27` characters in total, zeros in front of a string of
digits change neither the logical size nor any byte below it. -/
theorem base10to256_short_leading_zeros (alloc : Nat → Bool) (k : Nat) (s : List Nat)
    (hs : allDigits s) (hlen : k + s.length < 2 ^ 27) (ha : ∀ n, alloc n = true) :
    ∃ b1 b2, base10to256 alloc (some (List.replicate k '0'.toNat ++ s)) = .ok b1 ∧
      base10to256 alloc (some s) = .ok b2 ∧ Bytes_size b1 = Bytes_size b2 ∧
      ∀ i, i < Bytes_size b2 → b1.data.getD i 0 = b2.data.getD i 0 := by
  have hks : allDigits (List.replicate k '0'.toNat ++ s) := by
    intro x hx
    rcases List.mem_append.1 hx with h | h
    · rw [(List.mem_replicate.1 h).2]; decide
    · exact hs x h
  have hkl : (List.replicate k '0'.toNat ++ s).length = k + s.length := by
    rw [List.length_append, List.length_replicate]
  obtain ⟨b1, h1, hs1, hb1⟩ := base10to256_short_bytes alloc _ hks (by omega) (ha _) (ha _)
  obtain ⟨b2, h2, hs2, hb2⟩ := base10to256_short_bytes alloc s hs (by omega) (ha _) (ha _)
  rw [decVal_zeros] at hs1 hb1
  refine ⟨b1, b2, h1, h2, by rw [hs1, hs2], ?_⟩
  intro i hi
  rw [hb1 i (by rw [hs1, ← hs2]; exact hi), hb2 i hi]

/-- C1. Failing input: `2 ^ 27` characters `'0'` followed by `'2'` (all digits,
length within `SIZE_MAX / 416`, allocations succeeding).  The call does not
return the little-endian bytes of 2: the count field of the flags overflows into
the sign bit and the working pointer is moved in front of the copy. -/
theorem base10to256_zeros_two_fails :
    base10to256 allocAlways (some (List.replicate (2 ^ 27) '0'.toNat ++ ['2'.toNat]))
      = .error .outOfBounds :=
  base10to256_long_zeros (2 ^ 27) rfl '2'.toNat (by decide) (by decide)

/-- C2. Failing input: `2 ^ 27` characters `'0'` followed by `'4'`, denoting 4.
The call returns no buffer, so its logical size is not `ceil(bitLength(4) / 8) = 1`. -/
theorem base10to256_zeros_four_fails :
    ∀ bytes : Bytes,
      base10to256 allocAlways (some (List.replicate (2 ^ 27) '0'.toNat ++ ['4'.toNat]))
        ≠ .ok bytes := by
  intro bytes h
  rw [base10to256_long_zeros (2 ^ 27) rfl '4'.toNat (by decide) (by decide)] at h
  exact absurd h (by simp)

/-- The last byte below the logical size of a canonical buffer of more than one
byte is nonzero. -/
theorem canonical_msb_nonzero (n len : Nat) (hlen : 0 < len) (hn : n < 2 ^ (8 * len))
    (hsz : 1 < (canonical n len).size) :
    (canonical n len).data.getD ((canonical n len).size - 1) 0 ≠ 0 := by
  have hle := canonical_size_le n len hlen hn
  have hk : (canonical n len).size = (n.size + 7) / 8 := by
    unfold canonical at hsz ⊢
    simp only at hsz ⊢
    split
    · rename_i h0; rw [if_pos h0] at hsz; omega
    · rfl
  rw [hk] at hsz hle ⊢
  have hidx : (n.size + 7) / 8 - 1 < len := by omega
  have hget : (canonical n len).data.getD ((n.size + 7) / 8 - 1) 0
      = (n >>> (8 * ((n.size + 7) / 8 - 1))) &&& 0xFF := by
    unfold canonical
    simp only
    rw [List.getD_eq_getElem?_getD, List.getElem?_map, List.getElem?_range hidx]
    rfl
  rw [hget]
  have h1 : 8 * ((n.size + 7) / 8 - 1) < n.size := by omega
  have h2 : 2 ^ (8 * ((n.size + 7) / 8 - 1)) ≤ n := Nat.lt_size.1 h1
  have h3 : n < 2 ^ (8 * ((n.size + 7) / 8 - 1) + 8) :=
    lt_of_lt_of_le (Nat.lt_size_self n) (Nat.pow_le_pow_right (by norm_num) (by omega))
  have hpos : 0 < 2 ^ (8 * ((n.size + 7) / 8 - 1)) := Nat.pos_pow_of_pos _ (by norm_num)
  have h4 : 1 ≤ n >>> (8 * ((n.size + 7) / 8 - 1)) := by
    rw [Nat.shiftRight_eq_div_pow]
    exact (Nat.one_le_div_iff hpos).2 h2
  have h5 : n >>> (8 * ((n.size + 7) / 8 - 1)) < 2 ^ 8 := by
    rw [Nat.shiftRight_eq_div_pow, Nat.div_lt_iff_lt_mul hpos, ← pow_add, Nat.add_comm]
    exact h3
  rw [show (0xFF : Nat) = 2 ^ 8 - 1 by norm_num, Nat.and_pow_two_sub_one_of_lt_two_pow h5]
  omega

/-- C4. Failing input: `k = 2 ^ 27` and `s = "8"`.  The string `"8"` alone gives
the single byte 8, the same string behind `2 ^ 27` zeros gives no buffer. -/
theorem base10to256_leading_zeros_fail :
    base10to256 allocAlways (some ['8'.toNat]) = .ok ⟨1, [8]⟩ ∧
      base10to256 allocAlways (some (List.replicate (2 ^ 27) '0'.toNat ++ ['8'.toNat]))
        = .error .outOfBounds :=
  ⟨by decide, base10to256_long_zeros (2 ^ 27) rfl '8'.toNat (by decide) (by decide)⟩

/-- C5. Failing input: the empty string.  `divideBy2` returns `ZERO` without
`NULL_DECIMAL` for it and `base10to256` returns a buffer holding the single
byte 0, as for `"0"`; no failure is reported. -/
theorem base10to256_empty :
    divideBy2 (some []) = .ok ([], ZERO) ∧
      base10to256 allocAlways (some []) = .ok ⟨1, [0]⟩ ∧
      base10to256 allocAlways (some (str "0")) = .ok ⟨1, [0]⟩ := by
  decide

/-- C6. Failing input: `"12a3"`.  The first `divideBy2` halves `"12"` in place
and returns `NON_DECIMALS`, which `base10to256_impl` never tests: the call
returns a buffer of logical size 1 holding `0x0C`, the value of the prefix `"12"`. -/
theorem base10to256_non_digit :
    divideBy2 (some (str "12a3")) = .ok (str "06a3", NON_DECIMALS ||| LEADING_ZERO_COUNT) ∧
      base10to256 allocAlways (some (str "12a3")) = .ok ⟨1, [0x0C, 0]⟩ := by
  decide

/-! ## Hexadecimal rendering: claims -/

theorem renderDown_succ (piece : Nat → List Nat) (k : Nat) :
    renderDown piece (k + 1) = piece k ++ renderDown piece k := by
  unfold renderDown
  rw [List.range_succ, List.reverse_append, List.reverse_singleton, List.singleton_append,
    List.flatMap_cons]

theorem renderDown_zero (piece : Nat → List Nat) : renderDown piece 0 = [] := rfl

/-- The loop of `Bytes_to_hex`, started with `k` bytes left and `(k - 1) / 4`
separators left, writes the rendering with a space at every low boundary. -/
theorem Bytes_to_hex_loop_eq (data : List Nat) :
    ∀ k, k ≤ data.length →
      Bytes_to_hex_loop data k ((k - 1) / 4) = .ok (hexSpaceAtLowBoundaries data k) := by
  intro k
  induction k with
  | zero => intro _; rfl
  | succ k ih =>
    intro hk
    have hlt : k < data.length := by omega
    have ih1 := ih (by omega)
    unfold hexSpaceAtLowBoundaries at ih1 ⊢
    rw [renderDown_succ, Bytes_to_hex_loop, if_pos hlt]
    simp only [Nat.add_sub_cancel]
    by_cases hsp : k ≠ 0 ∧ k % 4 = 0
    · have h0 : ¬ k / 4 = 0 := by omega
      have hs : k / 4 - 1 = (k - 1) / 4 := by omega
      rw [if_pos hsp, if_neg h0, hs, ih1, if_pos hsp]
      simp
    · have hs : k / 4 = (k - 1) / 4 := by omega
      rw [if_neg hsp, hs, ih1, if_neg hsp]
      simp

theorem length_snprintf_02X (c : Nat) : (snprintf_02X c).length = 2 := rfl

theorem length_hexSpaceAtLowBoundaries (data : List Nat) (k : Nat) :
    (hexSpaceAtLowBoundaries data k).length = 2 * k + (k - 1) / 4 := by
  induction k with
  | zero => rfl
  | succ k ih =>
    unfold hexSpaceAtLowBoundaries at ih ⊢
    rw [renderDown_succ, List.length_append, List.length_append, ih, length_snprintf_02X]
    by_cases hsp : k ≠ 0 ∧ k % 4 = 0
    · rw [if_pos hsp]; simp only [List.length_singleton, Nat.add_sub_cancel]; omega
    · rw [if_neg hsp]; simp only [List.length_nil, Nat.add_sub_cancel]; omega

/-- Counting the groups from the low end, a space before every group is a space
at every boundary. -/
theorem hexSpaceBeforeLowGroups_eq (data : List Nat) (n : Nat) :
    hexSpaceBeforeLowGroups data n = hexSpaceAtLowBoundaries data n := by
  have key : ∀ k, k + 1 ≤ n →
      renderDown (fun i => (if (i + 1) % 4 = 0 ∧ i + 1 < n then [' '.toNat] else [])
          ++ snprintf_02X (data.getD i 0)) (k + 1)
        = (if (k + 1) % 4 = 0 ∧ k + 1 < n then [' '.toNat] else [])
          ++ renderDown (fun i => snprintf_02X (data.getD i 0)
            ++ (if i ≠ 0 ∧ i % 4 = 0 then [' '.toNat] else [])) (k + 1) := by
    intro k
    induction k with
    | zero =>
      intro _
      rw [renderDown_succ, renderDown_succ, renderDown_zero, renderDown_zero]
      simp
    | succ k ih =>
      intro hk
      rw [renderDown_succ, ih (by omega), renderDown_succ (fun i => snprintf_02X (data.getD i 0)
            ++ (if i ≠ 0 ∧ i % 4 = 0 then [' '.toNat] else [])) (k + 1)]
      have hc : ((k + 1) % 4 = 0 ∧ k + 1 < n) ↔ (k + 1 ≠ 0 ∧ (k + 1) % 4 = 0) := by
        constructor
        · rintro ⟨h1, _⟩; exact ⟨by omega, h1⟩
        · rintro ⟨_, h1⟩; exact ⟨h1, by omega⟩
      simp only [hc, List.append_assoc]
  cases n with
  | zero => rfl
  | succ m =>
    unfold hexSpaceBeforeLowGroups hexSpaceAtLowBoundaries
    rw [key m (le_refl _), if_neg (by omega), List.nil_append]

theorem hexDigit_ne_space (d : Nat) : hexDigit d ≠ ' '.toNat := by
  unfold hexDigit
  simp only [show '0'.toNat = 48 by rfl, show 'A'.toNat = 65 by rfl, show ' '.toNat = 32 by rfl]
  split <;> omega

theorem isUpperHex_hexDigit (d : Nat) (hd : d < 16) : isUpperHex (hexDigit d) := by
  unfold hexDigit isUpperHex
  simp only [show '0'.toNat = 48 by rfl, show 'A'.toNat = 65 by rfl, show '9'.toNat = 57 by rfl,
    show 'F'.toNat = 70 by rfl]
  split <;> omega

theorem head_hexSpaceAtLowBoundaries (data : List Nat) (k : Nat) :
    (hexSpaceAtLowBoundaries data (k + 1)).head? = some (hexDigit (data.getD k 0 / 16)) := by
  unfold hexSpaceAtLowBoundaries
  rw [renderDown_succ]
  rfl

theorem getLast_hexSpaceAtLowBoundaries (data : List Nat) (k : Nat) :
    (hexSpaceAtLowBoundaries data (k + 1)).getLast? = some (hexDigit (data.getD 0 0 % 16)) := by
  induction k with
  | zero => rfl
  | succ k ih =>
    unfold hexSpaceAtLowBoundaries at ih ⊢
    rw [renderDown_succ, List.getLast?_append, ih]
    rfl

theorem mem_hexSpaceAtLowBoundaries (data : List Nat) (hw : ∀ x ∈ data, x < 256) (k : Nat) :
    ∀ ch ∈ hexSpaceAtLowBoundaries data k, ch = ' '.toNat ∨ isUpperHex ch := by
  induction k with
  | zero => intro ch h; exact absurd h (List.not_mem_nil _)
  | succ k ih =>
    intro ch h
    unfold hexSpaceAtLowBoundaries at ih h
    rw [renderDown_succ] at h
    rcases List.mem_append.1 h with h1 | h1
    · rcases List.mem_append.1 h1 with h2 | h2
      · have hb : data.getD k 0 < 256 := by
          rw [List.getD_eq_getElem?_getD]
          cases hg : data[k]? with
          | none => simp
          | some x => exact hw x (List.getElem?_mem hg)
        right
        simp only [snprintf_02X, List.mem_cons, List.mem_singleton, List.not_mem_nil,
          or_false] at h2
        rcases h2 with h3 | h3
        · rw [h3]; exact isUpperHex_hexDigit _ (by omega)
        · rw [h3]; exact isUpperHex_hexDigit _ (by omega)
      · left
        split at h2
        · exact List.mem_singleton.1 h2
        · exact absurd h2 (List.not_mem_nil _)
    · exact ih ch h1

/-- What `Bytes_to_hex` returns for a buffer of at least one byte whose
rendering fits in a `size_t`-sized block. -/
theorem Bytes_to_hex_eq (alloc : Nat → Bool) (bytes : Bytes) (hn : 1 ≤ Bytes_size bytes)
    (hsz : Bytes_size bytes ≤ bytes.data.length)
    (hfit : 2 * Bytes_size bytes + (Bytes_size bytes - 1) / 4 + 1 ≤ SIZE_MAX)
    (ha : alloc (2 * Bytes_size bytes + (Bytes_size bytes - 1) / 4 + 1) = true) :
    Bytes_to_hex alloc bytes = .ok (hexSpaceAtLowBoundaries bytes.data (Bytes_size bytes)) := by
  have hS : SIZE_MAX = 2 ^ 64 - 1 := rfl
  have hsp : (Bytes_size bytes + SIZE_MAX) % (SIZE_MAX + 1) / 4 = (Bytes_size bytes - 1) / 4 := by
    have e : Bytes_size bytes + SIZE_MAX = (Bytes_size bytes - 1) + (SIZE_MAX + 1) := by omega
    rw [e, Nat.add_mod_right, Nat.mod_eq_of_lt (by omega)]
  have hreq : (Bytes_size bytes * 2 + (Bytes_size bytes - 1) / 4 + 1) % (SIZE_MAX + 1)
      = 2 * Bytes_size bytes + (Bytes_size bytes - 1) / 4 + 1 := by
    rw [Nat.mod_eq_of_lt (by omega)]; omega
  unfold Bytes_to_hex
  simp only [hsp, hreq, ha, not_true_eq_false, if_false]
  rw [if_neg (by omega), Bytes_to_hex_loop_eq bytes.data _ hsz]
  simp only [length_hexSpaceAtLowBoundaries, le_refl, if_true]

theorem filter_hexSpaceAtLowBoundaries (data : List Nat) (k : Nat) :
    (hexSpaceAtLowBoundaries data k).filter (fun ch => decide (ch ≠ ' '.toNat))
      = renderDown (fun i => snprintf_02X (data.getD i 0)) k := by
  induction k with
  | zero => rfl
  | succ k ih =>
    unfold hexSpaceAtLowBoundaries at ih ⊢
    rw [renderDown_succ, renderDown_succ, List.filter_append, List.filter_append, ih]
    have h1 : (snprintf_02X (data.getD k 0)).filter (fun ch => decide (ch ≠ ' '.toNat))
        = snprintf_02X (data.getD k 0) := by
      have e1 := hexDigit_ne_space (data.getD k 0 / 16)
      have e2 := hexDigit_ne_space (data.getD k 0 % 16)
      simp only [snprintf_02X, List.filter_cons, List.filter_nil, e1, e2, ne_eq,
        not_false_eq_true, decide_True, if_true]
    have h2 : (if k ≠ 0 ∧ k % 4 = 0 then [' '.toNat] else []).filter
        (fun ch => decide (ch ≠ ' '.toNat)) = [] := by
      split <;> simp
    rw [h1, h2, List.append_nil]

/-- C11. For a buffer of `n >= 1` bytes (allocation succeeding, the rendering
fitting in a block), `Bytes_to_hex` returns the bytes from the last to the first,
each as two uppercase hexadecimal digits, with one space before every group of 4
bytes counted from the least-significant end, a hex digit as first and as last
character, and `2n + (n-1)/4` characters in all. -/
theorem Bytes_to_hex_low_groups (alloc : Nat → Bool) (bytes : Bytes)
    (hn : 1 ≤ Bytes_size bytes) (hsz : Bytes_size bytes ≤ bytes.data.length)
    (hw : ∀ x ∈ bytes.data, x < 256)
    (hfit : 2 * Bytes_size bytes + (Bytes_size bytes - 1) / 4 + 1 ≤ SIZE_MAX)
    (ha : alloc (2 * Bytes_size bytes + (Bytes_size bytes - 1) / 4 + 1) = true) :
    ∃ out, Bytes_to_hex alloc bytes = .ok out ∧
      out = hexSpaceBeforeLowGroups bytes.data (Bytes_size bytes) ∧
      (∀ i, i < Bytes_size bytes → (snprintf_02X (bytes.data.getD i 0)).length = 2 ∧
        ∀ ch ∈ snprintf_02X (bytes.data.getD i 0), isUpperHex ch) ∧
      (∃ ch, out.head? = some ch ∧ isUpperHex ch) ∧
      (∃ ch, out.getLast? = some ch ∧ isUpperHex ch) ∧
      (∀ ch ∈ out, ch = ' '.toNat ∨ isUpperHex ch) ∧
      out.length = 2 * Bytes_size bytes + (Bytes_size bytes - 1) / 4 := by
  have hb : ∀ i, bytes.data.getD i 0 < 256 := by
    intro i
    rw [List.getD_eq_getElem?_getD]
    cases hg : bytes.data[i]? with
    | none => simp
    | some x => exact hw x (List.getElem?_mem hg)
  obtain ⟨k, hk⟩ : ∃ k, Bytes_size bytes = k + 1 := ⟨Bytes_size bytes - 1, by omega⟩
  refine ⟨_, Bytes_to_hex_eq alloc bytes hn hsz hfit ha,
    (hexSpaceBeforeLowGroups_eq _ _).symm, ?_, ?_, ?_,
    mem_hexSpaceAtLowBoundaries _ hw _, length_hexSpaceAtLowBoundaries _ _⟩
  · intro i _
    refine ⟨rfl, ?_⟩
    intro ch hch
    have := hb i
    simp only [snprintf_02X, List.mem_cons, List.mem_singleton, List.not_mem_nil,
      or_false] at hch
    rcases hch with h | h
    · rw [h]; exact isUpperHex_hexDigit _ (by omega)
    · rw [h]; exact isUpperHex_hexDigit _ (by omega)
  · rw [hk, head_hexSpaceAtLowBoundaries]
    have := hb k
    exact ⟨_, rfl, isUpperHex_hexDigit _ (by omega)⟩
  · rw [hk, getLast_hexSpaceAtLowBoundaries]
    have := hb 0
    exact ⟨_, rfl, isUpperHex_hexDigit _ (by omega)⟩

theorem Bytes_to_hex_low_groups_witness :
    Bytes_to_hex allocAlways ⟨5, [1, 0, 0, 0, 1]⟩ = .ok (str "01 00000001") ∧
      ∃ out, Bytes_to_hex allocAlways ⟨5, [1, 0, 0, 0, 1]⟩ = .ok out ∧
        out = hexSpaceBeforeLowGroups [1, 0, 0, 0, 1] 5 ∧
        (∀ i, i < 5 → (snprintf_02X ([1, 0, 0, 0, 1].getD i 0)).length = 2 ∧
          ∀ ch ∈ snprintf_02X ([1, 0, 0, 0, 1].getD i 0), isUpperHex ch) ∧
        (∃ ch, out.head? = some ch ∧ isUpperHex ch) ∧
        (∃ ch, out.getLast? = some ch ∧ isUpperHex ch) ∧
        (∀ ch ∈ out, ch = ' '.toNat ∨ isUpperHex ch) ∧
        out.length = 2 * 5 + (5 - 1) / 4 :=
  ⟨by decide,
    Bytes_to_hex_low_groups allocAlways ⟨5, [1, 0, 0, 0, 1]⟩ (by decide) (by decide) (by decide)
      (by decide) rfl⟩

/-- C12, as stated, fails: for the 5 bytes of 4294967297 the rendering with a
space after every 4th byte counted from the most-significant end would be
`"01000000 01"`, and `Bytes_to_hex` returns `"01 00000001"`. -/
theorem Bytes_to_hex_not_high_boundaries :
    hexSpaceAtHighBoundaries [1, 0, 0, 0, 1] 5 = str "01000000 01" ∧
      Bytes_to_hex allocAlways ⟨5, [1, 0, 0, 0, 1]⟩ = .ok (str "01 00000001") ∧
      Bytes_to_hex allocAlways ⟨5, [1, 0, 0, 0, 1]⟩
        ≠ .ok (hexSpaceAtHighBoundaries [1, 0, 0, 0, 1] 5) := by
  decide

/-- C12, amended. For a buffer of at least one byte (allocation succeeding, the
rendering fitting in a block), `Bytes_to_hex` renders the bytes from the most
significant to the least significant, two hex digits each, and inserts a single
space at every 4th byte boundary counted from the least-significant end; the
string neither starts nor ends with a space. -/
theorem Bytes_to_hex_low_boundaries (alloc : Nat → Bool) (bytes : Bytes)
    (hn : 1 ≤ Bytes_size bytes) (hsz : Bytes_size bytes ≤ bytes.data.length)
    (hfit : 2 * Bytes_size bytes + (Bytes_size bytes - 1) / 4 + 1 ≤ SIZE_MAX)
    (ha : alloc (2 * Bytes_size bytes + (Bytes_size bytes - 1) / 4 + 1) = true) :
    ∃ out, Bytes_to_hex alloc bytes = .ok out ∧
      out = hexSpaceAtLowBoundaries bytes.data (Bytes_size bytes) ∧
      out.filter (fun ch => decide (ch ≠ ' '.toNat))
        = renderDown (fun i => snprintf_02X (bytes.data.getD i 0)) (Bytes_size bytes) ∧
      out.head? ≠ some ' '.toNat ∧ out.getLast? ≠ some ' '.toNat := by
  obtain ⟨k, hk⟩ : ∃ k, Bytes_size bytes = k + 1 := ⟨Bytes_size bytes - 1, by omega⟩
  refine ⟨_, Bytes_to_hex_eq alloc bytes hn hsz hfit ha, rfl,
    filter_hexSpaceAtLowBoundaries _ _, ?_, ?_⟩
  · rw [hk, head_hexSpaceAtLowBoundaries]
    intro h
    exact hexDigit_ne_space _ (Option.some.inj h)
  · rw [hk, getLast_hexSpaceAtLowBoundaries]
    intro h
    exact hexDigit_ne_space _ (Option.some.inj h)

theorem Bytes_to_hex_low_boundaries_witness :
    ∃ out, Bytes_to_hex allocAlways ⟨9, [1, 2, 3, 4, 5, 6, 7, 8, 171]⟩ = .ok out ∧
      out = hexSpaceAtLowBoundaries [1, 2, 3, 4, 5, 6, 7, 8, 171] 9 ∧
      out.filter (fun ch => decide (ch ≠ ' '.toNat))
        = renderDown (fun i => snprintf_02X ([1, 2, 3, 4, 5, 6, 7, 8, 171].getD i 0)) 9 ∧
      out.head? ≠ some ' '.toNat ∧ out.getLast? ≠ some ' '.toNat :=
  Bytes_to_hex_low_boundaries allocAlways ⟨9, [1, 2, 3, 4, 5, 6, 7, 8, 171]⟩ (by decide)
    (by decide) (by decide) rfl

/-! ## The size estimate -/

/-- A number of `d` decimal digits has at most `8 * (d * 416 / 1000 + 1)` bits:
every `j` at which `n / 2 ^ j` is not yet 0 has `j / 8` below the estimate, and
the truncation length `(bitLength + 7) / 8` is at most the estimate. -/
theorem estimate_bits (s : List Nat) (hs : allDigits s) :
    (∀ j, decVal s / 2 ^ j ≠ 0 → j / 8 < estimate s.length) ∧
      ((decVal s).size + 7) / 8 ≤ estimate s.length := by
  have hn : decVal s < 2 ^ (8 * estimate s.length) :=
    lt_of_lt_of_le (decVal_lt s hs) (pow_ten_le_estimate _)
  have hsize : (decVal s).size ≤ 8 * estimate s.length := Nat.size_le.2 hn
  refine ⟨?_, by omega⟩
  intro j hj
  have h2pos : 0 < 2 ^ j := Nat.pos_pow_of_pos _ (by norm_num)
  have h2j : 2 ^ j ≤ decVal s := by
    by_contra hlt
    exact hj ((Nat.div_eq_zero_iff h2pos).2 (by omega))
  have : j < 8 * estimate s.length :=
    (Nat.pow_lt_pow_iff_right (by norm_num : 1 < 2)).1 (lt_of_le_of_lt h2j hn)
  omega

/-! ## Division by two on arbitrary strings -/

theorem flagsAfter_nil (r z : Bool) (k : Nat) (hk : k < 2 ^ 28) :
    flagsAfter [] r z k = enc r z k := by
  have hc : COUNT_CAP = 2 ^ 28 - 1 := rfl
  have hm : min k COUNT_CAP = k := by omega
  simp [flagsAfter, halve, carryEnd, leadingZeros, hm]

theorem flagsAfter_cons (c : Nat) (rest : List Nat) (r z : Bool) (k : Nat) (hk : k < 2 ^ 28) :
    flagsAfter rest (carryOut c r) (z && decide (halfDigit c r = 0))
        (if z = true ∧ halfDigit c r = 0 ∧ k ≠ COUNT_CAP then k + 1 else k)
      = flagsAfter (c :: rest) r z k := by
  have hc : COUNT_CAP = 2 ^ 28 - 1 := rfl
  have hlz := leadingZeros_le (halve rest (carryOut c r))
  unfold flagsAfter
  simp only [halve, carryEnd, leadingZeros, List.length_cons]
  congr 1
  · by_cases hq : halfDigit c r = 0
    · simp [hq]
    · have : ¬ (halfDigit c r + '0'.toNat = '0'.toNat) := by omega
      simp [hq, this]
  · by_cases hz : z = true
    · by_cases hq : halfDigit c r = 0
      · by_cases hcap : k = COUNT_CAP
        · simp only [hz, hq, hcap]; simp
        · simp only [hz, hq]; simp [hcap]; omega
      · have : ¬ (halfDigit c r + '0'.toNat = '0'.toNat) := by omega
        simp only [hz, hq, this]; simp; omega
    · simp only [Bool.not_eq_true] at hz
      simp [hz]

/-- The `while` loop of `divideBy2` on any string: the digits in front are
halved, the loop stops at the first character that is not a digit, and what
follows is left as it was. -/
theorem divideBy2_loop_any (s : List Nat) :
    ∀ (r z : Bool) (k : Nat), k < 2 ^ 28 →
      divideBy2_loop s (enc r z k) =
        .ok (halve (digitPrefix s) r ++ afterDigits s,
          flagsAfter (digitPrefix s) r z k ||| stopFlag (afterDigits s)) := by
  induction s with
  | nil =>
    intro r z k hk
    simp [divideBy2_loop, digitPrefix, afterDigits, stopFlag, halve, flagsAfter_nil r z k hk]
  | cons c rest ih =>
    intro r z k hk
    have hc : COUNT_CAP = 2 ^ 28 - 1 := rfl
    by_cases hd : isDigit c
    · have hk2 :
          (if z = true ∧ halfDigit c r = 0 ∧ k ≠ COUNT_CAP then k + 1 else k) < 2 ^ 28 := by
        split <;> omega
      have hp : digitPrefix (c :: rest) = c :: digitPrefix rest := by
        simp [digitPrefix, List.takeWhile_cons, hd]
      have ha : afterDigits (c :: rest) = afterDigits rest := by
        simp [afterDigits, List.dropWhile_cons, hd]
      rw [divideBy2_loop_digit c rest r z k hd hk, ih _ _ _ hk2, hp, ha,
        flagsAfter_cons c _ r z k hk]
      rfl
    · have hp : digitPrefix (c :: rest) = [] := by
        simp [digitPrefix, List.takeWhile_cons, hd]
      have ha : afterDigits (c :: rest) = c :: rest := by
        simp [afterDigits, List.dropWhile_cons, hd]
      rw [hp, ha, flagsAfter_nil r z k hk]
      have hnd : c < '0'.toNat ∨ c > '9'.toNat := by
        unfold isDigit at hd
        omega
      by_cases h0 : c = 0
      · rw [divideBy2_loop, if_pos h0]
        simp [stopFlag, h0, halve]
      · rw [divideBy2_loop, if_neg h0, if_pos hnd]
        simp [stopFlag, h0, halve]

/-- What `divideBy2` returns on any string. -/
theorem divideBy2_any (s : List Nat) :
    divideBy2 (some s) =
      .ok (halve (digitPrefix s) false ++ afterDigits s,
        flagsAfter (digitPrefix s) false true 0 ||| stopFlag (afterDigits s)) := by
  rw [divideBy2, ZERO_eq_enc, divideBy2_loop_any s false true 0 (by norm_num)]

theorem allDigits_digitPrefix (s : List Nat) : allDigits (digitPrefix s) := by
  intro c hc
  have := List.mem_takeWhile_imp hc
  simpa using this

theorem digitPrefix_append_afterDigits (s : List Nat) : digitPrefix s ++ afterDigits s = s :=
  List.takeWhile_append_dropWhile _ _

theorem digitPrefix_of_allDigits (s : List Nat) (hs : allDigits s) : digitPrefix s = s := by
  unfold digitPrefix
  rw [List.takeWhile_eq_self_iff]
  intro c hc
  simpa using hs c hc

theorem afterDigits_of_allDigits (s : List Nat) (hs : allDigits s) : afterDigits s = [] := by
  have h := digitPrefix_append_afterDigits s
  rw [digitPrefix_of_allDigits s hs] at h
  exact List.append_right_eq_self.1 h

theorem leadingZeros_eq_length_iff_all (q : List Nat) :
    leadingZeros q = q.length ↔ ∀ c ∈ q, c = '0'.toNat := by
  induction q with
  | nil => simp [leadingZeros]
  | cons c rest ih =>
    have hle := leadingZeros_le rest
    simp only [leadingZeros, List.length_cons, List.mem_cons, forall_eq_or_imp]
    by_cases hc : c = '0'.toNat
    · rw [if_pos hc, Nat.add_right_cancel_iff, ih]
      exact ⟨fun h => ⟨hc, h⟩, fun h => h.2⟩
    · rw [if_neg hc]
      constructor
      · intro h; omega
      · intro h; exact absurd h.1 hc

theorem stopFlag_iff (s : List Nat) :
    stopFlag (afterDigits s) = NON_DECIMALS ↔
      ∃ c ∈ s.takeWhile (fun c => decide (c ≠ 0)), ¬ isDigit c := by
  induction s with
  | nil => simp [afterDigits, stopFlag, NON_DECIMALS]
  | cons c rest ih =>
    by_cases hd : isDigit c
    · have ha : afterDigits (c :: rest) = afterDigits rest := by
        simp [afterDigits, List.dropWhile_cons, hd]
      have hc0 : c ≠ 0 := by
        have := hd.1
        simp only [show '0'.toNat = 48 by rfl] at this
        omega
      rw [ha, ih, List.takeWhile_cons]
      simp only [hc0, ne_eq, not_false_eq_true, decide_True, if_true, List.mem_cons]
      constructor
      · rintro ⟨x, hx, hnx⟩; exact ⟨x, Or.inr hx, hnx⟩
      · rintro ⟨x, hx | hx, hnx⟩
        · rw [hx] at hnx; exact absurd hd hnx
        · exact ⟨x, hx, hnx⟩
    · have ha : afterDigits (c :: rest) = c :: rest := by
        simp [afterDigits, List.dropWhile_cons, hd]
      rw [ha, List.takeWhile_cons]
      by_cases h0 : c = 0
      · simp [stopFlag, h0, NON_DECIMALS]
      · simp only [stopFlag, h0, if_false, ne_eq, not_false_eq_true, decide_True, if_true,
          List.mem_cons, true_iff]
        exact ⟨c, Or.inl rfl, hd⟩

theorem stopFlag_cases (t : List Nat) : stopFlag t = 0 ∨ stopFlag t = NON_DECIMALS := by
  cases t with
  | nil => exact Or.inl rfl
  | cons c rest =>
    unfold stopFlag
    by_cases h0 : c = 0
    · exact Or.inl (if_pos h0)
    · exact Or.inr (if_neg h0)

theorem afterDigits_head (s : List Nat) :
    afterDigits s = [] ∨ ∃ c t, afterDigits s = c :: t ∧ ¬ isDigit c := by
  induction s with
  | nil => exact Or.inl rfl
  | cons c rest ih =>
    by_cases hd : isDigit c
    · have ha : afterDigits (c :: rest) = afterDigits rest := by
        simp [afterDigits, List.dropWhile_cons, hd]
      rw [ha]; exact ih
    · have ha : afterDigits (c :: rest) = c :: rest := by
        simp [afterDigits, List.dropWhile_cons, hd]
      rw [ha]; exact Or.inr ⟨c, rest, rfl, hd⟩

theorem enc_or_and_NON_DECIMALS (r z : Bool) (k x : Nat) :
    (enc r z k ||| x) &&& NON_DECIMALS = x &&& NON_DECIMALS := by
  have h0 : enc r z k &&& NON_DECIMALS = 0 := by
    rw [NON_DECIMALS, enc_and_const r z k 8 (by decide)]
    cases r <;> cases z <;> decide
  rw [Nat.and_distrib_right, h0, Nat.zero_or]

/-- C15. On every string `divideBy2` returns without a failed assertion: each
halved digit (digit plus 10 under a carry, shifted right) is at most 9, the
characters written are the halved digits of the leading run of digits and are all
in `'0'..'9'`, the rest of the string is untouched, and a string of digits stays a
string of digits, also behind any number of skipped characters. -/
theorem divideBy2_writes_digits (s : List Nat) :
    (∀ c r, isDigit c → halfDigit c r ≤ 9) ∧
      ∃ q f, divideBy2 (some s) = .ok (q, f) ∧ q.length = s.length ∧
        q = halve (digitPrefix s) false ++ afterDigits s ∧
        allDigits (halve (digitPrefix s) false) ∧
        (allDigits s → ∀ k, allDigits (q.drop k)) := by
  refine ⟨fun c r h => halfDigit_le c r h, _, _, divideBy2_any s, ?_, rfl,
    allDigits_halve _ _ (allDigits_digitPrefix s), ?_⟩
  · rw [List.length_append, length_halve, ← List.length_append, digitPrefix_append_afterDigits]
  · intro hs k
    rw [digitPrefix_of_allDigits s hs, afterDigits_of_allDigits s hs, List.append_nil]
    exact allDigits_drop _ _ (allDigits_halve _ _ hs)

theorem divideBy2_writes_digits_witness :
    (∀ c r, isDigit c → halfDigit c r ≤ 9) ∧
      ∃ q f, divideBy2 (some (str "97a8")) = .ok (q, f) ∧ q.length = (str "97a8").length ∧
        q = halve (digitPrefix (str "97a8")) false ++ afterDigits (str "97a8") ∧
        allDigits (halve (digitPrefix (str "97a8")) false) ∧
        (allDigits (str "97a8") → ∀ k, allDigits (q.drop k)) :=
  divideBy2_writes_digits (str "97a8")

/-- C16. For every string of decimal digits, the empty one included, `divideBy2`
returns `ZERO` set exactly when the quotient is zero, that is when every
character of the halved string is `'0'`. -/
theorem divideBy2_zero_flag (s : List Nat) (hs : allDigits s) :
    ∃ q f, divideBy2 (some s) = .ok (q, f) ∧ decVal q = decVal s / 2 ∧
      ((f &&& ZERO ≠ 0) ↔ decVal q = 0) ∧
      ((f &&& ZERO ≠ 0) ↔ ∀ c ∈ q, c = '0'.toNat) := by
  refine ⟨_, _, divideBy2_digits s hs, (decVal_halve s).1, ?_, ?_⟩
  · rw [enc_and_ZERO, decide_eq_true_eq]
    exact leadingZeros_eq_length_iff _ (allDigits_halve _ _ hs)
  · rw [enc_and_ZERO, decide_eq_true_eq]
    exact leadingZeros_eq_length_iff_all _

theorem divideBy2_zero_flag_witness :
    (∃ q f, divideBy2 (some (str "1")) = .ok (q, f) ∧ decVal q = decVal (str "1") / 2 ∧
      ((f &&& ZERO ≠ 0) ↔ decVal q = 0) ∧
      ((f &&& ZERO ≠ 0) ↔ ∀ c ∈ q, c = '0'.toNat)) ∧
    divideBy2 (some (str "1")) = .ok (str "0", REMAINDER ||| ZERO ||| LEADING_ZERO_COUNT) ∧
    divideBy2 (some (str "")) = .ok (str "", ZERO) ∧
    divideBy2 (some (str "20")) = .ok (str "10", 0) :=
  ⟨divideBy2_zero_flag (str "1") (by decide), by decide, by decide, by decide⟩

/-- C19. On every string `divideBy2` returns `NON_DECIMALS` set exactly when the
string has a character outside `'0'..'9'` before its terminator.  In every case
the leading run of digits is halved in place (same length, value halved) and the
rest is unchanged; when the flag is set that rest starts with the first
character that is not a digit. -/
theorem divideBy2_non_decimals (s : List Nat) :
    ∃ q f, divideBy2 (some s) = .ok (q, f) ∧
      ((f &&& NON_DECIMALS ≠ 0) ↔
        ∃ c ∈ s.takeWhile (fun c => decide (c ≠ 0)), ¬ isDigit c) ∧
      digitPrefix s ++ afterDigits s = s ∧ allDigits (digitPrefix s) ∧
      q = halve (digitPrefix s) false ++ afterDigits s ∧
      (halve (digitPrefix s) false).length = (digitPrefix s).length ∧
      decVal (halve (digitPrefix s) false) = decVal (digitPrefix s) / 2 ∧
      (f &&& NON_DECIMALS ≠ 0 →
        ∃ c t, afterDigits s = c :: t ∧ ¬ isDigit c ∧ c ≠ 0) := by
  have hbit : (flagsAfter (digitPrefix s) false true 0 ||| stopFlag (afterDigits s))
      &&& NON_DECIMALS ≠ 0 ↔ stopFlag (afterDigits s) = NON_DECIMALS := by
    unfold flagsAfter
    rw [enc_or_and_NON_DECIMALS]
    rcases stopFlag_cases (afterDigits s) with h | h <;> rw [h] <;> decide
  refine ⟨_, _, divideBy2_any s, ?_, digitPrefix_append_afterDigits s, allDigits_digitPrefix s,
    rfl, length_halve _ _, (decVal_halve _).1, ?_⟩
  · rw [hbit]; exact stopFlag_iff s
  · intro h
    rw [hbit] at h
    rcases afterDigits_head s with h0 | ⟨c, t, hct, hnd⟩
    · rw [h0] at h; exact absurd h (by decide)
    · refine ⟨c, t, hct, hnd, ?_⟩
      intro hc0
      rw [hct, stopFlag, if_pos hc0] at h
      exact absurd h (by decide)

theorem divideBy2_non_decimals_witness :
    (∃ q f, divideBy2 (some (str "12a3")) = .ok (q, f) ∧
      ((f &&& NON_DECIMALS ≠ 0) ↔
        ∃ c ∈ (str "12a3").takeWhile (fun c => decide (c ≠ 0)), ¬ isDigit c) ∧
      digitPrefix (str "12a3") ++ afterDigits (str "12a3") = str "12a3" ∧
      allDigits (digitPrefix (str "12a3")) ∧
      q = halve (digitPrefix (str "12a3")) false ++ afterDigits (str "12a3") ∧
      (halve (digitPrefix (str "12a3")) false).length = (digitPrefix (str "12a3")).length ∧
      decVal (halve (digitPrefix (str "12a3")) false) = decVal (digitPrefix (str "12a3")) / 2 ∧
      (f &&& NON_DECIMALS ≠ 0 →
        ∃ c t, afterDigits (str "12a3") = c :: t ∧ ¬ isDigit c ∧ c ≠ 0)) ∧
    divideBy2 (some (str "12a3")) = .ok (str "06a3", NON_DECIMALS ||| LEADING_ZERO_COUNT) ∧
    divideBy2 (some (str "123")) = .ok (str "061", REMAINDER ||| LEADING_ZERO_COUNT) :=
  ⟨divideBy2_non_decimals (str "12a3"), by decide, by decide⟩

/-! ## The count field and the pointer advance -/

/-- For a string of fewer than `2 ^ 27` digits the quotient
`flags / LEADING_ZERO_COUNT` is the number of leading zeros of the halved string,
at most its length, and dropping that many characters keeps the value. -/
theorem divideBy2_count_short (s : List Nat) (hs : allDigits s) (hlen : s.length < 2 ^ 27) :
    ∃ q f, divideBy2 (some s) = .ok (q, f) ∧
      Int.tdiv (toInt f) (LEADING_ZERO_COUNT : Int) = (leadingZeros q : Int) ∧
      leadingZeros q ≤ s.length ∧
      decVal (q.drop (leadingZeros q)) = decVal q := by
  have hle := leadingZeros_le (halve s false)
  have hql := length_halve s false
  have hcap : COUNT_CAP = 2 ^ 28 - 1 := rfl
  have hcnt : min (leadingZeros (halve s false)) COUNT_CAP = leadingZeros (halve s false) := by
    omega
  refine ⟨_, _, divideBy2_digits s hs, ?_, by omega, decVal_drop_zeros _ _ (le_refl _)⟩
  rw [hcnt, advance_small _ _ _ (by omega)]

theorem divideBy2_zeros_count (m : Nat) (hm : m = 2 ^ 27) :
    divideBy2 (some (List.replicate m '0'.toNat))
      = .ok (List.replicate m '0'.toNat, enc false true (2 ^ 27)) := by
  have hs : allDigits (List.replicate m '0'.toNat) := by
    intro x hx
    rw [(List.mem_replicate.1 hx).2]; decide
  have hh : halve (List.replicate m '0'.toNat) false = List.replicate m '0'.toNat := by
    have := halve_zeros m []
    simpa [halve] using this
  have hc : carryEnd (List.replicate m '0'.toNat) false = false := by
    have := carryEnd_zeros m []
    simpa [carryEnd] using this
  have hz : leadingZeros (List.replicate m '0'.toNat) = m := by
    have := leadingZeros_zeros m []
    simpa [leadingZeros] using this
  have hcap : COUNT_CAP = 2 ^ 28 - 1 := rfl
  have hcnt : min m COUNT_CAP = 2 ^ 27 := by omega
  rw [divideBy2_digits _ hs, hh, hc, hz, List.length_replicate, hcnt]
  simp

/-- C17. Failing input: the string of `2 ^ 27` characters `'0'`, shorter than the
cap `2 ^ 28 - 1` of the count field.  The halved string is the same `2 ^ 27`
zeros, but the count has reached the sign bit of the flags and
`flags / LEADING_ZERO_COUNT` is `-134217727`, not `134217728`. -/
theorem divideBy2_count_negative :
    (2 : Nat) ^ 27 < COUNT_CAP ∧
      ∃ f, divideBy2 (some (List.replicate (2 ^ 27) '0'.toNat))
          = .ok (List.replicate (2 ^ 27) '0'.toNat, f) ∧
        Int.tdiv (toInt f) (LEADING_ZERO_COUNT : Int) = -134217727 :=
  ⟨by decide, _, divideBy2_zeros_count (2 ^ 27) rfl, by decide⟩

/-! ## The loop on very long strings -/

theorem base10to256_impl_long_zeros (m : Nat) (hm : m = 2 ^ 27) (c : Nat) (hc : isDigit c)
    (hc2 : '2'.toNat ≤ c) :
    base10to256_impl ⟨estimate (m + 1), List.replicate (estimate (m + 1)) 0⟩
      (List.replicate m '0'.toNat ++ [c]) (estimate (m + 1)) = .error .outOfBounds := by
  have hs : allDigits (List.replicate m '0'.toNat ++ [c]) := by
    intro x hx
    rcases List.mem_append.1 hx with h | h
    · rw [(List.mem_replicate.1 h).2]; decide
    · rw [List.mem_singleton.1 h]; exact hc
  have hl : (List.replicate m '0'.toNat ++ [c]).length = m + 1 := by
    rw [List.length_append, List.length_replicate, List.length_singleton]
  have hbound : (List.replicate m '0'.toNat ++ [c]).length ≤ SIZE_MAX / BASE_RATIO_NUM := by
    rw [hl, hm]; decide
  have h1 := base10to256_unfold allocAlways _ hs hbound rfl rfl
  rw [hl] at h1
  have h2 := base10to256_long_zeros m hm c hc hc2
  rw [h1] at h2
  exact h2

/-- C14. Failing input: `2 ^ 27` characters `'0'` followed by `'5'`, run through
`base10to256_impl` with the buffer `base10to256` allocates for it.  The loop does
not stop at bit index `bitLength(5) = 3`: after the first round the pointer lies
in front of the working copy and the second round reads outside it. -/
theorem base10to256_impl_leaves_copy :
    base10to256_impl ⟨estimate (2 ^ 27 + 1), List.replicate (estimate (2 ^ 27 + 1)) 0⟩
      (List.replicate (2 ^ 27) '0'.toNat ++ ['5'.toNat]) (estimate (2 ^ 27 + 1))
      = .error .outOfBounds :=
  base10to256_impl_long_zeros (2 ^ 27) rfl '5'.toNat (by decide) (by decide)

/-! ## Flags with `NON_DECIMALS` added -/

theorem enc_or_stop (r z : Bool) (k x : Nat) (hx : x = 0 ∨ x = NON_DECIMALS) :
    enc r z k ||| x = 16 * k + (2 * z.toNat + r.toNat + x) := by
  rcases hx with h | h
  · rw [h, Nat.or_zero, Nat.add_zero, enc]
  · have h1 := lor_split k 0 (2 * z.toNat + r.toNat) 8 (enc_low_lt r z) (by decide)
    simp only [Nat.mul_zero, Nat.zero_add, Nat.or_zero] at h1
    rw [h, NON_DECIMALS, enc, h1]
    cases r <;> cases z <;> rfl

theorem enc_or_stop_low (r z : Bool) (x : Nat) (hx : x = 0 ∨ x = NON_DECIMALS) :
    2 * z.toNat + r.toNat + x < 16 := by
  rcases hx with h | h <;> rw [h] <;> cases r <;> cases z <;> decide

theorem enc_or_stop_and (r z : Bool) (k x c : Nat) (hx : x = 0 ∨ x = NON_DECIMALS)
    (hc : c < 16) :
    (enc r z k ||| x) &&& c = (2 * z.toNat + r.toNat + x) &&& c := by
  rw [enc_or_stop r z k x hx]
  have h := land_split k 0 (2 * z.toNat + r.toNat + x) c (enc_or_stop_low r z x hx) hc
  simpa using h

theorem enc_or_stop_REMAINDER (r z : Bool) (k x : Nat) (hx : x = 0 ∨ x = NON_DECIMALS) :
    ((enc r z k ||| x) &&& REMAINDER ≠ 0) ↔ r = true := by
  rw [REMAINDER, enc_or_stop_and r z k x 1 hx (by decide)]
  rcases hx with h | h <;> rw [h] <;> cases r <;> cases z <;> decide

theorem enc_or_stop_ZERO (r z : Bool) (k x : Nat) (hx : x = 0 ∨ x = NON_DECIMALS) :
    ((enc r z k ||| x) &&& ZERO ≠ 0) ↔ z = true := by
  rw [ZERO, enc_or_stop_and r z k x 2 hx (by decide)]
  rcases hx with h | h <;> rw [h] <;> cases r <;> cases z <;> decide

theorem enc_or_stop_NULL_DECIMAL (r z : Bool) (k x : Nat) (hx : x = 0 ∨ x = NON_DECIMALS) :
    (enc r z k ||| x) &&& NULL_DECIMAL = 0 := by
  rw [NULL_DECIMAL, enc_or_stop_and r z k x 4 hx (by decide)]
  rcases hx with h | h <;> rw [h] <;> cases r <;> cases z <;> decide

theorem advance_small_stop (r z : Bool) (k x : Nat) (hx : x = 0 ∨ x = NON_DECIMALS)
    (hk : k < 2 ^ 27) :
    Int.tdiv (toInt (enc r z k ||| x)) (LEADING_ZERO_COUNT : Int) = (k : Int) := by
  have hl := enc_or_stop_low r z x hx
  rw [enc_or_stop r z k x hx]
  have hlt : 16 * k + (2 * z.toNat + r.toNat + x) < 2 ^ (INT_BITS - 1) := by
    unfold INT_BITS; norm_num; omega
  rw [toInt, if_pos hlt, Int.tdiv_eq_ediv (by positivity) (by unfold LEADING_ZERO_COUNT; norm_num)]
  unfold LEADING_ZERO_COUNT
  push_cast
  omega

theorem digitPrefix_append (w t : List Nat) (hw : allDigits w)
    (ht : t = [] ∨ ∃ c t1, t = c :: t1 ∧ ¬ isDigit c) :
    digitPrefix (w ++ t) = w ∧ afterDigits (w ++ t) = t := by
  induction w with
  | nil =>
    rcases ht with h | ⟨c, t1, h, hc⟩
    · rw [h]; exact ⟨rfl, rfl⟩
    · rw [h]
      simp [digitPrefix, afterDigits, List.takeWhile_cons, List.dropWhile_cons, hc]
  | cons c rest ih =>
    rw [allDigits_cons] at hw
    obtain ⟨h1, h2⟩ := ih hw.2
    simp only [digitPrefix, afterDigits] at h1 h2 ⊢
    simp [List.takeWhile_cons, List.dropWhile_cons, hw.1, h1, h2]

/-! ## The conversion loop on strings with a tail that is not digits -/

/-- One round of the loop when `decimal` points at the digits `w` followed by a
tail `t` that is empty or starts with a character that is not a digit. -/
theorem impl_loop_step_tail (fuel : Nat) (bytes : Bytes) (buf : List Nat) (off len j : Nat)
    (w t : List Nat) (hoff : off ≤ buf.length) (hsplit : buf.drop off = w ++ t)
    (hw : allDigits w) (ht : t = [] ∨ ∃ c t1, t = c :: t1 ∧ ¬ isDigit c) :
    base10to256_impl_loop (fuel + 1) bytes buf (off : Int) len j =
      if decide (leadingZeros (halve w false) = (halve w false).length) = true
          ∧ carryEnd w false = false then
        if (j + 7) / 8 = 0 then
          if 0 < bytes.data.length then
            .ok (Bytes_truncate { bytes with data := bytes.data.set 0 0 } ((j + 7) / 8 + 1))
          else .error .outOfBounds
        else .ok (Bytes_truncate bytes ((j + 7) / 8))
      else if ¬ j / 8 < len then .error .assertion
      else
        match (if carryEnd w false = true then Bytes_set_bit bytes j else .ok bytes) with
        | .error e => .error e
        | .ok bytes1 =>
          base10to256_impl_loop fuel bytes1 (buf.take off ++ (halve w false ++ t))
            ((off : Int) + Int.tdiv (toInt (flagsAfter w false true 0 ||| stopFlag t))
              (LEADING_ZERO_COUNT : Int)) len (j + 1) := by
  have hno : ¬ ((off : Int) < 0 ∨ (buf.length : Int) < (off : Int)) := by omega
  obtain ⟨hp, ha⟩ := digitPrefix_append w t hw ht
  have hx := stopFlag_cases t
  have hN : (flagsAfter w false true 0 ||| stopFlag t) &&& NULL_DECIMAL = 0 :=
    enc_or_stop_NULL_DECIMAL _ _ _ _ hx
  have hZ : ((flagsAfter w false true 0 ||| stopFlag t) &&& ZERO ≠ 0)
      ↔ decide (leadingZeros (halve w false) = (halve w false).length) = true := by
    unfold flagsAfter
    rw [enc_or_stop_ZERO _ _ _ _ hx, Bool.true_and]
  have hR : ((flagsAfter w false true 0 ||| stopFlag t) &&& REMAINDER ≠ 0)
      ↔ carryEnd w false = true := by
    unfold flagsAfter
    rw [enc_or_stop_REMAINDER _ _ _ _ hx]
  rw [base10to256_impl_loop, if_neg hno, Int.toNat_ofNat, hsplit, divideBy2_any, hp, ha]
  simp only [hN, ne_eq, not_true_eq_false, if_false]
  simp only [ne_eq] at hZ hR
  simp only [hZ, hR, Bool.not_eq_true]

/-- The loop of `base10to256_impl` on a working copy of fewer than `2 ^ 27`
characters, started at round `j` on the digits of `n / 2 ^ j` followed by a tail
that is not digits: it returns the canonical buffer of `n`. -/
theorem impl_loop_tail (n len : Nat) (hlen : 0 < len) (hn : n < 2 ^ (8 * len)) (t : List Nat)
    (ht : t = [] ∨ ∃ c t1, t = c :: t1 ∧ ¬ isDigit c) :
    ∀ (fuel : Nat) (bytes : Bytes) (buf : List Nat) (off j : Nat) (w : List Nat),
      8 * len + 1 ≤ fuel + j →
      off ≤ buf.length →
      buf.length < 2 ^ 27 →
      buf.drop off = w ++ t →
      allDigits w →
      decVal w = n / 2 ^ j →
      (j = 0 ∨ 2 ^ (j - 1) ≤ n) →
      bytes.size = len → bytes.data.length = len → (∀ x ∈ bytes.data, x < 256) →
      (∀ i, bitOf bytes.data i = (decide (i < j) && n.testBit i)) →
      base10to256_impl_loop fuel bytes buf (off : Int) len j = .ok (canonical n len) := by
  intro fuel
  induction fuel with
  | zero =>
    intro bytes buf off j w hfuel _ _ _ _ _ hj
    exfalso
    rcases hj with h | h
    · omega
    · have : 2 ^ (j - 1) < 2 ^ (8 * len) := lt_of_le_of_lt h hn
      have := (Nat.pow_lt_pow_iff_right (by norm_num : 1 < 2)).1 this
      omega
  | succ fuel ih =>
    intro bytes buf off j w hfuel hoff hshort hsplit hd hval hj hsize hdl hw hbits
    rw [impl_loop_step_tail fuel bytes buf off len j w t hoff hsplit hd ht]
    have hq : allDigits (halve w false) := allDigits_halve _ _ hd
    have hql : (halve w false).length = w.length := length_halve _ _
    obtain ⟨hqv, hr⟩ := decVal_halve w
    have hz : (decide (leadingZeros (halve w false) = (halve w false).length) = true)
        ↔ decVal (halve w false) = 0 := by
      rw [decide_eq_true_eq]; exact leadingZeros_eq_length_iff _ hq
    have h2pos : 0 < 2 ^ j := Nat.pos_pow_of_pos _ (by norm_num)
    by_cases hstop : n / 2 ^ j = 0
    · have hc1 : decide (leadingZeros (halve w false) = (halve w false).length) = true
          ∧ carryEnd w false = false := by
        constructor
        · rw [hz, hqv, hval, hstop]
        · cases hce : carryEnd w false
          · rfl
          · have := hr.1 hce
            rw [hval, hstop] at this; omega
      rw [if_pos hc1]
      exact final_bytes n len j bytes hlen hn hj hstop hsize hdl hw hbits
    · have hc1 : ¬ (decide (leadingZeros (halve w false) = (halve w false).length) = true
          ∧ carryEnd w false = false) := by
        rintro ⟨h1, h2⟩
        rw [hz, hqv, hval] at h1
        have h3 : ¬ (n / 2 ^ j % 2 = 1) := by
          intro h; rw [← hval] at h
          have := hr.2 h
          rw [h2] at this; exact absurd this (by decide)
        omega
      rw [if_neg hc1]
      have h2j : 2 ^ j ≤ n := by
        by_contra hlt
        exact hstop ((Nat.div_eq_zero_iff h2pos).2 (by omega))
      have hjlt : j < 8 * len :=
        (Nat.pow_lt_pow_iff_right (by norm_num : 1 < 2)).1 (lt_of_le_of_lt h2j hn)
      rw [if_neg (not_not.2 (by omega : j / 8 < len))]
      have hrbit : carryEnd w false = n.testBit j := by
        rw [Nat.testBit_to_div_mod, ← hval]
        cases hce : carryEnd w false
        · have : ¬ decVal w % 2 = 1 := fun h => by
            have := hr.2 h; rw [hce] at this; exact absurd this (by decide)
          simp [this]
        · simp [hr.1 hce]
      obtain ⟨bytes1, hb1, hsize1, hdl1, hw1, hbits1⟩ :=
        set_bit_round n len j bytes (carryEnd w false) hjlt hrbit hsize hdl hw hbits
      rw [hb1]
      simp only
      have hLle := leadingZeros_le (halve w false)
      have hval1 : decVal (halve w false) = n / 2 ^ (j + 1) := by
        rw [hqv, hval, Nat.div_div_eq_div_mul, pow_succ]
      have hj1 : j + 1 = 0 ∨ 2 ^ (j + 1 - 1) ≤ n := Or.inr (by simpa using h2j)
      have hfuel1 : 8 * len + 1 ≤ fuel + (j + 1) := by omega
      have hdl2 : (buf.drop off).length = buf.length - off := List.length_drop _ _
      have hwt : w.length + t.length = buf.length - off := by
        rw [← hdl2, hsplit, List.length_append]
      have hlen1 : (buf.take off ++ (halve w false ++ t)).length = buf.length := by
        rw [List.length_append, List.length_append, List.length_take, hql]; omega
      have htl : (buf.take off).length = off := by rw [List.length_take]; omega
      have hcap : COUNT_CAP = 2 ^ 28 - 1 := rfl
      have hL : leadingZeros (halve w false) < 2 ^ 27 := by omega
      have hadv : Int.tdiv (toInt (flagsAfter w false true 0 ||| stopFlag t))
          (LEADING_ZERO_COUNT : Int) = (leadingZeros (halve w false) : Int) := by
        have hcnt : min (leadingZeros (halve w false)) COUNT_CAP
            = leadingZeros (halve w false) := by omega
        unfold flagsAfter
        simp only [if_true, Nat.zero_add]
        rw [hcnt]
        exact advance_small_stop _ _ _ _ (stopFlag_cases t) hL
      rw [hadv]
      have hcast : (off : Int) + (leadingZeros (halve w false) : Int)
          = ((off + leadingZeros (halve w false) : Nat) : Int) := by push_cast; rfl
      rw [hcast]
      have hdrop : (buf.take off ++ (halve w false ++ t)).drop
          (off + leadingZeros (halve w false))
          = (halve w false).drop (leadingZeros (halve w false)) ++ t := by
        have h := @List.drop_append _ (buf.take off) (halve w false ++ t)
          (leadingZeros (halve w false))
        rw [htl] at h
        rw [h, List.drop_append_of_le_length hLle]
      have := ih bytes1 (buf.take off ++ (halve w false ++ t))
        (off + leadingZeros (halve w false)) (j + 1)
        ((halve w false).drop (leadingZeros (halve w false))) hfuel1
        (by rw [hlen1]; omega) (by rw [hlen1]; exact hshort) hdrop
        (allDigits_drop _ _ hq)
        (by rw [decVal_drop_zeros _ _ le_rfl, hval1]) hj1 hsize1 hdl1 hw1 hbits1
      exact this

/-! ## The whole conversion on arbitrary strings -/

theorem take_strlen (s : List Nat) :
    s.take (strlen s) = s.takeWhile (fun c => decide (c ≠ 0)) := by
  unfold strlen
  induction s with
  | nil => rfl
  | cons c rest ih =>
    by_cases h0 : c = 0
    · simp [List.takeWhile_cons, h0]
    · simp only [List.takeWhile_cons, ne_eq, h0, not_false_eq_true, decide_True, if_true,
        List.length_cons, List.take_succ_cons]
      simp only [ne_eq] at ih
      rw [ih]

theorem strlen_le (s : List Nat) : strlen s ≤ s.length := by
  unfold strlen
  exact List.IsPrefix.length_le (List.takeWhile_prefix _)

theorem digitPrefix_takeWhile (s : List Nat) :
    digitPrefix (s.takeWhile (fun c => decide (c ≠ 0))) = digitPrefix s := by
  induction s with
  | nil => rfl
  | cons c rest ih =>
    by_cases h0 : c = 0
    · have hnd : ¬ isDigit 0 := by decide
      simp [List.takeWhile_cons, h0, digitPrefix, hnd]
    · by_cases hd : isDigit c
      · simp only [digitPrefix] at ih ⊢
        simp only [List.takeWhile_cons, ne_eq, h0, not_false_eq_true, decide_True, if_true, hd]
        simp only [ne_eq] at ih
        rw [ih]
      · simp [List.takeWhile_cons, h0, hd, digitPrefix]

theorem estimate_mono {a b : Nat} (h : a ≤ b) : estimate a ≤ estimate b := by
  unfold estimate
  exact Nat.succ_le_succ (Nat.div_le_div_right (Nat.mul_le_mul_right _ h))

theorem length_digitPrefix_le (s : List Nat) : (digitPrefix s).length ≤ s.length :=
  List.IsPrefix.length_le (List.takeWhile_prefix _)

/-- For an input of fewer than `2 ^ 27` characters, digits or not, with both
allocations succeeding, `base10to256` returns the canonical buffer of the number
its leading digits denote, in a block sized for the whole input. -/
theorem base10to256_short_any (alloc : Nat → Bool) (s : List Nat) (hlen : strlen s < 2 ^ 27)
    (ha1 : alloc (strlen s + 1) = true)
    (ha2 : alloc (Bytes_header_size + estimate (strlen s)) = true) :
    base10to256 alloc (some s)
      = .ok (canonical (decVal (digitPrefix s)) (estimate (strlen s))) := by
  have hb : strlen s ≤ SIZE_MAX / BASE_RATIO_NUM := by
    have : (2 : Nat) ^ 27 ≤ SIZE_MAX / BASE_RATIO_NUM := by decide
    omega
  have hest : estimate (strlen s) ≤ SIZE_MAX - Bytes_header_size := by
    simp only [estimate, SIZE_MAX, BASE_RATIO_NUM, BASE_RATIO_DENOM, Bytes_header_size] at hb ⊢
    norm_num at hb ⊢
    omega
  have hnew : new_Bytes alloc (estimate (strlen s))
      = .ok ⟨estimate (strlen s), List.replicate (estimate (strlen s)) 0⟩ := by
    rw [new_Bytes, if_neg (not_not.2 hest), if_neg (not_not.2 ha2)]
  have hunf : base10to256 alloc (some s)
      = base10to256_impl_loop (8 * estimate (strlen s) + 1)
          ⟨estimate (strlen s), List.replicate (estimate (strlen s)) 0⟩
          (s.take (strlen s)) 0 (estimate (strlen s)) 0 := by
    simp only [base10to256, ha1, not_true_eq_false, if_false, hb]
    have : strlen s * BASE_RATIO_NUM / BASE_RATIO_DENOM + 1 = estimate (strlen s) := rfl
    rw [this, hnew]
    rfl
  have hbl : (s.take (strlen s)).length = strlen s := by
    rw [List.length_take]; have := strlen_le s; omega
  have hpre : digitPrefix (s.take (strlen s)) = digitPrefix s := by
    rw [take_strlen, digitPrefix_takeWhile]
  have hpl : (digitPrefix s).length ≤ strlen s := by
    have := length_digitPrefix_le (s.take (strlen s))
    rw [hpre, hbl] at this
    exact this
  have hn : decVal (digitPrefix s) < 2 ^ (8 * estimate (strlen s)) := by
    have h1 := decVal_lt _ (allDigits_digitPrefix s)
    have h2 := pow_ten_le_estimate (digitPrefix s).length
    have h3 : 2 ^ (8 * estimate (digitPrefix s).length) ≤ 2 ^ (8 * estimate (strlen s)) :=
      Nat.pow_le_pow_right (by norm_num) (Nat.mul_le_mul_left _ (estimate_mono hpl))
    omega
  rw [hunf]
  exact impl_loop_tail (decVal (digitPrefix s)) (estimate (strlen s)) (Nat.succ_pos _) hn
    (afterDigits (s.take (strlen s))) (afterDigits_head _)
    (8 * estimate (strlen s) + 1) ⟨estimate (strlen s), List.replicate (estimate (strlen s)) 0⟩
    (s.take (strlen s)) 0 0 (digitPrefix s) (by omega) (by omega) (by rw [hbl]; exact hlen)
    (by rw [List.drop_zero, ← hpre]; exact (digitPrefix_append_afterDigits _).symm)
    (allDigits_digitPrefix s) (by simp) (Or.inl rfl) rfl
    (by simp) (by intro x hx; rw [(List.mem_replicate.1 hx).2]; norm_num)
    (by intro i; rw [bitOf_replicate_zero]; simp)

/-- For an input of fewer than `2 ^ 27` characters the buffer returned has the same
logical size and the same bytes as the buffer returned for its longest prefix of
digits. -/
theorem base10to256_short_prefix (alloc : Nat → Bool) (s : List Nat) (hlen : strlen s < 2 ^ 27)
    (ha : ∀ n, alloc n = true) :
    ∃ b1 b2, base10to256 alloc (some s) = .ok b1 ∧
      base10to256 alloc (some (digitPrefix s)) = .ok b2 ∧ Bytes_size b1 = Bytes_size b2 ∧
      ∀ i, i < Bytes_size b2 → b1.data.getD i 0 = b2.data.getD i 0 := by
  have hpl : (digitPrefix s).length ≤ strlen s := by
    have h1 : digitPrefix (s.take (strlen s)) = digitPrefix s := by
      rw [take_strlen, digitPrefix_takeWhile]
    have h2 : (s.take (strlen s)).length = strlen s := by
      rw [List.length_take]; have := strlen_le s; omega
    have := length_digitPrefix_le (s.take (strlen s))
    rw [h1, h2] at this
    exact this
  have hn : decVal (digitPrefix s) < 2 ^ (8 * estimate (strlen s)) := by
    have h1 := decVal_lt _ (allDigits_digitPrefix s)
    have h2 := pow_ten_le_estimate (digitPrefix s).length
    have h3 : 2 ^ (8 * estimate (digitPrefix s).length) ≤ 2 ^ (8 * estimate (strlen s)) :=
      Nat.pow_le_pow_right (by norm_num) (Nat.mul_le_mul_left _ (estimate_mono hpl))
    omega
  have hle := canonical_size_le (decVal (digitPrefix s)) (estimate (strlen s))
    (Nat.succ_pos _) hn
  obtain ⟨b2, h2, hs2, hb2⟩ := base10to256_short_bytes alloc (digitPrefix s)
    (allDigits_digitPrefix s) (by omega) (ha _) (ha _)
  refine ⟨_, b2, base10to256_short_any alloc s hlen (ha _) (ha _), h2, ?_, ?_⟩
  · rw [hs2]; exact canonical_size _ _
  · intro i hi
    have hi1 : i < (canonical (decVal (digitPrefix s)) (estimate (strlen s))).size := by
      have := canonical_size (decVal (digitPrefix s)) (estimate (strlen s))
      unfold Bytes_size at hs2 hi
      omega
    rw [canonical_byte _ _ i (lt_of_lt_of_le hi1 hle), hb2 i hi]

/-- C20. Failing input: `2 ^ 27` characters `'0'` followed by `'6'`, with every
allocation succeeding.  `base10to256` returns no buffer for it: the count of
leading zeros reaches the sign bit of the flags and the second round reads in
front of the working copy. -/
theorem base10to256_no_buffer :
    ∀ bytes : Bytes,
      base10to256 allocAlways (some (List.replicate (2 ^ 27) '0'.toNat ++ ['6'.toNat]))
        ≠ .ok bytes := by
  intro bytes h
  rw [base10to256_long_zeros (2 ^ 27) rfl '6'.toNat (by decide) (by decide)] at h
  exact absurd h (by simp)

/-! ## The reference loop -/

/-- One round of the reference loop on a string of digits. -/
theorem reference_loop_step (skip : List Nat → Nat) (fuel : Nat) (bytes : Bytes)
    (work : List Nat) (len j : Nat) (hd : allDigits work) :
    reference_impl_loop skip (fuel + 1) bytes work len j =
      if decide (leadingZeros (halve work false) = (halve work false).length) = true
          ∧ carryEnd work false = false then
        if (j + 7) / 8 = 0 then
          if 0 < bytes.data.length then
            .ok (Bytes_truncate { bytes with data := bytes.data.set 0 0 } ((j + 7) / 8 + 1))
          else .error .outOfBounds
        else .ok (Bytes_truncate bytes ((j + 7) / 8))
      else if ¬ j / 8 < len then .error .assertion
      else
        match (if carryEnd work false = true then Bytes_set_bit bytes j else .ok bytes) with
        | .error e => .error e
        | .ok bytes1 =>
          reference_impl_loop skip fuel bytes1
            ((halve work false).drop (skip (halve work false))) len (j + 1) := by
  rw [reference_impl_loop, divideBy2_digits _ hd]
  simp only [enc_and_NULL_DECIMAL, ne_eq, not_true_eq_false, if_false, enc_and_ZERO,
    enc_and_REMAINDER, Bool.not_eq_true]

/-- The reference loop, advancing by no more than the leading zeros of each
halved string, returns the canonical buffer of the number. -/
theorem reference_loop_correct (skip : List Nat → Nat)
    (hskip : ∀ q, skip q ≤ leadingZeros q) (n len : Nat) (hlen : 0 < len)
    (hn : n < 2 ^ (8 * len)) :
    ∀ (fuel : Nat) (bytes : Bytes) (work : List Nat) (j : Nat),
      8 * len + 1 ≤ fuel + j →
      allDigits work →
      decVal work = n / 2 ^ j →
      (j = 0 ∨ 2 ^ (j - 1) ≤ n) →
      bytes.size = len → bytes.data.length = len → (∀ x ∈ bytes.data, x < 256) →
      (∀ i, bitOf bytes.data i = (decide (i < j) && n.testBit i)) →
      reference_impl_loop skip fuel bytes work len j = .ok (canonical n len) := by
  intro fuel
  induction fuel with
  | zero =>
    intro bytes work j hfuel _ _ hj
    exfalso
    rcases hj with h | h
    · omega
    · have : 2 ^ (j - 1) < 2 ^ (8 * len) := lt_of_le_of_lt h hn
      have := (Nat.pow_lt_pow_iff_right (by norm_num : 1 < 2)).1 this
      omega
  | succ fuel ih =>
    intro bytes work j hfuel hd hval hj hsize hdl hw hbits
    rw [reference_loop_step skip fuel bytes work len j hd]
    have hq : allDigits (halve work false) := allDigits_halve _ _ hd
    obtain ⟨hqv, hr⟩ := decVal_halve work
    have hz : (decide (leadingZeros (halve work false) = (halve work false).length) = true)
        ↔ decVal (halve work false) = 0 := by
      rw [decide_eq_true_eq]; exact leadingZeros_eq_length_iff _ hq
    have h2pos : 0 < 2 ^ j := Nat.pos_pow_of_pos _ (by norm_num)
    by_cases hstop : n / 2 ^ j = 0
    · have hc1 : decide (leadingZeros (halve work false) = (halve work false).length) = true
          ∧ carryEnd work false = false := by
        constructor
        · rw [hz, hqv, hval, hstop]
        · cases hce : carryEnd work false
          · rfl
          · have := hr.1 hce
            rw [hval, hstop] at this; omega
      rw [if_pos hc1]
      exact final_bytes n len j bytes hlen hn hj hstop hsize hdl hw hbits
    · have hc1 : ¬ (decide (leadingZeros (halve work false) = (halve work false).length) = true
          ∧ carryEnd work false = false) := by
        rintro ⟨h1, h2⟩
        rw [hz, hqv, hval] at h1
        have h3 : ¬ (n / 2 ^ j % 2 = 1) := by
          intro h; rw [← hval] at h
          have := hr.2 h
          rw [h2] at this; exact absurd this (by decide)
        omega
      rw [if_neg hc1]
      have h2j : 2 ^ j ≤ n := by
        by_contra hlt
        exact hstop ((Nat.div_eq_zero_iff h2pos).2 (by omega))
      have hjlt : j < 8 * len :=
        (Nat.pow_lt_pow_iff_right (by norm_num : 1 < 2)).1 (lt_of_le_of_lt h2j hn)
      rw [if_neg (not_not.2 (by omega : j / 8 < len))]
      have hrbit : carryEnd work false = n.testBit j := by
        rw [Nat.testBit_to_div_mod, ← hval]
        cases hce : carryEnd work false
        · have : ¬ decVal work % 2 = 1 := fun h => by
            have := hr.2 h; rw [hce] at this; exact absurd this (by decide)
          simp [this]
        · simp [hr.1 hce]
      obtain ⟨bytes1, hb1, hsize1, hdl1, hw1, hbits1⟩ :=
        set_bit_round n len j bytes (carryEnd work false) hjlt hrbit hsize hdl hw hbits
      rw [hb1]
      simp only
      have hval1 : decVal (halve work false) = n / 2 ^ (j + 1) := by
        rw [hqv, hval, Nat.div_div_eq_div_mul, pow_succ]
      exact ih bytes1 _ (j + 1) (by omega) (allDigits_drop _ _ hq)
        (by rw [decVal_drop_zeros _ _ (hskip _), hval1]) (Or.inr (by simpa using h2j))
        hsize1 hdl1 hw1 hbits1

/-- The reference loop on a whole string of digits, with the buffer `base10to256`
allocates. -/
theorem reference_loop_digits (skip : List Nat → Nat) (hskip : ∀ q, skip q ≤ leadingZeros q)
    (s : List Nat) (hs : allDigits s) :
    reference_impl_loop skip (8 * estimate s.length + 1)
        ⟨estimate s.length, List.replicate (estimate s.length) 0⟩ s (estimate s.length) 0
      = .ok (canonical (decVal s) (estimate s.length)) := by
  have hn : decVal s < 2 ^ (8 * estimate s.length) :=
    lt_of_lt_of_le (decVal_lt s hs) (pow_ten_le_estimate _)
  exact reference_loop_correct skip hskip (decVal s) (estimate s.length) (Nat.succ_pos _) hn
    (8 * estimate s.length + 1) ⟨estimate s.length, List.replicate (estimate s.length) 0⟩ s 0
    (by omega) hs (by simp) (Or.inl rfl) rfl (by simp)
    (by intro x hx; rw [(List.mem_replicate.1 hx).2]; norm_num)
    (by intro i; rw [bitOf_replicate_zero]; simp)

/-- For a string of fewer than `2 ^ 27` digits the loop of `base10to256_impl`
returns what the reference loop returns, whatever number of leading zeros the
reference loop skips. -/
theorem base10to256_impl_refines_short (skip : List Nat → Nat)
    (hskip : ∀ q, skip q ≤ leadingZeros q) (s : List Nat) (hs : allDigits s)
    (hlen : s.length < 2 ^ 27) :
    base10to256_impl ⟨estimate s.length, List.replicate (estimate s.length) 0⟩ s
        (estimate s.length)
      = reference_impl_loop skip (8 * estimate s.length + 1)
          ⟨estimate s.length, List.replicate (estimate s.length) 0⟩ s
          (estimate s.length) 0 := by
  have hb : s.length ≤ SIZE_MAX / BASE_RATIO_NUM := by
    have : (2 : Nat) ^ 27 ≤ SIZE_MAX / BASE_RATIO_NUM := by decide
    omega
  have h1 := base10to256_unfold allocAlways s hs hb rfl rfl
  have h2 := base10to256_short allocAlways s hs hlen rfl rfl
  rw [h1] at h2
  rw [reference_loop_digits skip hskip s hs]
  exact h2

theorem reference_long_zeros (m : Nat) (c : Nat) (hc : isDigit c) :
    reference_impl_loop (fun _ => 0) (8 * estimate (m + 1) + 1)
        ⟨estimate (m + 1), List.replicate (estimate (m + 1)) 0⟩
        (List.replicate m '0'.toNat ++ [c]) (estimate (m + 1)) 0
      = .ok (canonical (c - '0'.toNat) (estimate (m + 1))) := by
  have hs : allDigits (List.replicate m '0'.toNat ++ [c]) := by
    intro x hx
    rcases List.mem_append.1 hx with h | h
    · rw [(List.mem_replicate.1 h).2]; decide
    · rw [List.mem_singleton.1 h]; exact hc
  have hl : (List.replicate m '0'.toNat ++ [c]).length = m + 1 := by
    rw [List.length_append, List.length_replicate, List.length_singleton]
  have hv : decVal (List.replicate m '0'.toNat ++ [c]) = c - '0'.toNat := by
    rw [decVal_zeros]
    simp [decVal]
  have h := reference_loop_digits (fun _ => 0) (fun _ => Nat.zero_le _) _ hs
  rw [hl, hv] at h
  exact h

/-- C18. Failing input: `2 ^ 27` characters `'0'` followed by `'2'`, with the
buffer `base10to256` allocates.  The reference loop that never advances the
start returns the canonical buffer of 2; the loop of `base10to256_impl`, which
advances by `flags / LEADING_ZERO_COUNT`, reads in front of the working copy. -/
theorem base10to256_impl_not_reference :
    reference_impl_loop (fun _ => 0) (8 * estimate (2 ^ 27 + 1) + 1)
        ⟨estimate (2 ^ 27 + 1), List.replicate (estimate (2 ^ 27 + 1)) 0⟩
        (List.replicate (2 ^ 27) '0'.toNat ++ ['2'.toNat]) (estimate (2 ^ 27 + 1)) 0
      = .ok (canonical 2 (estimate (2 ^ 27 + 1))) ∧
    base10to256_impl ⟨estimate (2 ^ 27 + 1), List.replicate (estimate (2 ^ 27 + 1)) 0⟩
        (List.replicate (2 ^ 27) '0'.toNat ++ ['2'.toNat]) (estimate (2 ^ 27 + 1))
      = .error .outOfBounds :=
  ⟨reference_long_zeros (2 ^ 27) '2'.toNat (by decide),
    base10to256_impl_long_zeros (2 ^ 27) rfl '2'.toNat (by decide) (by decide)⟩

/-! ## The number of rounds -/

/-- A round at which the value is still nonzero, on a working copy of fewer than
`2 ^ 27` characters: the loop goes on with the next round, on the digits of
half the value, with bit `j` of `n` stored. -/
theorem impl_loop_round (n len : Nat) (hn : n < 2 ^ (8 * len)) (t : List Nat)
    (ht : t = [] ∨ ∃ c t1, t = c :: t1 ∧ ¬ isDigit c)
    (bytes : Bytes) (buf : List Nat) (off j : Nat) (w : List Nat)
    (hoff : off ≤ buf.length) (hshort : buf.length < 2 ^ 27) (hsplit : buf.drop off = w ++ t)
    (hd : allDigits w) (hval : decVal w = n / 2 ^ j) (hcont : n / 2 ^ j ≠ 0)
    (hsize : bytes.size = len) (hdl : bytes.data.length = len)
    (hw : ∀ x ∈ bytes.data, x < 256)
    (hbits : ∀ i, bitOf bytes.data i = (decide (i < j) && n.testBit i)) :
    ∃ (bytes1 : Bytes) (buf1 : List Nat) (off1 : Nat) (w1 : List Nat),
      (∀ fuel, base10to256_impl_loop (fuel + 1) bytes buf (off : Int) len j
        = base10to256_impl_loop fuel bytes1 buf1 ((off1 : Nat) : Int) len (j + 1)) ∧
      off1 ≤ buf1.length ∧ buf1.length < 2 ^ 27 ∧ buf1.drop off1 = w1 ++ t ∧
      allDigits w1 ∧ decVal w1 = n / 2 ^ (j + 1) ∧
      bytes1.size = len ∧ bytes1.data.length = len ∧ (∀ x ∈ bytes1.data, x < 256) ∧
      (∀ i, bitOf bytes1.data i = (decide (i < j + 1) && n.testBit i)) := by
  have hq : allDigits (halve w false) := allDigits_halve _ _ hd
  have hql : (halve w false).length = w.length := length_halve _ _
  obtain ⟨hqv, hr⟩ := decVal_halve w
  have hz : (decide (leadingZeros (halve w false) = (halve w false).length) = true)
      ↔ decVal (halve w false) = 0 := by
    rw [decide_eq_true_eq]; exact leadingZeros_eq_length_iff _ hq
  have h2pos : 0 < 2 ^ j := Nat.pos_pow_of_pos _ (by norm_num)
  have hc1 : ¬ (decide (leadingZeros (halve w false) = (halve w false).length) = true
      ∧ carryEnd w false = false) := by
    rintro ⟨h1, h2⟩
    rw [hz, hqv, hval] at h1
    have h3 : ¬ (n / 2 ^ j % 2 = 1) := by
      intro h; rw [← hval] at h
      have := hr.2 h
      rw [h2] at this; exact absurd this (by decide)
    omega
  have h2j : 2 ^ j ≤ n := by
    by_contra hlt
    exact hcont ((Nat.div_eq_zero_iff h2pos).2 (by omega))
  have hjlt : j < 8 * len :=
    (Nat.pow_lt_pow_iff_right (by norm_num : 1 < 2)).1 (lt_of_le_of_lt h2j hn)
  have hrbit : carryEnd w false = n.testBit j := by
    rw [Nat.testBit_to_div_mod, ← hval]
    cases hce : carryEnd w false
    · have : ¬ decVal w % 2 = 1 := fun h => by
        have := hr.2 h; rw [hce] at this; exact absurd this (by decide)
      simp [this]
    · simp [hr.1 hce]
  obtain ⟨bytes1, hb1, hsize1, hdl1, hw1, hbits1⟩ :=
    set_bit_round n len j bytes (carryEnd w false) hjlt hrbit hsize hdl hw hbits
  have hLle := leadingZeros_le (halve w false)
  have hval1 : decVal (halve w false) = n / 2 ^ (j + 1) := by
    rw [hqv, hval, Nat.div_div_eq_div_mul, pow_succ]
  have hdl2 : (buf.drop off).length = buf.length - off := List.length_drop _ _
  have hwt : w.length + t.length = buf.length - off := by
    rw [← hdl2, hsplit, List.length_append]
  have hlen1 : (buf.take off ++ (halve w false ++ t)).length = buf.length := by
    rw [List.length_append, List.length_append, List.length_take, hql]; omega
  have htl : (buf.take off).length = off := by rw [List.length_take]; omega
  have hcap : COUNT_CAP = 2 ^ 28 - 1 := rfl
  have hL : leadingZeros (halve w false) < 2 ^ 27 := by omega
  have hadv : Int.tdiv (toInt (flagsAfter w false true 0 ||| stopFlag t))
      (LEADING_ZERO_COUNT : Int) = (leadingZeros (halve w false) : Int) := by
    have hcnt : min (leadingZeros (halve w false)) COUNT_CAP
        = leadingZeros (halve w false) := by omega
    unfold flagsAfter
    simp only [if_true, Nat.zero_add]
    rw [hcnt]
    exact advance_small_stop _ _ _ _ (stopFlag_cases t) hL
  have hcast : (off : Int) + (leadingZeros (halve w false) : Int)
      = ((off + leadingZeros (halve w false) : Nat) : Int) := by push_cast; rfl
  have hdrop : (buf.take off ++ (halve w false ++ t)).drop
      (off + leadingZeros (halve w false))
      = (halve w false).drop (leadingZeros (halve w false)) ++ t := by
    have h := @List.drop_append _ (buf.take off) (halve w false ++ t)
      (leadingZeros (halve w false))
    rw [htl] at h
    rw [h, List.drop_append_of_le_length hLle]
  refine ⟨bytes1, buf.take off ++ (halve w false ++ t), off + leadingZeros (halve w false),
    (halve w false).drop (leadingZeros (halve w false)), ?_, by rw [hlen1]; omega,
    by rw [hlen1]; exact hshort, hdrop, allDigits_drop _ _ hq,
    by rw [decVal_drop_zeros _ _ le_rfl, hval1], hsize1, hdl1, hw1, hbits1⟩
  intro fuel
  rw [impl_loop_step_tail fuel bytes buf off len j w t hoff hsplit hd ht, if_neg hc1,
    if_neg (not_not.2 (by omega : j / 8 < len)), hb1, hadv, hcast]

/-- A round at which the value has reached 0: the loop stops and returns the
canonical buffer. -/
theorem impl_loop_stop (n len : Nat) (hlen : 0 < len) (hn : n < 2 ^ (8 * len)) (t : List Nat)
    (ht : t = [] ∨ ∃ c t1, t = c :: t1 ∧ ¬ isDigit c)
    (bytes : Bytes) (buf : List Nat) (off j : Nat) (w : List Nat)
    (hoff : off ≤ buf.length) (hsplit : buf.drop off = w ++ t)
    (hd : allDigits w) (hval : decVal w = n / 2 ^ j) (hstop : n / 2 ^ j = 0)
    (hj : j = 0 ∨ 2 ^ (j - 1) ≤ n)
    (hsize : bytes.size = len) (hdl : bytes.data.length = len)
    (hw : ∀ x ∈ bytes.data, x < 256)
    (hbits : ∀ i, bitOf bytes.data i = (decide (i < j) && n.testBit i)) :
    ∀ fuel, base10to256_impl_loop (fuel + 1) bytes buf (off : Int) len j
      = .ok (canonical n len) := by
  intro fuel
  have hq : allDigits (halve w false) := allDigits_halve _ _ hd
  obtain ⟨hqv, hr⟩ := decVal_halve w
  have hz : (decide (leadingZeros (halve w false) = (halve w false).length) = true)
      ↔ decVal (halve w false) = 0 := by
    rw [decide_eq_true_eq]; exact leadingZeros_eq_length_iff _ hq
  have hc1 : decide (leadingZeros (halve w false) = (halve w false).length) = true
      ∧ carryEnd w false = false := by
    constructor
    · rw [hz, hqv, hval, hstop]
    · cases hce : carryEnd w false
      · rfl
      · have := hr.1 hce
        rw [hval, hstop] at this; omega
  rw [impl_loop_step_tail fuel bytes buf off len j w t hoff hsplit hd ht, if_pos hc1]
  exact final_bytes n len j bytes hlen hn hj hstop hsize hdl hw hbits

/-- With fuel for fewer rounds than the number has bits, the loop is cut off
before it stops. -/
theorem impl_loop_cut_off (n len : Nat) (hn : n < 2 ^ (8 * len)) (t : List Nat)
    (ht : t = [] ∨ ∃ c t1, t = c :: t1 ∧ ¬ isDigit c) :
    ∀ (fuel : Nat) (bytes : Bytes) (buf : List Nat) (off j : Nat) (w : List Nat),
      fuel + j ≤ n.size →
      off ≤ buf.length → buf.length < 2 ^ 27 → buf.drop off = w ++ t → allDigits w →
      decVal w = n / 2 ^ j →
      bytes.size = len → bytes.data.length = len → (∀ x ∈ bytes.data, x < 256) →
      (∀ i, bitOf bytes.data i = (decide (i < j) && n.testBit i)) →
      base10to256_impl_loop fuel bytes buf (off : Int) len j = .error .assertion := by
  intro fuel
  induction fuel with
  | zero => intros; rfl
  | succ fuel ih =>
    intro bytes buf off j w hfuel hoff hshort hsplit hd hval hsize hdl hw hbits
    have hj : j < n.size := by omega
    have h2j : 2 ^ j ≤ n := Nat.lt_size.1 hj
    have hcont : n / 2 ^ j ≠ 0 := by
      intro h0
      have := (Nat.div_eq_zero_iff (Nat.pos_pow_of_pos j (by norm_num))).1 h0
      omega
    obtain ⟨bytes1, buf1, off1, w1, hstep, h1, h2, h3, h4, h5, h6, h7, h8, h9⟩ :=
      impl_loop_round n len hn t ht bytes buf off j w hoff hshort hsplit hd hval hcont
        hsize hdl hw hbits
    rw [hstep fuel]
    exact ih bytes1 buf1 off1 (j + 1) w1 (by omega) h1 h2 h3 h4 h5 h6 h7 h8 h9

/-- With fuel for one round more than the number has bits, the loop returns the
canonical buffer. -/
theorem impl_loop_enough (n len : Nat) (hlen : 0 < len) (hn : n < 2 ^ (8 * len))
    (t : List Nat) (ht : t = [] ∨ ∃ c t1, t = c :: t1 ∧ ¬ isDigit c) :
    ∀ (fuel : Nat) (bytes : Bytes) (buf : List Nat) (off j : Nat) (w : List Nat),
      n.size + 1 ≤ fuel + j →
      off ≤ buf.length → buf.length < 2 ^ 27 → buf.drop off = w ++ t → allDigits w →
      decVal w = n / 2 ^ j → (j = 0 ∨ 2 ^ (j - 1) ≤ n) →
      bytes.size = len → bytes.data.length = len → (∀ x ∈ bytes.data, x < 256) →
      (∀ i, bitOf bytes.data i = (decide (i < j) && n.testBit i)) →
      base10to256_impl_loop fuel bytes buf (off : Int) len j = .ok (canonical n len) := by
  intro fuel
  induction fuel with
  | zero =>
    intro bytes buf off j w hfuel _ _ _ _ _ hj
    exfalso
    rcases hj with h | h
    · omega
    · have : j - 1 < n.size := Nat.lt_size.2 h
      omega
  | succ fuel ih =>
    intro bytes buf off j w hfuel hoff hshort hsplit hd hval hj hsize hdl hw hbits
    by_cases hstop : n / 2 ^ j = 0
    · exact impl_loop_stop n len hlen hn t ht bytes buf off j w hoff hsplit hd hval hstop hj
        hsize hdl hw hbits fuel
    · obtain ⟨bytes1, buf1, off1, w1, hstep, h1, h2, h3, h4, h5, h6, h7, h8, h9⟩ :=
        impl_loop_round n len hn t ht bytes buf off j w hoff hshort hsplit hd hval hstop
          hsize hdl hw hbits
      have h2j : 2 ^ j ≤ n := by
        by_contra hlt
        exact hstop ((Nat.div_eq_zero_iff (Nat.pos_pow_of_pos j (by norm_num))).2 (by omega))
      rw [hstep fuel]
      exact ih bytes1 buf1 off1 (j + 1) w1 (by omega) h1 h2 h3 h4 h5
        (Or.inr (by simpa using h2j)) h6 h7 h8 h9

/-- For a string of fewer than `2 ^ 27` digits denoting `n`, the loop of
`base10to256_impl` stops in the round with bit index `bitLength(n)`: cut off
after `bitLength(n)` rounds it has not stopped yet, and with one round more it
returns the canonical buffer. -/
theorem base10to256_impl_rounds_short (s : List Nat) (hs : allDigits s)
    (hlen : s.length < 2 ^ 27) :
    base10to256_impl_loop (decVal s).size
        ⟨estimate s.length, List.replicate (estimate s.length) 0⟩ s 0 (estimate s.length) 0
      = .error .assertion ∧
    base10to256_impl_loop ((decVal s).size + 1)
        ⟨estimate s.length, List.replicate (estimate s.length) 0⟩ s 0 (estimate s.length) 0
      = .ok (canonical (decVal s) (estimate s.length)) := by
  have hn : decVal s < 2 ^ (8 * estimate s.length) :=
    lt_of_lt_of_le (decVal_lt s hs) (pow_ten_le_estimate _)
  have hw0 : ∀ x ∈ List.replicate (estimate s.length) 0, x < 256 := by
    intro x hx; rw [(List.mem_replicate.1 hx).2]; norm_num
  have hb0 : ∀ i, bitOf (List.replicate (estimate s.length) 0) i
      = (decide (i < 0) && (decVal s).testBit i) := by
    intro i; rw [bitOf_replicate_zero]; simp
  constructor
  · exact impl_loop_cut_off (decVal s) (estimate s.length) hn [] (Or.inl rfl) (decVal s).size
      ⟨estimate s.length, List.replicate (estimate s.length) 0⟩ s 0 0 s (by omega) (by omega)
      hlen (by simp) hs (by simp) rfl (by simp) hw0 hb0
  · exact impl_loop_enough (decVal s) (estimate s.length) (Nat.succ_pos _) hn [] (Or.inl rfl)
      ((decVal s).size + 1) ⟨estimate s.length, List.replicate (estimate s.length) 0⟩ s 0 0 s
      (by omega) (by omega) hlen (by simp) hs (by simp) (Or.inl rfl) rfl (by simp) hw0 hb0

/-! ## Memory in front of the working copy -/

/-- With no byte in front of the working copy, `base10to256_mem` is `base10to256`. -/
theorem base10to256_mem_nil (alloc : Nat → Bool) (decimal : Option (List Nat)) :
    base10to256_mem alloc [] decimal = base10to256 alloc decimal := by
  cases decimal <;> rfl

/-- A run that does not end with a read outside the readable memory `buf` never
reads in front of `buf`: its result is the same whatever bytes `front` lie
there. -/
theorem impl_loop_frame (front : List Nat) (len : Nat) (r : Except Failure Bytes)
    (hr : r ≠ .error .outOfBounds) :
    ∀ (fuel : Nat) (bytes : Bytes) (buf : List Nat) (off : Int) (j : Nat),
      base10to256_impl_loop fuel bytes buf off len j = r →
      base10to256_impl_loop fuel bytes (front ++ buf) ((front.length : Int) + off) len j
        = r := by
  intro fuel
  induction fuel with
  | zero =>
    intro bytes buf off j h
    rw [base10to256_impl_loop] at h ⊢
    exact h
  | succ fuel ih =>
    intro bytes buf off j h
    rw [base10to256_impl_loop] at h
    by_cases hno : off < 0 ∨ (buf.length : Int) < off
    · rw [if_pos hno] at h; exact absurd h.symm hr
    · rw [if_neg hno] at h
      obtain ⟨k, rfl⟩ : ∃ k : Nat, off = (k : Int) := ⟨off.toNat, by omega⟩
      have hk : k ≤ buf.length := by omega
      have hno2 : ¬ (((front.length : Int) + (k : Int)) < 0 ∨
          ((front ++ buf).length : Int) < (front.length : Int) + (k : Int)) := by
        rw [List.length_append]; push_cast; omega
      rw [base10to256_impl_loop, if_neg hno2]
      have hcast : ((front.length : Int) + (k : Int)).toNat = front.length + k := by omega
      rw [hcast]
      rw [Int.toNat_ofNat] at h
      have hdrop : (front ++ buf).drop (front.length + k) = buf.drop k := List.drop_append k
      have htake : (front ++ buf).take (front.length + k) = front ++ buf.take k :=
        List.take_append k
      rw [hdrop, htake]
      cases hdiv : divideBy2 (some (buf.drop k)) with
      | error e => rw [hdiv] at h; exact h
      | ok p =>
        obtain ⟨q, flags⟩ := p
        rw [hdiv] at h
        simp only at h ⊢
        split at h
        · rename_i hnd
          rw [if_pos hnd]; exact h
        · rename_i hnd
          rw [if_neg hnd]
          split at h
          · rename_i hz
            rw [if_pos hz]; exact h
          · rename_i hz
            rw [if_neg hz]
            split at h
            · rename_i ha
              rw [if_pos ha]; exact h
            · rename_i ha
              rw [if_neg ha]
              split at h
              · exact h
              · rename_i bytes1 hb
                have := ih bytes1 _ _ _ h
                rw [List.append_assoc, Int.add_assoc]
                exact this

/-- The result of `base10to256_mem`, unless it is a read outside the readable
memory, stays the same when more bytes `pre` can be read in front. -/
theorem base10to256_mem_frame (alloc : Nat → Bool) (pre front : List Nat)
    (decimal : Option (List Nat)) (r : Except Failure Bytes) (hr : r ≠ .error .outOfBounds)
    (h : base10to256_mem alloc front decimal = r) :
    base10to256_mem alloc (pre ++ front) decimal = r := by
  cases decimal with
  | none => exact h
  | some s =>
    simp only [base10to256_mem] at h ⊢
    split at h
    · rename_i h1
      rw [if_pos h1]; exact h
    · rename_i h1
      rw [if_neg h1]
      split at h
      · rename_i h2
        rw [if_pos h2]; exact h
      · rename_i h2
        rw [if_neg h2]
        split at h
        · exact h
        · rename_i bytes hb
          have := impl_loop_frame pre _ r hr _ _ _ _ _ h
          rw [base10to256_impl_mem, List.append_assoc, List.length_append, Nat.cast_add]
          exact this

/-- A buffer that `base10to256` returns when nothing in front of the working copy
can be read is returned whatever lies in front of the copy. -/
theorem base10to256_mem_of_ok (alloc : Nat → Bool) (front : List Nat)
    (decimal : Option (List Nat)) (b : Bytes) (h : base10to256 alloc decimal = .ok b) :
    base10to256_mem alloc front decimal = .ok b := by
  have h1 := base10to256_mem_frame alloc front [] decimal (.ok b) (by simp)
    (by rw [base10to256_mem_nil]; exact h)
  rw [List.append_nil] at h1
  exact h1

/-! ### Runs with a saturated count and a `0` byte in front of the copy -/

/-- On a string of digits that passes the length assertion, with both allocations
succeeding, `base10to256_mem` is the loop run on the bytes in front followed by
the working copy, from the start of the copy, on a zeroed buffer of the
estimated size. -/
theorem base10to256_mem_unfold (alloc : Nat → Bool) (front s : List Nat) (hs : allDigits s)
    (hlen : s.length ≤ SIZE_MAX / BASE_RATIO_NUM)
    (ha1 : alloc (s.length + 1) = true)
    (ha2 : alloc (Bytes_header_size + estimate s.length) = true) :
    base10to256_mem alloc front (some s)
      = base10to256_impl_loop (8 * estimate s.length + 1)
          ⟨estimate s.length, List.replicate (estimate s.length) 0⟩ (front ++ s)
          (front.length : Int) (estimate s.length) 0 := by
  have hest : estimate s.length ≤ SIZE_MAX - Bytes_header_size := by
    simp only [estimate, SIZE_MAX, BASE_RATIO_NUM, BASE_RATIO_DENOM, Bytes_header_size] at hlen ⊢
    norm_num at hlen ⊢
    omega
  have hnew : new_Bytes alloc (estimate s.length)
      = .ok ⟨estimate s.length, List.replicate (estimate s.length) 0⟩ := by
    rw [new_Bytes, if_neg (not_not.2 hest), if_neg (not_not.2 ha2)]
  simp only [base10to256_mem, strlen_digits s hs, ha1, not_true_eq_false, if_false, hlen,
    List.take_length]
  have : s.length * BASE_RATIO_NUM / BASE_RATIO_DENOM + 1 = estimate s.length := rfl
  rw [this, hnew]
  rfl

/-- The pointer advance when the count field is saturated: 0 when one of the low
flags is set, `-1` when none is. -/
theorem advance_saturated (r z : Bool) :
    Int.tdiv (toInt (enc r z COUNT_CAP)) (LEADING_ZERO_COUNT : Int)
      = if (r || z) = true then 0 else -1 := by
  cases r <;> cases z <;> decide

theorem leadingZeros_le_halve (s : List Nat) :
    leadingZeros s ≤ leadingZeros (halve s false) := by
  induction s with
  | nil => exact Nat.le_refl _
  | cons c rest ih =>
    by_cases hc : c = '0'.toNat
    · subst hc
      rw [halve, show carryOut '0'.toNat false = false by rfl,
        show halfDigit '0'.toNat false + '0'.toNat = '0'.toNat by rfl]
      simp only [leadingZeros, if_true]
      omega
    · simp only [leadingZeros, if_neg hc]
      exact Nat.zero_le _

/-- A byte of the payload is determined by its eight bits. -/
theorem byte_eq_of_bits (data : List Nat) (b x : Nat) (hw : ∀ y ∈ data, y < 256)
    (hx : x < 256) (h : ∀ t, t < 8 → bitOf data (8 * b + t) = x.testBit t) :
    data.getD b 0 = x := by
  have hlt : data.getD b 0 < 256 := by
    rw [List.getD_eq_getElem?_getD]
    cases hg : data[b]? with
    | none => simp
    | some y => exact hw y (List.getElem?_mem hg)
  apply Nat.eq_of_testBit_eq
  intro t
  by_cases ht : t < 8
  · have := h t ht
    unfold bitOf at this
    rw [show (8 * b + t) / 8 = b by omega, show (8 * b + t) % 8 = t by omega] at this
    exact this
  · rw [testBit_byte_high hlt ht, testBit_byte_high hx ht]

/-- A round on digits with at least `2 ^ 28 - 1` leading zeros whose value is not
yet 0: the count field of the flags is saturated, so the pointer stays where it
is when the round leaves a remainder or the quotient is 0, and is moved back by
one character otherwise. -/
theorem impl_loop_round_saturated (n len : Nat) (bytes : Bytes) (buf : List Nat) (off j : Nat)
    (hoff : off ≤ buf.length) (hd : allDigits (buf.drop off))
    (hcap : COUNT_CAP ≤ leadingZeros (buf.drop off))
    (hval : decVal (buf.drop off) = n / 2 ^ j) (hcont : n / 2 ^ j ≠ 0) (hjlt : j < 8 * len)
    (hsize : bytes.size = len) (hdl : bytes.data.length = len)
    (hw : ∀ x ∈ bytes.data, x < 256)
    (hbits : ∀ i, bitOf bytes.data i = (decide (i < j) && n.testBit i)) :
    ∃ bytes1 : Bytes,
      (∀ fuel, base10to256_impl_loop (fuel + 1) bytes buf (off : Int) len j
        = base10to256_impl_loop fuel bytes1 (buf.take off ++ halve (buf.drop off) false)
            ((off : Int) + (if n.testBit j = true ∨ n / 2 ^ (j + 1) = 0 then 0 else -1))
            len (j + 1)) ∧
      bytes1.size = len ∧ bytes1.data.length = len ∧ (∀ x ∈ bytes1.data, x < 256) ∧
      (∀ i, bitOf bytes1.data i = (decide (i < j + 1) && n.testBit i)) := by
  have hq : allDigits (halve (buf.drop off) false) := allDigits_halve _ _ hd
  obtain ⟨hqv, hr⟩ := decVal_halve (buf.drop off)
  have hz : (decide (leadingZeros (halve (buf.drop off) false)
      = (halve (buf.drop off) false).length) = true)
      ↔ decVal (halve (buf.drop off) false) = 0 := by
    rw [decide_eq_true_eq]; exact leadingZeros_eq_length_iff _ hq
  have hc1 : ¬ (decide (leadingZeros (halve (buf.drop off) false)
      = (halve (buf.drop off) false).length) = true
      ∧ carryEnd (buf.drop off) false = false) := by
    rintro ⟨h1, h2⟩
    rw [hz, hqv, hval] at h1
    have h3 : ¬ (n / 2 ^ j % 2 = 1) := by
      intro h; rw [← hval] at h
      have := hr.2 h
      rw [h2] at this; exact absurd this (by decide)
    omega
  have hrbit : carryEnd (buf.drop off) false = n.testBit j := by
    rw [Nat.testBit_to_div_mod, ← hval]
    cases hce : carryEnd (buf.drop off) false
    · have : ¬ decVal (buf.drop off) % 2 = 1 := fun h => by
        have := hr.2 h; rw [hce] at this; exact absurd this (by decide)
      simp [this]
    · simp [hr.1 hce]
  obtain ⟨bytes1, hb1, hsize1, hdl1, hw1, hbits1⟩ :=
    set_bit_round n len j bytes (carryEnd (buf.drop off) false) hjlt hrbit hsize hdl hw hbits
  have hval1 : decVal (halve (buf.drop off) false) = n / 2 ^ (j + 1) := by
    rw [hqv, hval, Nat.div_div_eq_div_mul, pow_succ]
  have hge := leadingZeros_le_halve (buf.drop off)
  have hcnt : min (leadingZeros (halve (buf.drop off) false)) COUNT_CAP = COUNT_CAP := by
    omega
  have hcond : ((carryEnd (buf.drop off) false
      || decide (leadingZeros (halve (buf.drop off) false)
          = (halve (buf.drop off) false).length)) = true)
      ↔ (n.testBit j = true ∨ n / 2 ^ (j + 1) = 0) := by
    rw [Bool.or_eq_true, hrbit, hz, hval1]
  refine ⟨bytes1, ?_, hsize1, hdl1, hw1, hbits1⟩
  intro fuel
  rw [impl_loop_step fuel bytes buf off len j hoff hd, if_neg hc1,
    if_neg (not_not.2 (by omega : j / 8 < len)), hb1, hcnt, advance_saturated]
  simp only [hcond]

/-- Rounds in which the value stays odd while the digits keep at least
`2 ^ 28 - 1` leading zeros: the pointer does not move and bits `j` to `j + k - 1`
are stored. -/
theorem impl_loop_stall (n len : Nat) :
    ∀ (k : Nat) (bytes : Bytes) (buf : List Nat) (off j : Nat),
      off ≤ buf.length → allDigits (buf.drop off) →
      COUNT_CAP ≤ leadingZeros (buf.drop off) →
      decVal (buf.drop off) = n / 2 ^ j → j + k ≤ 8 * len →
      (∀ i, j ≤ i → i < j + k → n.testBit i = true) →
      bytes.size = len → bytes.data.length = len → (∀ x ∈ bytes.data, x < 256) →
      (∀ i, bitOf bytes.data i = (decide (i < j) && n.testBit i)) →
      ∃ (bytes1 : Bytes) (buf1 : List Nat),
        (∀ fuel, base10to256_impl_loop (fuel + k) bytes buf (off : Int) len j
          = base10to256_impl_loop fuel bytes1 buf1 (off : Int) len (j + k)) ∧
        off ≤ buf1.length ∧ buf1.take off = buf.take off ∧
        allDigits (buf1.drop off) ∧ COUNT_CAP ≤ leadingZeros (buf1.drop off) ∧
        decVal (buf1.drop off) = n / 2 ^ (j + k) ∧
        bytes1.size = len ∧ bytes1.data.length = len ∧ (∀ x ∈ bytes1.data, x < 256) ∧
        (∀ i, bitOf bytes1.data i = (decide (i < j + k) && n.testBit i)) := by
  intro k
  induction k with
  | zero =>
    intro bytes buf off j hoff hd hcap hval _ _ hsize hdl hw hbits
    exact ⟨bytes, buf, fun _ => rfl, hoff, rfl, hd, hcap, hval, hsize, hdl, hw, hbits⟩
  | succ k ih =>
    intro bytes buf off j hoff hd hcap hval hjk hodd hsize hdl hw hbits
    have hbit : n.testBit j = true := hodd j (Nat.le_refl _) (by omega)
    have hcont : n / 2 ^ j ≠ 0 := by
      rw [Nat.testBit_to_div_mod] at hbit
      intro h0
      rw [h0] at hbit
      exact absurd hbit (by decide)
    obtain ⟨bytes1, hstep, hsize1, hdl1, hw1, hbits1⟩ :=
      impl_loop_round_saturated n len bytes buf off j hoff hd hcap hval hcont (by omega)
        hsize hdl hw hbits
    rw [if_pos (Or.inl hbit), Int.add_zero] at hstep
    have htl : (buf.take off).length = off := by rw [List.length_take]; omega
    have hdrop : (buf.take off ++ halve (buf.drop off) false).drop off
        = halve (buf.drop off) false := by
      have h := List.drop_left (buf.take off) (halve (buf.drop off) false)
      rw [htl] at h
      exact h
    have htake : (buf.take off ++ halve (buf.drop off) false).take off = buf.take off := by
      have h := List.take_left (buf.take off) (halve (buf.drop off) false)
      rw [htl] at h
      exact h
    have hlen1 : off ≤ (buf.take off ++ halve (buf.drop off) false).length := by
      rw [List.length_append, htl]; omega
    obtain ⟨bytes2, buf2, hrun, h1, h2, h3, h4, h5, h6, h7, h8, h9⟩ :=
      ih bytes1 (buf.take off ++ halve (buf.drop off) false) off (j + 1) hlen1
        (by rw [hdrop]; exact allDigits_halve _ _ hd)
        (by rw [hdrop]; exact le_trans hcap (leadingZeros_le_halve _))
        (by rw [hdrop, (decVal_halve _).1, hval, Nat.div_div_eq_div_mul, pow_succ])
        (by omega) (fun i hi1 hi2 => hodd i (by omega) (by omega)) hsize1 hdl1 hw1 hbits1
    refine ⟨bytes2, buf2, ?_, h1, by rw [h2, htake], h3, h4, ?_, h6, h7, h8, ?_⟩
    · intro fuel
      rw [show fuel + (k + 1) = (fuel + k) + 1 by omega, hstep (fuel + k), hrun fuel,
        show j + 1 + k = j + (k + 1) by omega]
    · rw [h5, show j + 1 + k = j + (k + 1) by omega]
    · intro i
      rw [h9 i, show j + 1 + k = j + (k + 1) by omega]

/-- A round entered with the pointer at a `0` byte: `divideBy2` returns `ZERO`
at once and the loop stops, whatever the value was. -/
theorem impl_loop_at_nul (fuel : Nat) (bytes : Bytes) (buf : List Nat) (off len j : Nat)
    (rest : List Nat) (hoff : off ≤ buf.length) (hsplit : buf.drop off = 0 :: rest)
    (hj : (j + 7) / 8 ≠ 0) :
    base10to256_impl_loop (fuel + 1) bytes buf (off : Int) len j
      = .ok (Bytes_truncate bytes ((j + 7) / 8)) := by
  have hno : ¬ ((off : Int) < 0 ∨ (buf.length : Int) < (off : Int)) := by omega
  rw [base10to256_impl_loop, if_neg hno, Int.toNat_ofNat, hsplit]
  have hdiv : divideBy2 (some (0 :: rest)) = .ok (0 :: rest, ZERO) := by
    rw [divideBy2, divideBy2_loop, if_pos rfl]
  rw [hdiv]
  have h1 : ¬ (ZERO &&& NULL_DECIMAL ≠ 0) := by decide
  have h2 : ZERO &&& ZERO ≠ 0 ∧ ¬ ZERO &&& REMAINDER ≠ 0 := by decide
  simp only
  rw [if_neg h1, if_pos h2, if_neg hj]

/-- The loop on digits with at least `2 ^ 28 - 1` leading zeros when the byte in
front of the working copy is `0`, for a value `n` whose bits 0 to `k - 1` are set,
whose bit `k` is clear and which has higher bits: `k` rounds store the low bits
with the pointer at rest, round `k` moves the pointer back by one character, and
round `k + 1` reads the `0` byte there and stops.  The higher bits of `n` are
lost. -/
theorem impl_loop_saturated_stop (n len k : Nat) (s : List Nat) (hs : allDigits s)
    (hcap : COUNT_CAP ≤ leadingZeros s) (hval : decVal s = n)
    (hones : ∀ i, i < k → n.testBit i = true) (hzero : n.testBit k = false)
    (hnz : n / 2 ^ (k + 1) ≠ 0) (hk : k < 8 * len) (fuel : Nat) :
    ∃ bytes : Bytes,
      base10to256_impl_loop (fuel + 1 + 1 + k) ⟨len, List.replicate len 0⟩ (0 :: s)
          ((1 : Nat) : Int) len 0
        = .ok (Bytes_truncate bytes ((k + 1 + 7) / 8)) ∧
      bytes.size = len ∧ bytes.data.length = len ∧ (∀ x ∈ bytes.data, x < 256) ∧
      ∀ i, bitOf bytes.data i = (decide (i < k) && n.testBit i) := by
  have hdrop0 : (0 :: s).drop 1 = s := rfl
  have hoff : 1 ≤ (0 :: s).length := by simp
  obtain ⟨bytes1, buf1, hrun, h1, h2, h3, h4, h5, h6, h7, h8, h9⟩ :=
    impl_loop_stall n len k ⟨len, List.replicate len 0⟩ (0 :: s) 1 0 hoff
      (by rw [hdrop0]; exact hs) (by rw [hdrop0]; exact hcap)
      (by rw [hdrop0, hval]; simp) (by omega)
      (by
        intro i _ hi
        exact hones i (by omega))
      rfl (by simp)
      (by intro x hx; rw [(List.mem_replicate.1 hx).2]; norm_num)
      (by intro i; rw [bitOf_replicate_zero]; simp)
  simp only [Nat.zero_add] at hrun h5 h9
  have hcont : n / 2 ^ k ≠ 0 := by
    intro h0
    apply hnz
    rw [pow_succ, ← Nat.div_div_eq_div_mul, h0]
  obtain ⟨bytes2, hstep, hs2, hdl2, hw2, hbits2⟩ :=
    impl_loop_round_saturated n len bytes1 buf1 1 k h1 h3 h4 h5 hcont hk h6 h7 h8 h9
  have hno : ¬ (n.testBit k = true ∨ n / 2 ^ (k + 1) = 0) := by
    rw [hzero]; simp [hnz]
  rw [if_neg hno] at hstep
  have hback : ((1 : Nat) : Int) + (-1) = ((0 : Nat) : Int) := rfl
  rw [hback] at hstep
  have hsplit : (buf1.take 1 ++ halve (buf1.drop 1) false).drop 0
      = 0 :: halve (buf1.drop 1) false := by
    rw [h2]; rfl
  refine ⟨bytes2, ?_, hs2, hdl2, hw2, ?_⟩
  · rw [hrun (fuel + 1 + 1), hstep (fuel + 1),
      impl_loop_at_nul fuel bytes2 _ 0 len (k + 1) _ (Nat.zero_le _) hsplit (by omega)]
  · intro i
    rw [hbits2 i]
    by_cases hik : i = k
    · rw [hik, hzero]; simp
    · by_cases hlt : i < k
      · have : i < k + 1 := by omega
        simp [hlt, this]
      · have : ¬ i < k + 1 := by omega
        simp [hlt, this]

/-- The conversion of a string of at least `2 ^ 28 - 1` characters `'0'` followed
by the digits `t` of a number `n` whose bits 0 to `k - 1` are set, whose bit `k`
is clear and which has higher bits, when the byte in front of the working copy is
`0` (whatever bytes `pre` lie in front of that byte): a buffer is returned that
holds the low `k` bits of `n` only, with logical size `(k + 8) / 8`. -/
theorem base10to256_mem_saturated (pre : List Nat) (m : Nat) (t : List Nat) (n k : Nat)
    (hm : COUNT_CAP ≤ m)
    (ht : allDigits t) (hlen : m + t.length ≤ SIZE_MAX / BASE_RATIO_NUM)
    (hval : decVal t = n) (hones : ∀ i, i < k → n.testBit i = true)
    (hzero : n.testBit k = false) (hnz : n / 2 ^ (k + 1) ≠ 0) :
    ∃ bytes, base10to256_mem allocAlways (pre ++ [0])
        (some (List.replicate m '0'.toNat ++ t)) = .ok bytes ∧
      Bytes_size bytes = (k + 8) / 8 ∧ (∀ x ∈ bytes.data, x < 256) ∧
      ∀ i, bitOf bytes.data i = (decide (i < k) && n.testBit i) := by
  suffices h0 : ∃ bytes, base10to256_mem allocAlways [0]
      (some (List.replicate m '0'.toNat ++ t)) = .ok bytes ∧
      Bytes_size bytes = (k + 8) / 8 ∧ (∀ x ∈ bytes.data, x < 256) ∧
      ∀ i, bitOf bytes.data i = (decide (i < k) && n.testBit i) by
    obtain ⟨bytes, h, hrest⟩ := h0
    exact ⟨bytes, base10to256_mem_frame allocAlways pre [0] _ (.ok bytes) (by simp) h, hrest⟩
  have hs : allDigits (List.replicate m '0'.toNat ++ t) := by
    intro x hx
    rcases List.mem_append.1 hx with h | h
    · rw [(List.mem_replicate.1 h).2]; decide
    · exact ht x h
  have hl : (List.replicate m '0'.toNat ++ t).length = m + t.length := by
    rw [List.length_append, List.length_replicate]
  rw [base10to256_mem_unfold allocAlways [0] _ hs (by rw [hl]; exact hlen) rfl rfl, hl]
  have hcap : COUNT_CAP ≤ leadingZeros (List.replicate m '0'.toNat ++ t) := by
    rw [leadingZeros_zeros]; omega
  have hk : k + 1 < 8 * estimate (m + t.length) := by
    have h1 : n < 10 ^ t.length := by rw [← hval]; exact decVal_lt t ht
    have h2 : 10 ^ t.length ≤ 2 ^ (8 * estimate t.length) := pow_ten_le_estimate _
    have h3 : 2 ^ (8 * estimate t.length) ≤ 2 ^ (8 * estimate (m + t.length)) :=
      Nat.pow_le_pow_right (by norm_num)
        (Nat.mul_le_mul_left _ (estimate_mono (Nat.le_add_left _ _)))
    have h4 : 2 ^ (k + 1) ≤ n := by
      by_contra hlt
      exact hnz ((Nat.div_eq_zero_iff (Nat.pos_pow_of_pos _ (by norm_num))).2 (by omega))
    exact (Nat.pow_lt_pow_iff_right (by norm_num : 1 < 2)).1
      (lt_of_le_of_lt h4 (lt_of_lt_of_le (lt_of_lt_of_le h1 h2) h3))
  obtain ⟨f, hf⟩ : ∃ f, 8 * estimate (m + t.length) + 1 = f + 1 + 1 + k :=
    ⟨8 * estimate (m + t.length) - 1 - k, by omega⟩
  obtain ⟨bytes, hrun, hsz, hdl, hw, hbits⟩ :=
    impl_loop_saturated_stop n (estimate (m + t.length)) k _ hs hcap
      (by rw [decVal_zeros]; exact hval) hones hzero hnz (by omega) f
  have hone : (([0] : List Nat).length : Int) = ((1 : Nat) : Int) := rfl
  rw [hone, hf]
  refine ⟨_, hrun, ?_, ?_, ?_⟩
  · unfold Bytes_size Bytes_truncate
    split
    · rename_i hle
      rw [hsz] at hle ⊢
      omega
    · rfl
  · unfold Bytes_truncate
    split
    · exact hw
    · exact hw
  · unfold Bytes_truncate
    split
    · exact hbits
    · exact hbits

/-! ### Runs on digits in front of the copy -/

/-- A round at which the value is still nonzero and the quotient has fewer than
`2 ^ 27` leading zeros: the pointer is advanced past exactly those zeros. -/
theorem impl_loop_round_exact (n len : Nat) (bytes : Bytes) (buf : List Nat) (off j : Nat)
    (hoff : off ≤ buf.length) (hd : allDigits (buf.drop off))
    (hL : leadingZeros (halve (buf.drop off) false) < 2 ^ 27)
    (hval : decVal (buf.drop off) = n / 2 ^ j) (hcont : n / 2 ^ j ≠ 0) (hjlt : j < 8 * len)
    (hsize : bytes.size = len) (hdl : bytes.data.length = len)
    (hw : ∀ x ∈ bytes.data, x < 256)
    (hbits : ∀ i, bitOf bytes.data i = (decide (i < j) && n.testBit i)) :
    ∃ bytes1 : Bytes,
      (∀ fuel, base10to256_impl_loop (fuel + 1) bytes buf (off : Int) len j
        = base10to256_impl_loop fuel bytes1 (buf.take off ++ halve (buf.drop off) false)
            ((off + leadingZeros (halve (buf.drop off) false) : Nat) : Int) len (j + 1)) ∧
      bytes1.size = len ∧ bytes1.data.length = len ∧ (∀ x ∈ bytes1.data, x < 256) ∧
      (∀ i, bitOf bytes1.data i = (decide (i < j + 1) && n.testBit i)) := by
  have hq : allDigits (halve (buf.drop off) false) := allDigits_halve _ _ hd
  obtain ⟨hqv, hr⟩ := decVal_halve (buf.drop off)
  have hz : (decide (leadingZeros (halve (buf.drop off) false)
      = (halve (buf.drop off) false).length) = true)
      ↔ decVal (halve (buf.drop off) false) = 0 := by
    rw [decide_eq_true_eq]; exact leadingZeros_eq_length_iff _ hq
  have hc1 : ¬ (decide (leadingZeros (halve (buf.drop off) false)
      = (halve (buf.drop off) false).length) = true
      ∧ carryEnd (buf.drop off) false = false) := by
    rintro ⟨h1, h2⟩
    rw [hz, hqv, hval] at h1
    have h3 : ¬ (n / 2 ^ j % 2 = 1) := by
      intro h; rw [← hval] at h
      have := hr.2 h
      rw [h2] at this; exact absurd this (by decide)
    omega
  have hrbit : carryEnd (buf.drop off) false = n.testBit j := by
    rw [Nat.testBit_to_div_mod, ← hval]
    cases hce : carryEnd (buf.drop off) false
    · have : ¬ decVal (buf.drop off) % 2 = 1 := fun h => by
        have := hr.2 h; rw [hce] at this; exact absurd this (by decide)
      simp [this]
    · simp [hr.1 hce]
  obtain ⟨bytes1, hb1, hsize1, hdl1, hw1, hbits1⟩ :=
    set_bit_round n len j bytes (carryEnd (buf.drop off) false) hjlt hrbit hsize hdl hw hbits
  have hcap : COUNT_CAP = 2 ^ 28 - 1 := rfl
  have hcnt : min (leadingZeros (halve (buf.drop off) false)) COUNT_CAP
      = leadingZeros (halve (buf.drop off) false) := by omega
  have hcast : (off : Int) + (leadingZeros (halve (buf.drop off) false) : Int)
      = ((off + leadingZeros (halve (buf.drop off) false) : Nat) : Int) := by push_cast; rfl
  refine ⟨bytes1, ?_, hsize1, hdl1, hw1, hbits1⟩
  intro fuel
  rw [impl_loop_step fuel bytes buf off len j hoff hd, if_neg hc1,
    if_neg (not_not.2 (by omega : j / 8 < len)), hb1, hcnt, advance_small _ _ _ hL, hcast]

/-- The loop on digits without leading zero whose value needs more than `8 * len`
bits: round `8 * len` is reached with the value still nonzero, and the assertion
`bit_num / 8 < len` fails there. -/
theorem impl_loop_overflow (n len : Nat) (hn : 2 ^ (8 * len) ≤ n) :
    ∀ (fuel : Nat) (bytes : Bytes) (buf : List Nat) (off j : Nat),
      j ≤ 8 * len →
      off ≤ buf.length →
      allDigits (buf.drop off) →
      leadingZeros (buf.drop off) = 0 →
      decVal (buf.drop off) = n / 2 ^ j →
      bytes.size = len → bytes.data.length = len → (∀ x ∈ bytes.data, x < 256) →
      (∀ i, bitOf bytes.data i = (decide (i < j) && n.testBit i)) →
      base10to256_impl_loop fuel bytes buf (off : Int) len j = .error .assertion := by
  intro fuel
  induction fuel with
  | zero => intros; rfl
  | succ fuel ih =>
    intro bytes buf off j hj hoff hd hnorm hval hsize hdl hw hbits
    have h2pos : 0 < 2 ^ j := Nat.pos_pow_of_pos _ (by norm_num)
    have h2j : 2 ^ j ≤ n := le_trans (Nat.pow_le_pow_right (by norm_num) hj) hn
    have hcont : n / 2 ^ j ≠ 0 := by
      intro h0
      have := (Nat.div_eq_zero_iff h2pos).1 h0
      omega
    by_cases hlast : j = 8 * len
    · have hq : allDigits (halve (buf.drop off) false) := allDigits_halve _ _ hd
      obtain ⟨hqv, hr⟩ := decVal_halve (buf.drop off)
      have hz : (decide (leadingZeros (halve (buf.drop off) false)
          = (halve (buf.drop off) false).length) = true)
          ↔ decVal (halve (buf.drop off) false) = 0 := by
        rw [decide_eq_true_eq]; exact leadingZeros_eq_length_iff _ hq
      have hc1 : ¬ (decide (leadingZeros (halve (buf.drop off) false)
          = (halve (buf.drop off) false).length) = true
          ∧ carryEnd (buf.drop off) false = false) := by
        rintro ⟨h1, h2⟩
        rw [hz, hqv, hval] at h1
        have h3 : ¬ (n / 2 ^ j % 2 = 1) := by
          intro h; rw [← hval] at h
          have := hr.2 h
          rw [h2] at this; exact absurd this (by decide)
        omega
      rw [impl_loop_step fuel bytes buf off len j hoff hd, if_neg hc1,
        if_pos (by omega : ¬ j / 8 < len)]
    · have hone := leadingZeros_halve_le_one _ hd hnorm
      obtain ⟨bytes1, hstep, hsize1, hdl1, hw1, hbits1⟩ :=
        impl_loop_round_exact n len bytes buf off j hoff hd (by omega) hval hcont (by omega)
          hsize hdl hw hbits
      have hq : allDigits (halve (buf.drop off) false) := allDigits_halve _ _ hd
      have hql : (halve (buf.drop off) false).length = (buf.drop off).length :=
        length_halve _ _
      have hLle := leadingZeros_le (halve (buf.drop off) false)
      have hdl2 : (buf.drop off).length = buf.length - off := List.length_drop _ _
      have htl : (buf.take off).length = off := by rw [List.length_take]; omega
      have hlen1 : (buf.take off ++ halve (buf.drop off) false).length = buf.length := by
        rw [List.length_append, htl, hql, hdl2]; omega
      have hdrop : (buf.take off ++ halve (buf.drop off) false).drop
          (off + leadingZeros (halve (buf.drop off) false))
          = (halve (buf.drop off) false).drop (leadingZeros (halve (buf.drop off) false)) := by
        have h := @List.drop_append _ (buf.take off) (halve (buf.drop off) false)
          (leadingZeros (halve (buf.drop off) false))
        rw [htl] at h
        exact h
      rw [hstep fuel]
      exact ih bytes1 _ _ (j + 1) (by omega) (by rw [hlen1]; omega)
        (by rw [hdrop]; exact allDigits_drop _ _ hq)
        (by rw [hdrop]; exact leadingZeros_drop _)
        (by rw [hdrop, decVal_drop_zeros _ _ le_rfl, (decVal_halve _).1, hval,
          Nat.div_div_eq_div_mul, pow_succ])
        hsize1 hdl1 hw1 hbits1

theorem decVal_ge_of_head (c : Nat) (rest : List Nat) (hc : '0'.toNat < c) :
    10 ^ rest.length ≤ decVal (c :: rest) := by
  simp only [show '0'.toNat = 48 by rfl] at hc
  simp only [decVal, show '0'.toNat = 48 by rfl]
  have : 1 * 10 ^ rest.length ≤ (c - 48) * 10 ^ rest.length :=
    Nat.mul_le_mul_right _ (by omega)
  omega

/-- The loop on the digit `'2'` behind `m = 2 ^ 27` characters `'0'`, with `m`
bytes `'9'` in front of the working copy: round 0 moves the pointer back by
`2 ^ 27` characters, onto the first `'9'`; from round 1 on the loop halves the
number that the nines, the zeros and the digit `'1'` denote, which has more than
`8 * len` bits, and the assertion `bit_num / 8 < len` fails.  No bound on the
number of rounds changes that. -/
theorem impl_loop_long_zeros_overflow (m : Nat) (hm : m = 2 ^ 27) (fuel : Nat) :
    base10to256_impl_loop fuel ⟨estimate (m + 1), List.replicate (estimate (m + 1)) 0⟩
        (List.replicate m '9'.toNat ++ (List.replicate m '0'.toNat ++ ['2'.toNat]))
        ((m : Nat) : Int) (estimate (m + 1)) 0 = .error .assertion := by
  have hm1 : m = 134217728 := by rw [hm]; norm_num
  have hs : allDigits (List.replicate m '0'.toNat ++ ['2'.toNat]) := by
    intro x hx
    rcases List.mem_append.1 hx with h | h
    · rw [(List.mem_replicate.1 h).2]; decide
    · rw [List.mem_singleton.1 h]; decide
  generalize hlen : estimate (m + 1) = len
  have hlen6 : 8 * len ≤ 6 * m := by
    rw [← hlen]
    unfold estimate BASE_RATIO_NUM BASE_RATIO_DENOM
    omega
  have hlen0 : 0 < len := by rw [← hlen]; exact Nat.succ_pos _
  cases fuel with
  | zero => rfl
  | succ fuel =>
  have hfl : (List.replicate m '9'.toNat).length = m := List.length_replicate _ _
  have hdrop : (List.replicate m '9'.toNat ++ (List.replicate m '0'.toNat ++ ['2'.toNat])).drop m
      = List.replicate m '0'.toNat ++ ['2'.toNat] := by
    have h := List.drop_left (List.replicate m '9'.toNat)
      (List.replicate m '0'.toNat ++ ['2'.toNat])
    rw [hfl] at h
    exact h
  have htake : (List.replicate m '9'.toNat ++ (List.replicate m '0'.toNat ++ ['2'.toNat])).take m
      = List.replicate m '9'.toNat := by
    have h := List.take_left (List.replicate m '9'.toNat)
      (List.replicate m '0'.toNat ++ ['2'.toNat])
    rw [hfl] at h
    exact h
  have hstep := impl_loop_step fuel ⟨len, List.replicate len 0⟩
    (List.replicate m '9'.toNat ++ (List.replicate m '0'.toNat ++ ['2'.toNat])) m len 0
    (by rw [List.length_append, hfl]; omega) (by rw [hdrop]; exact hs)
  have hq : halve (List.replicate m '0'.toNat ++ ['2'.toNat]) false
      = List.replicate m '0'.toNat ++ ['1'.toNat] := by
    rw [halve_zeros]; rfl
  have hce : carryEnd (List.replicate m '0'.toNat ++ ['2'.toNat]) false = false := by
    rw [carryEnd_zeros]; rfl
  have hlz : leadingZeros (List.replicate m '0'.toNat ++ ['1'.toNat]) = m := by
    rw [leadingZeros_zeros]; rfl
  have hlq : (List.replicate m '0'.toNat ++ ['1'.toNat]).length = m + 1 := by
    rw [List.length_append, List.length_replicate, List.length_singleton]
  have hdec : decide (m = m + 1) = false := by
    rw [decide_eq_false_iff_not]; omega
  have hcnt : min m COUNT_CAP = 2 ^ 27 := by
    have : COUNT_CAP = 2 ^ 28 - 1 := rfl
    omega
  have hadv : (m : Int) + Int.tdiv (toInt (enc false false (2 ^ 27))) (LEADING_ZERO_COUNT : Int)
      = ((0 : Nat) : Int) := by
    have : Int.tdiv (toInt (enc false false (2 ^ 27))) (LEADING_ZERO_COUNT : Int)
        = -134217728 := by decide
    rw [this, hm1]; rfl
  rw [hdrop, htake, hq, hce, hlz, hlq, hdec, hcnt, hadv, if_neg (by simp),
    if_neg (not_not.2 (by omega : 0 / 8 < len))] at hstep
  simp only [Bool.false_eq_true, if_false] at hstep
  rw [hstep]
  obtain ⟨m0, hm0⟩ : ∃ m0, m = m0 + 1 := ⟨m - 1, by omega⟩
  have hbuf : List.replicate m '9'.toNat ++ (List.replicate m '0'.toNat ++ ['1'.toNat])
      = '9'.toNat :: (List.replicate m0 '9'.toNat
          ++ (List.replicate m '0'.toNat ++ ['1'.toNat])) := by
    rw [hm0, List.replicate_succ, List.cons_append]
  have hrl : (List.replicate m0 '9'.toNat
      ++ (List.replicate m '0'.toNat ++ ['1'.toNat])).length = 2 * m := by
    rw [List.length_append, List.length_replicate, hlq]; omega
  have hbig : 2 ^ (8 * len)
      ≤ decVal (List.replicate m '9'.toNat ++ (List.replicate m '0'.toNat ++ ['1'.toNat])) := by
    have h1 := decVal_ge_of_head '9'.toNat (List.replicate m0 '9'.toNat
      ++ (List.replicate m '0'.toNat ++ ['1'.toNat])) (by decide)
    rw [hrl] at h1
    rw [hbuf]
    calc 2 ^ (8 * len) ≤ 2 ^ (3 * (2 * m)) := Nat.pow_le_pow_right (by norm_num) (by omega)
      _ = (2 ^ 3) ^ (2 * m) := by rw [pow_mul]
      _ ≤ 10 ^ (2 * m) := Nat.pow_le_pow_left (by norm_num) _
      _ ≤ _ := h1
  have hd1 : allDigits
      (List.replicate m '9'.toNat ++ (List.replicate m '0'.toNat ++ ['1'.toNat])) := by
    intro x hx
    rcases List.mem_append.1 hx with h | h
    · rw [(List.mem_replicate.1 h).2]; decide
    · rcases List.mem_append.1 h with h | h
      · rw [(List.mem_replicate.1 h).2]; decide
      · rw [List.mem_singleton.1 h]; decide
  have hnorm : leadingZeros
      (List.replicate m '9'.toNat ++ (List.replicate m '0'.toNat ++ ['1'.toNat])) = 0 := by
    rw [hbuf]; rfl
  exact impl_loop_overflow
    (2 * decVal (List.replicate m '9'.toNat ++ (List.replicate m '0'.toNat ++ ['1'.toNat])))
    len (by omega) fuel ⟨len, List.replicate len 0⟩ _ 0 (0 + 1) (by omega)
    (Nat.zero_le _) (by rw [List.drop_zero]; exact hd1) (by rw [List.drop_zero]; exact hnorm)
    (by rw [List.drop_zero]; norm_num) rfl (by simp)
    (by intro x hx; rw [(List.mem_replicate.1 hx).2]; norm_num)
    (by
      intro i
      rw [bitOf_replicate_zero]
      cases i with
      | zero => simp [Nat.testBit_zero]
      | succ i => simp)

/-- The conversion of the digit `'2'` behind `m = 2 ^ 27` characters `'0'`, with
`m` bytes `'9'` in front of the working copy (whatever bytes `pre` lie in front
of them), ends in the failed assertion `bit_num / 8 < len`. -/
theorem base10to256_mem_overflow (pre : List Nat) (m : Nat) (hm : m = 2 ^ 27) :
    base10to256_mem allocAlways (pre ++ List.replicate m '9'.toNat)
        (some (List.replicate m '0'.toNat ++ ['2'.toNat])) = .error .assertion := by
  apply base10to256_mem_frame allocAlways pre _ _ _ (by simp)
  have hs : allDigits (List.replicate m '0'.toNat ++ ['2'.toNat]) := by
    intro x hx
    rcases List.mem_append.1 hx with h | h
    · rw [(List.mem_replicate.1 h).2]; decide
    · rw [List.mem_singleton.1 h]; decide
  have hl : (List.replicate m '0'.toNat ++ ['2'.toNat]).length = m + 1 := by
    rw [List.length_append, List.length_replicate, List.length_singleton]
  have hbound : (List.replicate m '0'.toNat ++ ['2'.toNat]).length
      ≤ SIZE_MAX / BASE_RATIO_NUM := by
    rw [hl, hm]; decide
  rw [base10to256_mem_unfold allocAlways _ _ hs hbound rfl rfl, List.length_replicate, hl]
  exact impl_loop_long_zeros_overflow m hm _

/-! ### Claims on the conversion, with the memory in front of the copy -/

/-- For strings of fewer than `2 ^ 27` digits the conversion returns the canonical
buffer of the number, whatever bytes lie in front of the working copy. -/
theorem base10to256_mem_short (alloc : Nat → Bool) (front s : List Nat) (hs : allDigits s)
    (hlen : s.length < 2 ^ 27)
    (ha1 : alloc (s.length + 1) = true)
    (ha2 : alloc (Bytes_header_size + estimate s.length) = true) :
    base10to256_mem alloc front (some s) = .ok (canonical (decVal s) (estimate s.length)) :=
  base10to256_mem_of_ok alloc front _ _ (base10to256_short alloc s hs hlen ha1 ha2)

/-- For strings of fewer than `2 ^ 27` digits, whatever bytes lie in front of the
working copy: a buffer is returned, and when its logical size is greater than 1
its last byte (index `size - 1`) is nonzero. -/
theorem base10to256_msb_nonzero_short (alloc : Nat → Bool) (front s : List Nat)
    (hs : allDigits s) (hlen : s.length < 2 ^ 27)
    (ha1 : alloc (s.length + 1) = true)
    (ha2 : alloc (Bytes_header_size + estimate s.length) = true) :
    ∃ bytes, base10to256_mem alloc front (some s) = .ok bytes ∧
      (1 < Bytes_size bytes → bytes.data.getD (Bytes_size bytes - 1) 0 ≠ 0) := by
  have hn : decVal s < 2 ^ (8 * estimate s.length) :=
    lt_of_lt_of_le (decVal_lt s hs) (pow_ten_le_estimate _)
  exact ⟨_, base10to256_mem_short alloc front s hs hlen ha1 ha2,
    canonical_msb_nonzero _ _ (Nat.succ_pos _) hn⟩

/-- For strings of fewer than `2 ^ 27` digits, whatever bytes lie in front of the
working copy: the loop runs to its end without a failed assertion and the buffer
returned has a logical size of at most `len = d * 416 / 1000 + 1` in an
allocation of `len` bytes. -/
theorem estimate_sufficient_short (alloc : Nat → Bool) (front s : List Nat)
    (hs : allDigits s) (hlen : s.length < 2 ^ 27)
    (ha1 : alloc (s.length + 1) = true)
    (ha2 : alloc (Bytes_header_size + estimate s.length) = true) :
    ∃ bytes, base10to256_mem alloc front (some s) = .ok bytes ∧
      Bytes_size bytes ≤ estimate s.length ∧ bytes.data.length = estimate s.length := by
  have hn : decVal s < 2 ^ (8 * estimate s.length) :=
    lt_of_lt_of_le (decVal_lt s hs) (pow_ten_le_estimate _)
  refine ⟨_, base10to256_mem_short alloc front s hs hlen ha1 ha2,
    canonical_size_le _ _ (Nat.succ_pos _) hn, ?_⟩
  simp [canonical]

/-- The digit `'6'` behind `2 ^ 28` characters `'0'`, the byte in front of the
working copy being `0`: round 0 moves the pointer back by one character, round 1
reads the `0` byte and stops, and the buffer returned holds the single byte 0. -/
theorem base10to256_mem_six (pre : List Nat) :
    ∃ bytes, base10to256_mem allocAlways (pre ++ [0])
        (some (List.replicate (2 ^ 28) '0'.toNat ++ ['6'.toNat])) = .ok bytes ∧
      Bytes_size bytes = 1 ∧ bytes.data.getD 0 0 = 0 := by
  obtain ⟨bytes, h, hsz, hw, hbits⟩ :=
    base10to256_mem_saturated pre (2 ^ 28) ['6'.toNat] 6 0 (by decide) (by decide) (by decide)
      (by decide) (by decide) (by decide) (by decide)
  refine ⟨bytes, h, hsz, ?_⟩
  apply byte_eq_of_bits _ 0 0 hw (by norm_num)
  intro t _
  rw [hbits]
  simp

/-- C3. Failing input: `2 ^ 28` characters `'0'` followed by `"767"` (all decimal
digits, length within `SIZE_MAX / 416`, allocations succeeding), when the byte
in front of the working copy is 0 (`pre` is whatever lies in front of that
byte).  The count field of the flags is saturated in every round; rounds 0 to 7
leave a remainder and store the bits 0 to 7, round 8 leaves none and
`flags / LEADING_ZERO_COUNT` is `-1`, round 9 reads the 0 byte in front of the
copy and stops.  The buffer returned has logical size 2 and its last byte is 0:
it holds `FF 00`, where the number 767 is `FF 02`. -/
theorem base10to256_last_byte_zero (pre : List Nat) :
    ∃ bytes, base10to256_mem allocAlways (pre ++ [0])
        (some (List.replicate (2 ^ 28) '0'.toNat ++ ['7'.toNat, '6'.toNat, '7'.toNat]))
        = .ok bytes ∧
      Bytes_size bytes = 2 ∧ bytes.data.getD 0 0 = 0xFF ∧
      bytes.data.getD (Bytes_size bytes - 1) 0 = 0 := by
  obtain ⟨bytes, h, hsz, hw, hbits⟩ :=
    base10to256_mem_saturated pre (2 ^ 28) ['7'.toNat, '6'.toNat, '7'.toNat] 767 8
      (by decide) (by decide) (by decide) (by decide) (by decide) (by decide) (by decide)
  have hsz2 : Bytes_size bytes = 2 := hsz
  refine ⟨bytes, h, hsz2, ?_, ?_⟩
  · apply byte_eq_of_bits _ 0 0xFF hw (by norm_num)
    intro t ht
    rw [hbits]
    interval_cases t <;> decide
  · rw [hsz2]
    apply byte_eq_of_bits _ 1 0 hw (by norm_num)
    intro t ht
    rw [hbits]
    interval_cases t <;> decide

/-- C13. Failing input: `2 ^ 27` characters `'0'` followed by `'2'` (a string of
`d = 2 ^ 27 + 1` decimal digits, `d <= SIZE_MAX / 416`, allocations succeeding),
when the `2 ^ 27` bytes in front of the working copy hold the character `'9'`
(`pre` is whatever lies in front of them).  Round 0 moves the pointer back by
`2 ^ 27` characters; from round 1 on the loop halves the number that the nines
and the working copy denote, which has more than `8 * len` bits for
`len = d * 416 / 1000 + 1`: the loop continues at the bit index `8 * len` and
the assertion `bit_num / 8 < len` fails. -/
theorem base10to256_estimate_exceeded (pre : List Nat) :
    2 ^ 27 + 1 ≤ SIZE_MAX / BASE_RATIO_NUM ∧
      base10to256_mem allocAlways (pre ++ List.replicate (2 ^ 27) '9'.toNat)
          (some (List.replicate (2 ^ 27) '0'.toNat ++ ['2'.toNat])) = .error .assertion :=
  ⟨by decide, base10to256_mem_overflow pre (2 ^ 27) rfl⟩

end DecimalToBinary
